import Mathlib

/-!
# B-tree of `src/BTree.h`

A shallow embedding of the `Node<Key>` struct and the `BTree<Key>` class.

* `Key` is instantiated at `Int`: the source builds `{NULL, nullptr}` pairs of type
  `std::pair<Key, Node<Key> *>` and passes `NULL` as an `int` index, so `Key` is an
  integral type; `NULL` is `0`.
* A `Node<Key> *` is a value of `NodePtr`: the null pointer, or an owned node given
  by its `keys_` and `children_`.  Ownership in the source is a tree (every node is
  held by one slot: `root_` or one entry of one `children_` vector), so a pointer
  is identified with the subtree it points to.
* A function that writes through a pointer returns the new contents of the slot that
  owns the written object.  Functions that also write the counters of the tree take
  and return the `BTree` record; the slot `root_` itself is assigned by `Insert` and
  `Remove` from the returned pointer.
* Undefined behaviour of the source (null dereference, index out of range, `front()`
  or `back()` of an empty vector) is the result `none`.
* The counters `num_nodes_`, `num_keys_` and `height_` are 32-bit `int`: every `++` and
  `--` on them goes through `wrap32`, the two's-complement wrap-around of the compiled
  code (the standard leaves signed overflow undefined), so `num_keys_` is `-2^31` after
  `2^31` calls of `Insert` and `0` after `2^32`.  The fields of `BTree` are `Int` and hold
  values of that range on every tree reached from the constructor.  The degree is an `Int`
  (the constructor computes `kMaxKeys_` and `kMinKeys_` without overflow for every `int`
  degree of at least 3) and the indices into the vectors are `Nat`.
-/

/-- The value of a 32-bit `int` after an operation with the mathematical result `x`:
the representative of `x` modulo `2^32` in `[-2^31, 2^31)`. -/
def wrap32 (x : Int) : Int := (x + 2147483648) % 4294967296 - 2147483648

/-- The value of a 32-bit counter after `k` executions of `++`, starting from `x`. -/
def incr32 : Nat → Int → Int
  | 0, x => x
  | k + 1, x => wrap32 (incr32 k x + 1)

/-- A value of type `Node<Key> *`. -/
inductive NodePtr where
  | null : NodePtr
  | node (keys_ : List Int) (children_ : List NodePtr) : NodePtr

namespace NodePtr

/-- Test `p == nullptr`. -/
def isNull : NodePtr → Bool
  | null => true
  | node _ _ => false

/-- The vector `keys_` of the node pointed to (empty for the null pointer). -/
def keys : NodePtr → List Int
  | null => []
  | node ks _ => ks

/-- The vector `children_` of the node pointed to (empty for the null pointer). -/
def children : NodePtr → List NodePtr
  | null => []
  | node _ cs => cs

end NodePtr

/-- Effect of `v.insert(v.begin() + idx, x)` for `idx <= v.size()`. -/
def insertAt {α : Type} (v : List α) (idx : Nat) (x : α) : List α :=
  v.take idx ++ x :: v.drop idx

namespace Node

/-- Method `Node::NumKeys`. -/
def NumKeys : NodePtr → Option Int
  | .null => none
  | .node keys _ => some keys.length

/-- Method `Node::NumChildren`. -/
def NumChildren : NodePtr → Option Int
  | .null => none
  | .node _ children => some children.length

/-- Method `Node::RemoveKeyAt`: erase `keys_[idx]` and `children_[idx + 1]`. -/
def RemoveKeyAt : NodePtr → Nat → Option NodePtr
  | .null, _ => none
  | .node keys children, idx =>
    if idx < keys.length ∧ idx + 1 < children.length then
      some (.node (keys.eraseIdx idx) (children.eraseIdx (idx + 1)))
    else none

/-- Method `Node::InsertKeyAt`. -/
def InsertKeyAt : NodePtr → Int → Nat → Option NodePtr
  | .null, _, _ => none
  | .node keys children, key, idx =>
    if idx ≤ keys.length then some (.node (insertAt keys idx key) children) else none

/-- Method `Node::InsertChildAt`. -/
def InsertChildAt : NodePtr → NodePtr → Nat → Option NodePtr
  | .null, _, _ => none
  | .node keys children, child, idx =>
    if idx ≤ children.length then some (.node keys (insertAt children idx child)) else none

/-- Method `Node::Split`: returns the node as it is left, the median and `new_child`.
The first loop copies `keys_[i]`, `children_[i]` for `median_idx < i < keys_.size()`,
then `children_.back()` is appended; the second loop pops
`remove_count = keys_.size() - median_idx` entries from both vectors. -/
def Split : NodePtr → Option (NodePtr × Int × NodePtr)
  | .null => none
  | .node keys children =>
    let median_idx := keys.length / 2
    match keys[median_idx]?, children.getLast? with
    | some median, some back =>
      let remove_count := keys.length - median_idx
      if (median_idx + 1 < keys.length → keys.length ≤ children.length)
          ∧ remove_count ≤ children.length then
        let new_child := NodePtr.node (keys.drop (median_idx + 1))
          ((children.drop (median_idx + 1)).take (keys.length - (median_idx + 1)) ++ [back])
        some (.node (keys.take (keys.length - remove_count))
                (children.take (children.length - remove_count)), median, new_child)
      else none
    | _, _ => none

/-- The constructor `Node(Key key)`. -/
def ofKey (key : Int) : NodePtr := .node [key] [.null, .null]

end Node

/-- The exception thrown by the constructor of `BTree`. -/
inductive Exn where
  | invalid_argument : Exn

/-- The data members of `BTree<Key>`. -/
structure BTree where
  kMaxDegree_ : Int
  kMaxKeys_ : Int
  kMinKeys_ : Int
  root_ : NodePtr
  num_nodes_ : Int
  num_keys_ : Int
  height_ : Int

/-- The loop of `FindKeysIdx`: the number of leading keys that are `< key`. -/
def scanKeys : List Int → Int → Nat
  | [], _ => 0
  | k :: ks, key => if k < key then scanKeys ks key + 1 else 0

/-- The loop of `ConcatenateNodes` on the vectors of `l_sibling` and `r_sibling`, followed by
the final `push_back` of `r_sibling->children_.front()`; returns the vectors of `l_sibling`
and what is left of `r_sibling->children_`. -/
def concatLoop : List Int → List NodePtr → List Int → List NodePtr →
    Option (List Int × List NodePtr × List NodePtr)
  | lk, lc, [], rc =>
    match rc with
    | [] => none
    | c :: rc => some (lk, lc ++ [c], c :: rc)
  | lk, lc, k :: rk, rc =>
    match rc with
    | [] => none
    | c :: rc => concatLoop (lk ++ [k]) (lc ++ [c]) rk rc

namespace BTree

/-- The constructor `BTree(kMaxDegree)`; `/` and `%` of the source truncate. -/
def Construct (kMaxDegree : Int) : Except Exn BTree :=
  if kMaxDegree < 3 then .error .invalid_argument
  else .ok
    { kMaxDegree_ := kMaxDegree
      kMaxKeys_ := kMaxDegree - 1
      kMinKeys_ := (Int.tdiv kMaxDegree 2 + Int.tmod kMaxDegree 2) - 1
      root_ := .null
      num_nodes_ := 0
      num_keys_ := 0
      height_ := 0 }

/-- Method `BTree::NumNodes`. -/
def NumNodes (t : BTree) : Int := t.num_nodes_

/-- Method `BTree::NumKeys`. -/
def NumKeys (t : BTree) : Int := t.num_keys_

/-- Method `BTree::Height`. -/
def Height (t : BTree) : Int := t.height_

/-- Method `BTree::Empty`. -/
def Empty (t : BTree) : Bool := t.num_keys_ == 0

/-- Method `BTree::FindKeysIdx`. -/
def FindKeysIdx : NodePtr → Int → Option Nat
  | .null, _ => none
  | .node keys _, key => some (scanKeys keys key)

/-- Method `BTree::IsLeafNode`. -/
def IsLeafNode : NodePtr → Option Bool
  | .null => none
  | .node _ children => some (children.all NodePtr.isNull)

mutual
/-- Method `BTree::SearchNode`. -/
def SearchNode : NodePtr → Int → Option NodePtr
  | .null, _ => none
  | .node keys children, key =>
    let idx := scanKeys keys key
    if keys[idx]? = some key then some (.node keys children)
    else if children.all NodePtr.isNull then some .null
    else SearchNodeAt children idx key
/-- The call `SearchNode(root->children_[idx], key)`. -/
def SearchNodeAt : List NodePtr → Nat → Int → Option NodePtr
  | [], _, _ => none
  | c :: _, 0, key => SearchNode c key
  | _ :: cs, i + 1, key => SearchNodeAt cs i key
end

/-- Method `BTree::Find`. -/
def Find (t : BTree) (key : Int) : Option NodePtr :=
  if t.Empty then some .null else SearchNode t.root_ key

/-- The loop `while (!IsLeafNode(itr)) itr = itr->children_.front();` of
`InOrderSuccessor`, returning the final `itr`. -/
def descendFront : NodePtr → Option NodePtr
  | .null => none
  | .node keys children =>
    if children.all NodePtr.isNull then some (.node keys children)
    else
      match children with
      | [] => none
      | c :: _ => descendFront c

/-- Method `BTree::InOrderSuccessor`. -/
def InOrderSuccessor (t : BTree) (key : Int) : Option Int :=
  match t.Find key with
  | some (.node keys children) =>
    let idx := scanKeys keys key
    match children[idx + 1]? with
    | none => none
    | some itr =>
      match descendFront itr with
      | some (.node lkeys _) => lkeys.head?
      | _ => none
  | _ => none

mutual
/-- The write `root->keys_[idx] = new_key` of `FindAndReplace` at the node that
`SearchNode(root, to_replace)` returns; the result is the new contents of the slot of `root`. -/
def ReplaceNode : NodePtr → Int → Int → Option NodePtr
  | .null, _, _ => none
  | .node keys children, to_replace, new_key =>
    let idx := scanKeys keys to_replace
    if keys[idx]? = some to_replace then some (.node (keys.set idx new_key) children)
    else if children.all NodePtr.isNull then none
    else
      match ReplaceNodeAt children idx to_replace new_key with
      | none => none
      | some children1 => some (.node keys children1)
/-- The same below `root->children_[idx]`; the result is the new `children_` of `root`. -/
def ReplaceNodeAt : List NodePtr → Nat → Int → Int → Option (List NodePtr)
  | [], _, _, _ => none
  | c :: cs, 0, to_replace, new_key =>
    match ReplaceNode c to_replace new_key with
    | none => none
    | some c1 => some (c1 :: cs)
  | c :: cs, i + 1, to_replace, new_key =>
    match ReplaceNodeAt cs i to_replace new_key with
    | none => none
    | some cs1 => some (c :: cs1)
end

/-- Method `BTree::FindAndReplace`: `Find` returns `nullptr` on an empty tree or a missing key, which
`FindKeysIdx` then dereferences. -/
def FindAndReplace (t : BTree) (to_replace new_key : Int) : Option BTree :=
  if t.Empty then none
  else
    match ReplaceNode t.root_ to_replace new_key with
    | none => none
    | some root1 => some { t with root_ := root1 }

/-- The result of `InsertAndSplit` and `RecursiveInsert`: the returned pair
(`first`, `second`), the node `root` as it is left, and the counter `num_nodes_`. -/
structure InsertResult where
  first : Int
  second : NodePtr
  root : NodePtr
  num_nodes_ : Int

/-- Method `BTree::InsertAndSplit`. -/
def InsertAndSplit (kMaxKeys_ num_nodes_ : Int) (root : NodePtr) (new_key : Int)
    (new_child : NodePtr) (idx : Nat) : Option InsertResult :=
  match Node.InsertKeyAt root new_key idx with
  | none => none
  | some root1 =>
    match Node.InsertChildAt root1 new_child (idx + 1) with
    | none => none
    | some root2 =>
      if kMaxKeys_ < (root2.keys.length : Int) then
        match Node.Split root2 with
        | none => none
        | some (root3, median, right) =>
          some { first := median, second := right, root := root3,
                 num_nodes_ := wrap32 (num_nodes_ + 1) }
      else
        some { first := 0, second := .null, root := root2, num_nodes_ := num_nodes_ }

mutual
/-- Method `BTree::RecursiveInsert`. -/
def RecursiveInsert (kMaxKeys_ num_nodes_ : Int) : NodePtr → Int → Option InsertResult
  | .null, _ => none
  | .node keys children, key =>
    let idx := scanKeys keys key
    if keys[idx]? = some key then
      some { first := 0, second := .null, root := .node keys children, num_nodes_ := num_nodes_ }
    else if children.all NodePtr.isNull then
      InsertAndSplit kMaxKeys_ num_nodes_ (.node keys children) key .null idx
    else
      match RecursiveInsertAt kMaxKeys_ num_nodes_ children idx key with
      | none => none
      | some (split_result, children1) =>
        if split_result.second.isNull then
          some { split_result with root := .node keys children1 }
        else
          InsertAndSplit kMaxKeys_ split_result.num_nodes_ (.node keys children1)
            split_result.first split_result.second idx
/-- The call `RecursiveInsert(root->children_[idx], key)`; returns its result and the
vector `children_` of `root` with the child as the call leaves it. -/
def RecursiveInsertAt (kMaxKeys_ num_nodes_ : Int) :
    List NodePtr → Nat → Int → Option (InsertResult × List NodePtr)
  | [], _, _ => none
  | c :: cs, 0, key =>
    match RecursiveInsert kMaxKeys_ num_nodes_ c key with
    | none => none
    | some r => some (r, r.root :: cs)
  | c :: cs, i + 1, key =>
    match RecursiveInsertAt kMaxKeys_ num_nodes_ cs i key with
    | none => none
    | some (r, cs1) => some (r, c :: cs1)
end

/-- Method `BTree::Insert`. -/
def Insert (t : BTree) (key : Int) : Option BTree :=
  if t.Empty then
    some { t with root_ := Node.ofKey key
                  num_nodes_ := wrap32 (t.num_nodes_ + 1)
                  num_keys_ := wrap32 (t.num_keys_ + 1) }
  else
    match RecursiveInsert t.kMaxKeys_ t.num_nodes_ t.root_ key with
    | none => none
    | some split_result =>
      if split_result.second.isNull then
        some { t with root_ := split_result.root
                      num_nodes_ := split_result.num_nodes_
                      num_keys_ := wrap32 (t.num_keys_ + 1) }
      else
        some { t with root_ := .node [split_result.first] [split_result.root, split_result.second]
                      num_nodes_ := wrap32 (split_result.num_nodes_ + 1)
                      height_ := wrap32 (t.height_ + 1)
                      num_keys_ := wrap32 (t.num_keys_ + 1) }

/-- Method `BTree::RotateLeft`; the result is `parent` as it is left. -/
def RotateLeft (parent : NodePtr) (idx : Nat) : Option NodePtr :=
  match parent with
  | .null => none
  | .node pkeys pchildren =>
    match pchildren[idx + 1]?, pchildren[idx]?, pkeys[idx]? with
    | some (.node (rk0 :: rkeys) (rc0 :: rchildren)), some (.node lkeys lchildren),
        some separator =>
      some (.node (pkeys.set idx rk0)
        ((pchildren.set idx (.node (lkeys ++ [separator]) (lchildren ++ [rc0]))).set (idx + 1)
          (.node rkeys rchildren)))
    | _, _, _ => none

/-- Method `BTree::RotateRight`; the result is `parent` as it is left. -/
def RotateRight (parent : NodePtr) (idx : Nat) : Option NodePtr :=
  match parent with
  | .null => none
  | .node pkeys pchildren =>
    if idx = 0 then none
    else
      match pchildren[idx - 1]?, pchildren[idx]?, pkeys[idx - 1]? with
      | some (.node lkeys lchildren), some (.node rkeys rchildren), some separator =>
        match lkeys.getLast?, lchildren.getLast? with
        | some lk, some lc =>
          some (.node (pkeys.set (idx - 1) lk)
            ((pchildren.set idx (.node (separator :: rkeys) (lc :: rchildren))).set (idx - 1)
              (.node lkeys.dropLast lchildren.dropLast)))
        | _, _ => none
      | _, _, _ => none

/-- Method `BTree::ConcatenateNodes`; returns `l_sibling` and `r_sibling` as they are left. -/
def ConcatenateNodes (l_sibling r_sibling : NodePtr) : Option (NodePtr × NodePtr) :=
  match l_sibling, r_sibling with
  | .node lkeys lchildren, .node rkeys rchildren =>
    match concatLoop lkeys lchildren rkeys rchildren with
    | none => none
    | some (lkeys1, lchildren1, rchildren1) =>
      some (.node lkeys1 lchildren1, .node [] rchildren1)
  | _, _ => none

/-- Method `BTree::MergeSiblings`.  The flag `parent_is_root` is the value of `parent == root_`;
the result is the counters and the new contents of the slot that owned `parent`
(`l_sibling` when `root_` is reassigned). -/
def MergeSiblings (t : BTree) (parent_is_root : Bool) (parent : NodePtr) (idx : Nat) :
    Option (BTree × NodePtr) :=
  match parent with
  | .null => none
  | .node pkeys pchildren =>
    let has_right_sibling := idx + 1 < pchildren.length
    if ¬ has_right_sibling ∧ idx = 0 then none
    else
      let l_idx := if has_right_sibling then idx else idx - 1
      match pchildren[l_idx]?, pchildren[l_idx + 1]?, pkeys[l_idx]? with
      | some (.node lkeys lchildren), some r_sibling, some separator =>
        match ConcatenateNodes (.node (lkeys ++ [separator]) lchildren) r_sibling with
        | none => none
        | some (l_sibling, r_sibling1) =>
          let to_remove_idx := scanKeys pkeys separator
          match Node.RemoveKeyAt
              (.node pkeys ((pchildren.set l_idx l_sibling).set (l_idx + 1) r_sibling1))
              to_remove_idx with
          | none => none
          | some parent1 =>
            if parent_is_root ∧ parent1.keys.isEmpty then
              some ({ t with num_nodes_ := wrap32 (t.num_nodes_ - 1),
                             height_ := wrap32 (t.height_ - 1) },
                l_sibling)
            else some (t, parent1)
      | _, _, _ => none

/-- Method `BTree::BalanceTree`; both flags are computed before the branch. -/
def BalanceTree (t : BTree) (parent_is_root : Bool) (parent : NodePtr) (idx : Nat) :
    Option (BTree × NodePtr) :=
  match parent with
  | .null => none
  | .node _ pchildren =>
    let rotate_left : Option Bool :=
      if idx + 1 < pchildren.length then
        match pchildren[idx + 1]? with
        | some (.node rkeys _) => some (decide (t.kMinKeys_ < (rkeys.length : Int)))
        | _ => none
      else some false
    let rotate_right : Option Bool :=
      if 1 ≤ idx then
        match pchildren[idx - 1]? with
        | some (.node lkeys _) => some (decide (t.kMinKeys_ < (lkeys.length : Int)))
        | _ => none
      else some false
    match rotate_left, rotate_right with
    | some rl, some rr =>
      if rl then (RotateLeft parent idx).map (fun p => (t, p))
      else if rr then (RotateRight parent idx).map (fun p => (t, p))
      else MergeSiblings t parent_is_root parent idx
    | _, _ => none

/-- Method `BTree::BalanceIfNeeded`.  `root` is the node held in `parent->children_[root_idx]` as the
caller has left it; the result is the new contents of the slot that owned `parent`, or of
the slot of `root` when `parent` is null. -/
def BalanceIfNeeded (t : BTree) (parent_is_root : Bool) (parent root : NodePtr)
    (root_idx : Nat) : Option (BTree × NodePtr) :=
  match parent with
  | .null => some (t, root)
  | .node pkeys pchildren =>
    match root with
    | .null => none
    | .node rkeys _ =>
      if (rkeys.length : Int) < t.kMinKeys_ then
        BalanceTree t parent_is_root (.node pkeys (pchildren.set root_idx root)) root_idx
      else some (t, .node pkeys (pchildren.set root_idx root))

mutual
/-- Method `BTree::RecursiveRemove`.  The flag `parent_is_root` is the value of `parent == root_`;
in the nested call the parent is `root`, which is `root_` exactly when `parent` is null. -/
def RecursiveRemove (t : BTree) (parent_is_root : Bool) (parent : NodePtr) :
    NodePtr → Nat → Int → Option (BTree × NodePtr)
  | .null, _, _ => none
  | .node keys children, root_idx, key =>
    let idx := scanKeys keys key
    if keys[idx]? = some key then
      match Node.RemoveKeyAt (.node keys children) idx with
      | none => none
      | some root1 => BalanceIfNeeded t parent_is_root parent root1 root_idx
    else
      match RecursiveRemoveAt t parent.isNull (.node keys children) children idx idx key with
      | none => none
      | some (t1, root1) => BalanceIfNeeded t1 parent_is_root parent root1 root_idx
/-- The call `RecursiveRemove(root, root->children_[idx], idx, key)`, the entry being looked up
in the remaining vector at position `i`. -/
def RecursiveRemoveAt (t : BTree) (parent_is_root : Bool) (parent : NodePtr) :
    List NodePtr → Nat → Nat → Int → Option (BTree × NodePtr)
  | [], _, _, _ => none
  | c :: _, 0, idx, key => RecursiveRemove t parent_is_root parent c idx key
  | _ :: cs, i + 1, idx, key => RecursiveRemoveAt t parent_is_root parent cs i idx key
end

/-- Method `BTree::Remove`. -/
def Remove (t : BTree) (key : Int) : Option BTree :=
  match t.Find key with
  | none => none
  | some .null => some t
  | some (.node _ fchildren) =>
    if t.NumKeys = 1 then
      some { t with root_ := .null
                    num_nodes_ := wrap32 (t.num_nodes_ - 1)
                    num_keys_ := wrap32 (t.num_keys_ - 1) }
    else if fchildren.all NodePtr.isNull then
      match RecursiveRemove t false .null t.root_ 0 key with
      | none => none
      | some (t1, root1) =>
        some { t1 with root_ := root1, num_keys_ := wrap32 (t1.num_keys_ - 1) }
    else
      match t.InOrderSuccessor key with
      | none => none
      | some new_separator =>
        match RecursiveRemove t false .null t.root_ 0 new_separator with
        | none => none
        | some (t1, root1) =>
          match FindAndReplace { t1 with root_ := root1 } key new_separator with
          | none => none
          | some t2 => some { t2 with num_keys_ := wrap32 (t2.num_keys_ - 1) }

/-- Method `BTree::Clear`. -/
def Clear (t : BTree) : BTree :=
  { t with root_ := .null, num_nodes_ := 0, num_keys_ := 0, height_ := 0 }

end BTree

/-- One call of the public interface that changes the tree. -/
inductive Op where
  | Insert (key : Int) : Op
  | Remove (key : Int) : Op

namespace BTree

/-- Apply one call. -/
def step (t : BTree) : Op → Option BTree
  | .Insert key => t.Insert key
  | .Remove key => t.Remove key

/-- Apply a sequence of calls, first call first. -/
def run (t : BTree) : List Op → Option BTree
  | [] => some t
  | op :: ops =>
    match t.step op with
    | none => none
    | some t1 => run t1 ops

/-- Construct a tree of the given degree and apply a sequence of calls to it. -/
def runFresh (kMaxDegree : Int) (ops : List Op) : Option BTree :=
  match Construct kMaxDegree with
  | .error _ => none
  | .ok t => t.run ops

end BTree

mutual
/-- In-order traversal: child 0, key 0, child 1, key 1, and so on. -/
def inorder : NodePtr → List Int
  | .null => []
  | .node ks cs => interleave ks cs
/-- In-order traversal of a key vector and a child vector. -/
def interleave : List Int → List NodePtr → List Int
  | ks, [] => ks
  | [], c :: cs => inorder c ++ interleave [] cs
  | k :: ks, c :: cs => inorder c ++ k :: interleave ks cs
end

mutual
/-- Number of nodes reachable from a pointer. -/
def countNodes : NodePtr → Nat
  | .null => 0
  | .node _ cs => 1 + countNodesList cs
/-- Number of nodes reachable from a vector of pointers. -/
def countNodesList : List NodePtr → Nat
  | [] => 0
  | c :: cs => countNodes c + countNodesList cs
end

mutual
/-- A property of the `keys_` and `children_` of every node reachable from a pointer. -/
def AllNodes (P : List Int → List NodePtr → Prop) : NodePtr → Prop
  | .null => True
  | .node ks cs => P ks cs ∧ AllNodesList P cs
/-- The same for every pointer of a vector. -/
def AllNodesList (P : List Int → List NodePtr → Prop) : List NodePtr → Prop
  | [] => True
  | c :: cs => AllNodes P c ∧ AllNodesList P cs
end

mutual
/-- The depths of the leaves reachable from a pointer that is itself at depth `d`. -/
def leafDepths (d : Nat) : NodePtr → List Nat
  | .null => []
  | .node _ cs => if cs.all NodePtr.isNull then [d] else leafDepthsList d cs
/-- The depths of the leaves below the children of a node at depth `d`. -/
def leafDepthsList (d : Nat) : List NodePtr → List Nat
  | [] => []
  | c :: cs => leafDepths (d + 1) c ++ leafDepthsList d cs
end

/-- A non-root subtree with `n` levels: the null pointer for `n = 0`, otherwise a node with
one more child than keys, between `lo` and `hi` keys, and children that are subtrees with
`n - 1` levels. -/
def Subtree (lo hi : Int) : Nat → NodePtr → Prop
  | 0, .null => True
  | 0, .node _ _ => False
  | _ + 1, .null => False
  | n + 1, .node ks cs =>
    cs.length = ks.length + 1 ∧ lo ≤ (ks.length : Int) ∧ (ks.length : Int) ≤ hi
      ∧ ∀ c ∈ cs, Subtree lo hi n c

/-- A node of height `h`, with no condition on its own number of keys: one more child than
keys, and the children are subtrees with `h` levels. -/
def NodeOK (lo hi : Int) (h : Nat) : NodePtr → Prop
  | .null => False
  | .node ks cs => cs.length = ks.length + 1 ∧ ∀ c ∈ cs, Subtree lo hi h c

/-- The effect of one call on a mathematical set of keys. -/
def Op.apply (s : Finset Int) : Op → Finset Int
  | .Insert key => insert key s
  | .Remove key => s.erase key

/-- The set of keys after a sequence of calls, first call first, started from `s`. -/
def replayFrom (s : Finset Int) : List Op → Finset Int
  | [] => s
  | op :: ops => replayFrom (op.apply s) ops

/-- The set of keys after a sequence of calls replayed on the empty set. -/
def replay (ops : List Op) : Finset Int := replayFrom ∅ ops

/-- In-order traversal of what follows a child: the next key first. -/
def interleaveTail : List Int → List NodePtr → List Int
  | [], cs => interleave [] cs
  | k :: ks, cs => k :: interleave ks cs

/-- The relation between the data members of a tree of degree `d` that the calls keep as long
as `num_keys_` has not overflowed:
the constants are those of the constructor; the root is absent exactly when the key counter
is `0`, and then the height is `0`; otherwise the root is a node of height `height_` whose
children are proper subtrees, it holds at most `kMaxKeys_` keys and at least one when it is
not a leaf, the in-order traversal is strictly increasing, and the key counter is at least
the number of keys stored. -/
def TreeInv (d : Int) (t : BTree) : Prop :=
  3 ≤ d ∧ t.kMaxDegree_ = d ∧ t.kMaxKeys_ = d - 1
    ∧ t.kMinKeys_ = (Int.tdiv d 2 + Int.tmod d 2) - 1
    ∧ ((t.root_ = .null ∧ t.num_keys_ = 0 ∧ t.height_ = 0)
      ∨ (∃ h : Nat, t.height_ = h ∧ NodeOK t.kMinKeys_ t.kMaxKeys_ h t.root_
          ∧ (t.root_.keys.length : Int) ≤ t.kMaxKeys_ ∧ (0 < h → 1 ≤ t.root_.keys.length)
          ∧ (inorder t.root_).Pairwise (· < ·)
          ∧ ((inorder t.root_).length : Int) ≤ t.num_keys_ ∧ 1 ≤ t.num_keys_))

/-- The part of that relation that every call keeps, whatever the counters hold: the
constants are those of the constructor; the root is absent only when the key counter is `0`;
a root that is present is a node whose children are proper subtrees of one height, it holds
at most `kMaxKeys_` keys and at least one when it is not a leaf, and the in-order traversal
is strictly increasing. -/
def StructInv (d : Int) (t : BTree) : Prop :=
  3 ≤ d ∧ t.kMaxDegree_ = d ∧ t.kMaxKeys_ = d - 1
    ∧ t.kMinKeys_ = (Int.tdiv d 2 + Int.tmod d 2) - 1
    ∧ ((t.root_ = .null ∧ t.num_keys_ = 0)
      ∨ (∃ h : Nat, NodeOK t.kMinKeys_ t.kMaxKeys_ h t.root_
          ∧ (t.root_.keys.length : Int) ≤ t.kMaxKeys_ ∧ (0 < h → 1 ≤ t.root_.keys.length)
          ∧ (inorder t.root_).Pairwise (· < ·)))

/-- The three counters hold values of a 32-bit `int`. -/
def CountersInRange (t : BTree) : Prop :=
  (-2147483648 ≤ t.num_nodes_ ∧ t.num_nodes_ < 2147483648)
    ∧ (-2147483648 ≤ t.num_keys_ ∧ t.num_keys_ < 2147483648)
    ∧ (-2147483648 ≤ t.height_ ∧ t.height_ < 2147483648)

/-- The number of `Insert` calls in a sequence of calls. -/
def insertCalls : List Op → Nat
  | [] => 0
  | .Insert _ :: ops => insertCalls ops + 1
  | .Remove _ :: ops => insertCalls ops

/-- The ordering of one node: the keys under `children_[i]` are below `keys_[i]`, which is
below the keys under `children_[i + 1]`. -/
def LocalOrder (ks : List Int) (cs : List NodePtr) : Prop :=
  ∀ i k, ks[i]? = some k →
    (∀ c, cs[i]? = some c → ∀ x ∈ inorder c, x < k)
      ∧ (∀ c, cs[i + 1]? = some c → ∀ x ∈ inorder c, k < x)

/-- The shape of one node: one more child than keys, and the children are all null (a leaf)
or all non-null (an internal node). -/
def NodeShape (ks : List Int) (cs : List NodePtr) : Prop :=
  cs.length = ks.length + 1
    ∧ (cs.all NodePtr.isNull = true ∨ cs.all (fun c => !c.isNull) = true)

/-- The fill factor of one node: between `lo` and `hi` keys. -/
def NodeFill (lo hi : Int) (ks : List Int) (_ : List NodePtr) : Prop :=
  lo ≤ (ks.length : Int) ∧ (ks.length : Int) ≤ hi

mutual
/-- The number of nodes that `SearchNode(root, key)` visits: one for every call on a
non-null `root`. -/
def SearchNodeVisits : NodePtr → Int → Nat
  | .null, _ => 0
  | .node keys children, key =>
    let idx := scanKeys keys key
    if keys[idx]? = some key then 1
    else if children.all NodePtr.isNull then 1
    else 1 + SearchNodeVisitsAt children idx key
/-- The visits of the call `SearchNode(root->children_[idx], key)`. -/
def SearchNodeVisitsAt : List NodePtr → Nat → Int → Nat
  | [], _, _ => 0
  | c :: _, 0, key => SearchNodeVisits c key
  | _ :: cs, i + 1, key => SearchNodeVisitsAt cs i key
end

open BTree

/-! ## 32-bit counters -/

theorem wrap32_of_range (x : Int) (h1 : -2147483648 ≤ x) (h2 : x < 2147483648) :
    wrap32 x = x := by
  unfold wrap32
  omega

theorem wrap32_range (x : Int) : -2147483648 ≤ wrap32 x ∧ wrap32 x < 2147483648 := by
  unfold wrap32
  omega

theorem wrap32_wrap32_add (a b : Int) : wrap32 (wrap32 a + b) = wrap32 (a + b) := by
  unfold wrap32
  omega

theorem wrap32_zero : wrap32 0 = 0 := by
  unfold wrap32
  omega

theorem incr32_succ (k : Nat) (x : Int) : incr32 (k + 1) x = wrap32 (incr32 k x + 1) := rfl

theorem incr32_add (j k : Nat) (x : Int) : incr32 j (incr32 k x) = incr32 (j + k) x := by
  induction j with
  | zero => simp [incr32]
  | succ j ih =>
    rw [Nat.succ_add, incr32_succ, incr32_succ, ih]

theorem list_split_lt {α : Type} (l : List α) (i : Nat) (h : i < l.length) :
    ∃ l1 x l2, l = l1 ++ x :: l2 ∧ l1.length = i := by
  refine ⟨l.take i, l[i], l.drop (i + 1), ?_, ?_⟩
  · simp
  · simp; omega

theorem list_split_le {α : Type} (l : List α) (i : Nat) (h : i ≤ l.length) :
    ∃ l1 l2, l = l1 ++ l2 ∧ l1.length = i :=
  ⟨l.take i, l.drop i, (List.take_append_drop i l).symm, by simp; omega⟩

theorem getElem?_mid {α : Type} (l1 l2 : List α) (x : α) (i : Nat) (h : l1.length = i) :
    (l1 ++ x :: l2)[i]? = some x := by
  subst h
  rw [List.getElem?_append_right (le_refl _)]
  simp

theorem getElem?_mid_succ {α : Type} (l1 l2 : List α) (x y : α) (i : Nat)
    (h : l1.length = i) : (l1 ++ x :: y :: l2)[i + 1]? = some y := by
  subst h
  rw [List.getElem?_append_right (by omega)]
  simp

theorem getElem?_end {α : Type} (l1 : List α) (i : Nat) (h : l1.length = i) :
    l1[i]? = none := by
  subst h; simp

theorem set_mid {α : Type} (l1 l2 : List α) (x y : α) (i : Nat) (h : l1.length = i) :
    (l1 ++ x :: l2).set i y = l1 ++ y :: l2 := by
  subst h; simp

theorem set_mid_succ {α : Type} (l1 l2 : List α) (x y z : α) (i : Nat) (h : l1.length = i) :
    (l1 ++ x :: y :: l2).set (i + 1) z = l1 ++ x :: z :: l2 := by
  subst h
  have := set_mid (l1 ++ [x]) l2 y z (l1.length + 1) (by simp)
  simp at this
  simp [this]

theorem eraseIdx_mid {α : Type} (l1 l2 : List α) (x : α) (i : Nat) (h : l1.length = i) :
    (l1 ++ x :: l2).eraseIdx i = l1 ++ l2 := by
  subst h
  rw [List.eraseIdx_eq_take_drop_succ]
  rw [List.take_left' rfl]
  have : l1 ++ x :: l2 = (l1 ++ [x]) ++ l2 := by simp
  rw [this, List.drop_left' (by simp)]

theorem eraseIdx_mid_succ {α : Type} (l1 l2 : List α) (x y : α) (i : Nat)
    (h : l1.length = i) : (l1 ++ x :: y :: l2).eraseIdx (i + 1) = l1 ++ x :: l2 := by
  have := eraseIdx_mid (l1 ++ [x]) l2 y (i + 1) (by simp [h])
  simpa using this

theorem insertAt_mid {α : Type} (l1 l2 : List α) (x : α) (i : Nat) (h : l1.length = i) :
    insertAt (l1 ++ l2) i x = l1 ++ x :: l2 := by
  unfold insertAt
  rw [List.take_left' h, List.drop_left' h]

theorem insertAt_mid_succ {α : Type} (l1 l2 : List α) (x y : α) (i : Nat)
    (h : l1.length = i) : insertAt (l1 ++ y :: l2) (i + 1) x = l1 ++ y :: x :: l2 := by
  have := insertAt_mid (l1 ++ [y]) l2 x (i + 1) (by simp [h])
  simpa using this

/-- A list without repetition determines the position of each of its members. -/
theorem nodup_mid_unique {α : Type} {A B C D : List α} {x : α}
    (hn : (A ++ x :: B).Nodup) (h : A ++ x :: B = C ++ x :: D) : A = C ∧ B = D := by
  induction A generalizing C with
  | nil =>
    cases C with
    | nil => simpa using h
    | cons c C =>
      simp only [List.nil_append, List.cons_append, List.cons.injEq] at h
      obtain ⟨rfl, h⟩ := h
      rw [h] at hn
      simp at hn
  | cons a A ih =>
    cases C with
    | nil =>
      simp only [List.nil_append, List.cons_append, List.cons.injEq] at h
      obtain ⟨rfl, h⟩ := h
      simp at hn
    | cons c C =>
      simp only [List.cons_append, List.cons.injEq] at h
      obtain ⟨rfl, h⟩ := h
      have hn2 : (A ++ x :: B).Nodup := by
        simp only [List.cons_append, List.nodup_cons] at hn
        exact hn.2
      obtain ⟨h1, h2⟩ := ih hn2 h
      exact ⟨by rw [h1], h2⟩

theorem pairwise_lt_nodup {l : List Int} (h : l.Pairwise (· < ·)) : l.Nodup :=
  h.imp (fun hab => ne_of_lt hab)

/-! ## The scan of `FindKeysIdx` -/

theorem scanKeys_le (ks : List Int) (key : Int) : scanKeys ks key ≤ ks.length := by
  induction ks with
  | nil => simp [scanKeys]
  | cons k ks ih =>
    simp only [scanKeys]
    split
    · simp; omega
    · simp

theorem scanKeys_spec (ks : List Int) (key : Int) :
    ∃ ks1 ks2, ks = ks1 ++ ks2 ∧ scanKeys ks key = ks1.length ∧ (∀ k ∈ ks1, k < key)
      ∧ (∀ k, ks2.head? = some k → key ≤ k) := by
  induction ks with
  | nil => exact ⟨[], [], by simp [scanKeys]⟩
  | cons k ks ih =>
    obtain ⟨ks1, ks2, h1, h2, h3, h4⟩ := ih
    by_cases hk : k < key
    · refine ⟨k :: ks1, ks2, by simp [h1], by simp [scanKeys, hk, h2], ?_, h4⟩
      intro x hx
      rcases List.mem_cons.1 hx with rfl | hx
      · exact hk
      · exact h3 x hx
    · refine ⟨[], k :: ks, by simp, by simp [scanKeys, hk], by simp, ?_⟩
      intro x hx
      simp at hx
      omega

theorem scanKeys_append (ks1 ks2 : List Int) (x : Int) (h1 : ∀ k ∈ ks1, k < x)
    (h2 : ∀ k, ks2.head? = some k → x ≤ k) : scanKeys (ks1 ++ ks2) x = ks1.length := by
  induction ks1 with
  | nil =>
    cases ks2 with
    | nil => simp [scanKeys]
    | cons k ks2 =>
      have := h2 k (by simp)
      simp [scanKeys]; omega
  | cons k ks1 ih =>
    have hk : k < x := h1 k (by simp)
    have := ih (fun k hk => h1 k (by simp [hk]))
    show scanKeys (k :: (ks1 ++ ks2)) x = (k :: ks1).length
    simp only [scanKeys, hk, if_true, List.length_cons, this]

theorem scanKeys_mid (ks1 ks2 : List Int) (s : Int) (h1 : ∀ k ∈ ks1, k < s) :
    scanKeys (ks1 ++ s :: ks2) s = ks1.length :=
  scanKeys_append ks1 (s :: ks2) s h1 (by simp)

/-! ## Induction on nodes -/

theorem NodePtr.induct {P : NodePtr → Prop} (hnull : P .null)
    (hnode : ∀ ks cs, (∀ c ∈ cs, P c) → P (.node ks cs)) : ∀ p, P p := by
  intro p
  refine @NodePtr.rec P (fun cs => ∀ c ∈ cs, P c) hnull hnode ?_ ?_ p
  · intro c hc
    simp at hc
  · intro head tail h1 h2 c hc
    rcases List.mem_cons.1 hc with rfl | hc
    · exact h1
    · exact h2 c hc

theorem all_isNull_iff (cs : List NodePtr) :
    cs.all NodePtr.isNull = true ↔ ∀ c ∈ cs, c = .null := by
  simp only [List.all_eq_true]
  constructor
  · intro h c hc
    have := h c hc
    cases c with
    | null => rfl
    | node _ _ => simp [NodePtr.isNull] at this
  · intro h c hc
    rw [h c hc]
    rfl

/-! ## In-order traversal -/

theorem interleave_append (ks1 ks2 : List Int) (cs1 cs2 : List NodePtr)
    (h : cs1.length = ks1.length) :
    interleave (ks1 ++ ks2) (cs1 ++ cs2) = interleave ks1 cs1 ++ interleave ks2 cs2 := by
  induction ks1 generalizing cs1 with
  | nil =>
    cases cs1 with
    | nil => simp [interleave]
    | cons c cs1 => simp at h
  | cons k ks1 ih =>
    cases cs1 with
    | nil => simp at h
    | cons c cs1 =>
      simp only [List.length_cons, Nat.add_right_cancel_iff] at h
      simp [interleave, ih cs1 h]

theorem interleave_nulls (ks : List Int) (cs : List NodePtr) (h : ∀ c ∈ cs, c = .null) :
    interleave ks cs = ks := by
  induction cs generalizing ks with
  | nil => simp [interleave]
  | cons c cs ih =>
    have hc : c = .null := h c (by simp)
    have h2 : ∀ c ∈ cs, c = .null := fun c hc => h c (by simp [hc])
    subst hc
    cases ks with
    | nil => simp [interleave, inorder, ih [] h2]
    | cons k ks => simp [interleave, inorder, ih ks h2]

theorem interleave_one (c : NodePtr) : interleave [] [c] = inorder c := by
  simp [interleave]

theorem mem_interleave_key (ks : List Int) (cs : List NodePtr) (k : Int) (h : k ∈ ks) :
    k ∈ interleave ks cs := by
  induction cs generalizing ks with
  | nil => simpa [interleave] using h
  | cons c cs ih =>
    cases ks with
    | nil => simp at h
    | cons k0 ks =>
      simp only [interleave, List.mem_append, List.mem_cons]
      rcases List.mem_cons.1 h with rfl | h
      · exact Or.inr (Or.inl rfl)
      · exact Or.inr (Or.inr (ih ks h))

theorem mem_interleave_child (ks : List Int) (cs : List NodePtr) (c : NodePtr) (x : Int)
    (hc : c ∈ cs) (hx : x ∈ inorder c) : x ∈ interleave ks cs := by
  induction cs generalizing ks with
  | nil => simp at hc
  | cons c0 cs ih =>
    cases ks with
    | nil =>
      simp only [interleave, List.mem_append]
      rcases List.mem_cons.1 hc with rfl | hc
      · exact Or.inl hx
      · exact Or.inr (ih [] hc)
    | cons k0 ks =>
      simp only [interleave, List.mem_append, List.mem_cons]
      rcases List.mem_cons.1 hc with rfl | hc
      · exact Or.inl hx
      · exact Or.inr (Or.inr (ih ks hc))

/-! ## Calls on `children_[idx]` -/

theorem SearchNodeAt_mid (cs1 cs2 : List NodePtr) (c : NodePtr) (i : Nat) (key : Int)
    (h : cs1.length = i) : SearchNodeAt (cs1 ++ c :: cs2) i key = SearchNode c key := by
  induction cs1 generalizing i with
  | nil => subst h; simp [SearchNodeAt]
  | cons c1 cs1 ih =>
    subst h
    simp [SearchNodeAt, ih cs1.length rfl]

theorem SearchNodeAt_some (cs : List NodePtr) (i : Nat) (key : Int) (n : NodePtr)
    (h : SearchNodeAt cs i key = some n) : ∃ c ∈ cs, SearchNode c key = some n := by
  induction cs generalizing i with
  | nil => simp [SearchNodeAt] at h
  | cons c cs ih =>
    cases i with
    | zero => exact ⟨c, by simp, by simpa [SearchNodeAt] using h⟩
    | succ i =>
      simp only [SearchNodeAt] at h
      obtain ⟨c1, hc1, h1⟩ := ih i h
      exact ⟨c1, by simp [hc1], h1⟩

theorem ReplaceNodeAt_mid (cs1 cs2 : List NodePtr) (c : NodePtr) (i : Nat) (a b : Int)
    (h : cs1.length = i) :
    ReplaceNodeAt (cs1 ++ c :: cs2) i a b
      = (ReplaceNode c a b).map (fun c1 => cs1 ++ c1 :: cs2) := by
  induction cs1 generalizing i with
  | nil =>
    subst h
    simp only [List.nil_append, List.length_nil, ReplaceNodeAt]
    cases ReplaceNode c a b <;> rfl
  | cons c1 cs1 ih =>
    subst h
    show ReplaceNodeAt (c1 :: (cs1 ++ c :: cs2)) (cs1.length + 1) a b = _
    simp only [ReplaceNodeAt, ih cs1.length rfl]
    cases ReplaceNode c a b <;> rfl

theorem RecursiveInsertAt_mid (kM nn : Int) (cs1 cs2 : List NodePtr) (c : NodePtr) (i : Nat)
    (key : Int) (h : cs1.length = i) :
    RecursiveInsertAt kM nn (cs1 ++ c :: cs2) i key
      = (RecursiveInsert kM nn c key).map (fun r => (r, cs1 ++ r.root :: cs2)) := by
  induction cs1 generalizing i with
  | nil =>
    subst h
    simp only [List.nil_append, List.length_nil, RecursiveInsertAt]
    cases RecursiveInsert kM nn c key <;> rfl
  | cons c1 cs1 ih =>
    subst h
    show RecursiveInsertAt kM nn (c1 :: (cs1 ++ c :: cs2)) (cs1.length + 1) key = _
    simp only [RecursiveInsertAt, ih cs1.length rfl]
    cases RecursiveInsert kM nn c key <;> rfl

theorem RecursiveRemoveAt_mid (t : BTree) (f : Bool) (p : NodePtr) (cs1 cs2 : List NodePtr)
    (c : NodePtr) (i idx : Nat) (key : Int) (h : cs1.length = i) :
    RecursiveRemoveAt t f p (cs1 ++ c :: cs2) i idx key = RecursiveRemove t f p c idx key := by
  induction cs1 generalizing i with
  | nil => subst h; simp [RecursiveRemoveAt]
  | cons c1 cs1 ih =>
    subst h
    simp [RecursiveRemoveAt, ih cs1.length rfl]

/-! ## Shape predicates -/

theorem Subtree_succ_iff (lo hi : Int) (n : Nat) (p : NodePtr) :
    Subtree lo hi (n + 1) p
      ↔ NodeOK lo hi n p ∧ lo ≤ (p.keys.length : Int) ∧ (p.keys.length : Int) ≤ hi := by
  cases p with
  | null => simp [Subtree, NodeOK]
  | node ks cs =>
    simp only [Subtree, NodeOK, NodePtr.keys]
    tauto

theorem Subtree_zero_iff (lo hi : Int) (p : NodePtr) : Subtree lo hi 0 p ↔ p = .null := by
  cases p <;> simp [Subtree]

theorem Subtree_ne_null (lo hi : Int) (n : Nat) (p : NodePtr) (h : Subtree lo hi (n + 1) p) :
    ∃ ks cs, p = .node ks cs := by
  cases p with
  | null => simp [Subtree] at h
  | node ks cs => exact ⟨ks, cs, rfl⟩

theorem NodeOK_zero_nulls (lo hi : Int) (ks : List Int) (cs : List NodePtr)
    (h : NodeOK lo hi 0 (.node ks cs)) : ∀ c ∈ cs, c = .null := by
  intro c hc
  exact (Subtree_zero_iff lo hi c).1 (h.2 c hc)

theorem NodeOK_zero_all (lo hi : Int) (ks : List Int) (cs : List NodePtr)
    (h : NodeOK lo hi 0 (.node ks cs)) : cs.all NodePtr.isNull = true :=
  (all_isNull_iff cs).2 (NodeOK_zero_nulls lo hi ks cs h)

theorem NodeOK_succ_all (lo hi : Int) (n : Nat) (ks : List Int) (cs : List NodePtr)
    (h : NodeOK lo hi (n + 1) (.node ks cs)) : cs.all NodePtr.isNull = false := by
  obtain ⟨hl, hc⟩ := h
  cases cs with
  | nil => simp at hl
  | cons c cs =>
    obtain ⟨ks1, cs1, rfl⟩ := Subtree_ne_null lo hi n c (hc c (by simp))
    simp [NodePtr.isNull]

theorem NodeOK_of_all_null (lo hi : Int) (n : Nat) (ks : List Int) (cs : List NodePtr)
    (h : NodeOK lo hi n (.node ks cs)) (ha : cs.all NodePtr.isNull = true) : n = 0 := by
  cases n with
  | zero => rfl
  | succ n =>
    rw [NodeOK_succ_all lo hi n ks cs h] at ha
    simp at ha

/-! ## In-order traversal around a child -/

theorem interleave_cons (ks : List Int) (c : NodePtr) (cs : List NodePtr) :
    interleave ks (c :: cs) = inorder c ++ interleaveTail ks cs := by
  cases ks <;> simp [interleave, interleaveTail]

theorem interleave_mid (ks1 ks2 : List Int) (cs1 cs2 : List NodePtr) (c : NodePtr)
    (h : cs1.length = ks1.length) :
    interleave (ks1 ++ ks2) (cs1 ++ c :: cs2)
      = interleave ks1 cs1 ++ (inorder c ++ interleaveTail ks2 cs2) := by
  rw [interleave_append ks1 ks2 cs1 (c :: cs2) h, interleave_cons]

theorem interleaveTail_nil_nil : interleaveTail [] [] = [] := by
  simp [interleaveTail, interleave]

theorem interleaveTail_cons (k : Int) (ks : List Int) (cs : List NodePtr) :
    interleaveTail (k :: ks) cs = k :: interleave ks cs := rfl

/-- In a sorted traversal of as many children as keys, each element is at most some key. -/
theorem interleave_le_key (ks : List Int) (cs : List NodePtr) (h : cs.length = ks.length)
    (hs : (interleave ks cs).Pairwise (· < ·)) :
    ∀ x ∈ interleave ks cs, ∃ k ∈ ks, x ≤ k := by
  induction ks generalizing cs with
  | nil =>
    cases cs with
    | nil => simp [interleave]
    | cons c cs => simp at h
  | cons k ks ih =>
    cases cs with
    | nil => simp at h
    | cons c cs =>
      simp only [List.length_cons, Nat.add_right_cancel_iff] at h
      simp only [interleave] at hs ⊢
      rw [List.pairwise_append] at hs
      obtain ⟨_, h2, h3⟩ := hs
      intro x hx
      rcases List.mem_append.1 hx with hx | hx
      · exact ⟨k, by simp, le_of_lt (h3 x hx k (by simp))⟩
      · rcases List.mem_cons.1 hx with rfl | hx
        · exact ⟨x, by simp, le_refl _⟩
        · obtain ⟨k1, hk1, hle⟩ := ih cs h (List.Pairwise.of_cons h2) x hx
          exact ⟨k1, by simp [hk1], hle⟩

/-- The decomposition of a node at the index that `FindKeysIdx` returns. -/
theorem node_at_scan (ks : List Int) (cs : List NodePtr) (key : Int)
    (hl : cs.length = ks.length + 1) :
    ∃ ks1 ks2 cs1 c cs2, ks = ks1 ++ ks2 ∧ cs = cs1 ++ c :: cs2
      ∧ ks1.length = scanKeys ks key ∧ cs1.length = ks1.length ∧ cs2.length = ks2.length
      ∧ ks[scanKeys ks key]? = ks2.head?
      ∧ (∀ k ∈ ks1, k < key) ∧ (∀ k, ks2.head? = some k → key ≤ k) := by
  obtain ⟨ks1, ks2, h1, h2, h3, h4⟩ := scanKeys_spec ks key
  have hlen : ks.length = ks1.length + ks2.length := by rw [h1]; simp
  obtain ⟨cs1, c, cs2, hc1, hc2⟩ := list_split_lt cs ks1.length (by omega)
  have hlen2 : cs.length = cs1.length + (cs2.length + 1) := by rw [hc1]; simp
  refine ⟨ks1, ks2, cs1, c, cs2, h1, hc1, h2.symm, hc2, by omega, ?_, h3, h4⟩
  rw [h2]
  conv_lhs => rw [h1]
  rw [List.getElem?_append_right (le_refl _)]
  cases ks2 <;> simp

/-- On a sorted node, everything left of the child at the scan index is below the key
and, unless the key is met, everything right of it is above. -/
theorem node_at_scan_sorted (ks : List Int) (cs : List NodePtr) (key : Int)
    (hl : cs.length = ks.length + 1) (hs : (interleave ks cs).Pairwise (· < ·)) :
    ∃ ks1 ks2 cs1 c cs2, ks = ks1 ++ ks2 ∧ cs = cs1 ++ c :: cs2
      ∧ ks1.length = scanKeys ks key ∧ cs1.length = ks1.length ∧ cs2.length = ks2.length
      ∧ ks[scanKeys ks key]? = ks2.head?
      ∧ (∀ x ∈ interleave ks1 cs1, x < key)
      ∧ (ks2.head? ≠ some key → ∀ x ∈ interleaveTail ks2 cs2, key < x) := by
  obtain ⟨ks1, ks2, cs1, c, cs2, h1, h2, h3, h4, h5, h6, h7, h8⟩ := node_at_scan ks cs key hl
  refine ⟨ks1, ks2, cs1, c, cs2, h1, h2, h3, h4, h5, h6, ?_, ?_⟩
  · rw [h1, h2, interleave_mid ks1 ks2 cs1 cs2 c h4, List.pairwise_append] at hs
    intro x hx
    obtain ⟨k, hk, hle⟩ := interleave_le_key ks1 cs1 h4 hs.1 x hx
    have := h7 k hk
    omega
  · intro hne x hx
    rw [h1, h2, interleave_mid ks1 ks2 cs1 cs2 c h4, List.pairwise_append,
      List.pairwise_append] at hs
    cases ks2 with
    | nil =>
      cases cs2 with
      | nil => simp [interleaveTail_nil_nil] at hx
      | cons _ _ => simp at h5
    | cons k ks2 =>
      have hk : key ≤ k := h8 k (by simp)
      have hk2 : key ≠ k := by
        intro hh
        apply hne
        simp [hh]
      rw [interleaveTail_cons] at hx hs
      rcases List.mem_cons.1 hx with rfl | hx
      · omega
      · have := (List.pairwise_cons.1 hs.2.1.2.1).1 x hx
        omega

/-! ## Search -/

theorem SearchNode_node (ks : List Int) (cs : List NodePtr) (key : Int) :
    SearchNode (.node ks cs) key
      = if ks[scanKeys ks key]? = some key then some (.node ks cs)
        else if cs.all NodePtr.isNull then some .null
        else SearchNodeAt cs (scanKeys ks key) key := by
  simp only [SearchNode]

theorem inorder_node (ks : List Int) (cs : List NodePtr) :
    inorder (.node ks cs) = interleave ks cs := by
  simp only [inorder]

/-- A node returned by `SearchNode` holds the key at the index of `FindKeysIdx`, and the key
is in the traversal of the tree searched. -/
theorem search_sound (p : NodePtr) (key : Int) :
    ∀ n, SearchNode p key = some n → n ≠ .null →
      (∃ ks cs, n = .node ks cs ∧ ks[scanKeys ks key]? = some key) ∧ key ∈ inorder p := by
  induction p using NodePtr.induct with
  | hnull => intro n h; simp [SearchNode] at h
  | hnode ks cs ih =>
    intro n h hn
    rw [SearchNode_node] at h
    split at h
    · rename_i hf
      simp only [Option.some.injEq] at h
      subst h
      refine ⟨⟨ks, cs, rfl, hf⟩, ?_⟩
      rw [inorder_node]
      exact mem_interleave_key ks cs key (List.getElem?_mem hf)
    · split at h
      · simp only [Option.some.injEq] at h
        exact absurd h.symm hn
      · obtain ⟨c, hc, h1⟩ := SearchNodeAt_some cs _ key n h
        obtain ⟨h2, h3⟩ := ih c hc n h1 hn
        refine ⟨h2, ?_⟩
        rw [inorder_node]
        exact mem_interleave_child ks cs c key hc h3

theorem search_total (lo hi : Int) (key : Int) (h : Nat) :
    ∀ p, NodeOK lo hi h p → ∃ n, SearchNode p key = some n := by
  induction h with
  | zero =>
    intro p hp
    cases p with
    | null => exact absurd hp (by simp [NodeOK])
    | node ks cs =>
      rw [SearchNode_node, NodeOK_zero_all lo hi ks cs hp]
      split
      · exact ⟨_, rfl⟩
      · exact ⟨_, rfl⟩
  | succ h ih =>
    intro p hp
    cases p with
    | null => exact absurd hp (by simp [NodeOK])
    | node ks cs =>
      rw [SearchNode_node, NodeOK_succ_all lo hi h ks cs hp]
      split
      · exact ⟨_, rfl⟩
      · obtain ⟨ks1, ks2, cs1, c, cs2, h1, h2, h3, h4, _⟩ := node_at_scan ks cs key hp.1
        have hc : Subtree lo hi (h + 1) c := hp.2 c (by simp [h2])
        simp only [Bool.false_eq_true, if_false]
        rw [h2, SearchNodeAt_mid cs1 cs2 c _ key (by omega)]
        exact ih c ((Subtree_succ_iff lo hi h c).1 hc).1

theorem search_complete (lo hi : Int) (key : Int) (h : Nat) :
    ∀ p, NodeOK lo hi h p → (inorder p).Pairwise (· < ·) → key ∈ inorder p →
      ∃ n, SearchNode p key = some n ∧ n ≠ .null := by
  induction h with
  | zero =>
    intro p hp hs hk
    cases p with
    | null => exact absurd hp (by simp [NodeOK])
    | node ks cs =>
      rw [SearchNode_node]
      split
      · exact ⟨_, rfl, by simp⟩
      · rename_i hnf
        exfalso
        rw [inorder_node, interleave_nulls ks cs (NodeOK_zero_nulls lo hi ks cs hp)] at hk hs
        obtain ⟨ks1, ks2, h1, h2, h3, h4⟩ := scanKeys_spec ks key
        apply hnf
        rw [h2]
        rw [h1] at hk hs ⊢
        rw [List.getElem?_append_right (le_refl _)]
        rcases List.mem_append.1 hk with hk | hk
        · have := h3 key hk
          omega
        · cases ks2 with
          | nil => simp at hk
          | cons k ks2 =>
            have hle := h4 k (by simp)
            rcases List.mem_cons.1 hk with rfl | hk
            · simp
            · rw [List.pairwise_append] at hs
              have := (List.pairwise_cons.1 hs.2.1).1 key hk
              omega
  | succ h ih =>
    intro p hp hs hk
    cases p with
    | null => exact absurd hp (by simp [NodeOK])
    | node ks cs =>
      rw [SearchNode_node, NodeOK_succ_all lo hi h ks cs hp]
      split
      · exact ⟨_, rfl, by simp⟩
      · rename_i hnf
        rw [inorder_node] at hs hk
        obtain ⟨ks1, ks2, cs1, c, cs2, h1, h2, h3, h4, h5, h6, h7, h8⟩ :=
          node_at_scan_sorted ks cs key hp.1 hs
        have hc : Subtree lo hi (h + 1) c := hp.2 c (by simp [h2])
        simp only [Bool.false_eq_true, if_false]
        have hcs := h2
        rw [h2, SearchNodeAt_mid cs1 cs2 c _ key (by omega)]
        rw [h1, h2, interleave_mid ks1 ks2 cs1 cs2 c h4] at hs hk
        rw [h6] at hnf
        apply ih c ((Subtree_succ_iff lo hi h c).1 hc).1
        · rw [List.pairwise_append, List.pairwise_append] at hs
          exact hs.2.1.1
        · rcases List.mem_append.1 hk with hk | hk
          · exact absurd (h7 key hk) (lt_irrefl _)
          · rcases List.mem_append.1 hk with hk | hk
            · exact hk
            · exact absurd (h8 hnf key hk) (lt_irrefl _)

/-! ## Node counting -/

theorem countNodesList_append (cs1 cs2 : List NodePtr) :
    countNodesList (cs1 ++ cs2) = countNodesList cs1 + countNodesList cs2 := by
  induction cs1 with
  | nil => simp [countNodesList]
  | cons c cs1 ih =>
    show countNodesList (c :: (cs1 ++ cs2)) = _
    simp only [countNodesList, ih]
    omega

theorem countNodesList_cons (c : NodePtr) (cs : List NodePtr) :
    countNodesList (c :: cs) = countNodes c + countNodesList cs := by
  simp only [countNodesList]

theorem countNodes_node (ks : List Int) (cs : List NodePtr) :
    countNodes (.node ks cs) = 1 + countNodesList cs := by
  simp only [countNodes]

theorem countNodes_null : countNodes .null = 0 := by
  simp only [countNodes]

/-! ## Split -/

theorem interleave_append_key (ks1 ks2 : List Int) (k : Int) (cs1 cs2 : List NodePtr)
    (h : cs1.length = ks1.length + 1) :
    interleave (ks1 ++ k :: ks2) (cs1 ++ cs2)
      = interleave ks1 cs1 ++ k :: interleave ks2 cs2 := by
  induction ks1 generalizing cs1 with
  | nil =>
    match cs1, h with
    | [c], _ =>
      cases cs2 <;> simp [interleave]
  | cons k1 ks1 ih =>
    cases cs1 with
    | nil => simp at h
    | cons c cs1 =>
      simp only [List.length_cons, Nat.add_right_cancel_iff] at h
      show interleave (k1 :: (ks1 ++ k :: ks2)) (c :: (cs1 ++ cs2)) = _
      simp only [interleave, ih cs1 h]
      simp

theorem Split_spec (ks : List Int) (cs : List NodePtr) (hl : cs.length = ks.length + 1)
    (hk : 1 ≤ ks.length) :
    ∃ lk lc med rk rc, Node.Split (.node ks cs) = some (.node lk lc, med, .node rk rc)
      ∧ ks = lk ++ med :: rk ∧ cs = lc ++ rc ∧ lc.length = lk.length + 1
      ∧ rc.length = rk.length + 1 ∧ lk.length = ks.length / 2 := by
  obtain ⟨lk, med, rk, h1, h2⟩ := list_split_lt ks (ks.length / 2) (by omega)
  obtain ⟨lc, rc, h3, h4⟩ := list_split_le cs (ks.length / 2 + 1) (by omega)
  have hlen : ks.length = lk.length + (rk.length + 1) := by rw [h1]; simp
  have hlenc : cs.length = lc.length + rc.length := by rw [h3]; simp
  have hrc : rc.length = rk.length + 1 := by omega
  obtain ⟨rc1, b, hb⟩ : ∃ rc1 b, rc = rc1 ++ [b] := by
    rcases List.eq_nil_or_concat rc with h | ⟨l, b, h⟩
    · rw [h] at hrc; simp at hrc
    · exact ⟨l, b, by rw [h, List.concat_eq_append]⟩
  have hrc1 : rc1.length = rk.length := by rw [hb] at hrc; simpa using hrc
  refine ⟨lk, lc, med, rk, rc, ?_, h1, h3, by omega, hrc, h2⟩
  have e1 : ks[ks.length / 2]? = some med := by
    have := getElem?_mid lk rk med _ h2
    rw [← h1] at this
    exact this
  have e2 : cs.getLast? = some b := by
    rw [h3, hb, ← List.append_assoc, List.getLast?_append]
    simp
  have e3 : List.take (ks.length - (ks.length - ks.length / 2)) ks = lk := by
    have : ks.length - (ks.length - ks.length / 2) = lk.length := by omega
    rw [this]
    conv_lhs => rw [h1]
    exact List.take_left' rfl
  have e4 : List.take (cs.length - (ks.length - ks.length / 2)) cs = lc := by
    have : cs.length - (ks.length - ks.length / 2) = lc.length := by omega
    rw [this]
    conv_lhs => rw [h3]
    exact List.take_left' rfl
  have e5 : List.drop (ks.length / 2 + 1) ks = rk := by
    conv_lhs => rw [h1]
    have : lk ++ med :: rk = (lk ++ [med]) ++ rk := by simp
    rw [this]
    exact List.drop_left' (by simp; omega)
  have e6 : List.take (ks.length - (ks.length / 2 + 1)) (List.drop (ks.length / 2 + 1) cs)
      = rc1 := by
    conv_lhs => rw [h3]
    rw [List.drop_left' h4, hb]
    exact List.take_left' (by omega)
  simp only [Node.Split, e1, e2, e3, e4, e5, e6]
  rw [if_pos]
  · rw [hb]
  · constructor
    · intro _; omega
    · omega

/-! ## InsertAndSplit -/

theorem InsertAndSplit_spec (lo hi nn : Int) (hlo : 1 ≤ lo) (hd1 : 2 * lo ≤ hi)
    (hd2 : hi ≤ 2 * lo + 1)
    (ks1 ks2 : List Int) (cs1 cs2 : List NodePtr) (c new_child : NodePtr) (new_key : Int)
    (idx : Nat) (h1 : ks1.length = idx) (h2 : cs1.length = ks1.length)
    (h3 : cs2.length = ks2.length) (hfill : ((ks1 ++ ks2).length : Int) ≤ hi) :
    ∃ r, InsertAndSplit hi nn (.node (ks1 ++ ks2) (cs1 ++ c :: cs2)) new_key new_child idx
        = some r ∧
      ((r.second = .null
          ∧ r.root = .node (ks1 ++ new_key :: ks2) (cs1 ++ c :: new_child :: cs2)
          ∧ ((ks1 ++ new_key :: ks2).length : Int) ≤ hi ∧ r.num_nodes_ = nn) ∨
       (∃ lk lc rk rc, r.root = .node lk lc ∧ r.second = .node rk rc
          ∧ ks1 ++ new_key :: ks2 = lk ++ r.first :: rk
          ∧ cs1 ++ c :: new_child :: cs2 = lc ++ rc
          ∧ lc.length = lk.length + 1 ∧ rc.length = rk.length + 1
          ∧ lo ≤ (lk.length : Int) ∧ (lk.length : Int) ≤ hi
          ∧ lo ≤ (rk.length : Int) ∧ (rk.length : Int) ≤ hi
          ∧ r.num_nodes_ = wrap32 (nn + 1))) := by
  have e1 : Node.InsertKeyAt (.node (ks1 ++ ks2) (cs1 ++ c :: cs2)) new_key idx
      = some (.node (ks1 ++ new_key :: ks2) (cs1 ++ c :: cs2)) := by
    simp only [Node.InsertKeyAt]
    rw [if_pos (by simp; omega), insertAt_mid ks1 ks2 new_key idx h1]
  have e2 : Node.InsertChildAt (.node (ks1 ++ new_key :: ks2) (cs1 ++ c :: cs2)) new_child
      (idx + 1) = some (.node (ks1 ++ new_key :: ks2) (cs1 ++ c :: new_child :: cs2)) := by
    simp only [Node.InsertChildAt]
    rw [if_pos (by simp; omega), insertAt_mid_succ cs1 cs2 new_child c idx (by omega)]
  simp only [InsertAndSplit, e1, e2, NodePtr.keys]
  by_cases hov : hi < ((ks1 ++ new_key :: ks2).length : Int)
  · rw [if_pos hov]
    obtain ⟨lk, lc, med, rk, rc, hs, q1, q2, q3, q4, q5⟩ :=
      Split_spec (ks1 ++ new_key :: ks2) (cs1 ++ c :: new_child :: cs2)
        (by simp; omega) (by simp; omega)
    rw [hs]
    refine ⟨_, rfl, Or.inr ⟨lk, lc, rk, rc, rfl, rfl, q1, q2, q3, q4, ?_⟩⟩
    have hlen : (ks1 ++ new_key :: ks2).length = lk.length + (rk.length + 1) := by
      rw [q1]; simp
    have hlen2 : (ks1 ++ new_key :: ks2).length = (ks1 ++ ks2).length + 1 := by simp; omega
    simp only [and_true]
    omega
  · rw [if_neg hov]
    exact ⟨_, rfl, Or.inl ⟨rfl, rfl, by omega, rfl⟩⟩

theorem interleave_snoc_child (ks : List Int) (cs : List NodePtr) (c : NodePtr)
    (h : cs.length = ks.length) :
    interleave ks (cs ++ [c]) = interleave ks cs ++ inorder c := by
  have := interleave_append ks [] cs [c] h
  simpa [interleave_one] using this

theorem interleave_ins (ks1 ks2 : List Int) (cs1 cs2 : List NodePtr) (c nc : NodePtr)
    (k : Int) (h : cs1.length = ks1.length) :
    interleave (ks1 ++ k :: ks2) (cs1 ++ c :: nc :: cs2)
      = interleave ks1 cs1 ++ (inorder c ++ k :: (inorder nc ++ interleaveTail ks2 cs2)) := by
  have e : cs1 ++ c :: nc :: cs2 = (cs1 ++ [c]) ++ nc :: cs2 := by simp
  rw [e, interleave_append_key ks1 ks2 k (cs1 ++ [c]) (nc :: cs2) (by simp [h]),
    interleave_snoc_child ks1 cs1 c h, interleave_cons]
  simp

theorem InsertAndSplit_tree (lo hi nn : Int) (hlo : 1 ≤ lo) (hd1 : 2 * lo ≤ hi)
    (hd2 : hi ≤ 2 * lo + 1) (h : Nat)
    (ks1 ks2 : List Int) (cs1 cs2 : List NodePtr) (c new_child : NodePtr) (new_key : Int)
    (idx : Nat) (h1 : ks1.length = idx) (h2 : cs1.length = ks1.length)
    (h3 : cs2.length = ks2.length) (hfill : ((ks1 ++ ks2).length : Int) ≤ hi)
    (hsub : ∀ x ∈ cs1 ++ c :: new_child :: cs2, Subtree lo hi h x) :
    ∃ r, InsertAndSplit hi nn (.node (ks1 ++ ks2) (cs1 ++ c :: cs2)) new_key new_child idx
        = some r ∧
      (∃ k : Nat, r.num_nodes_ = incr32 k nn
        ∧ (k : Int) + (1 + (countNodesList (cs1 ++ c :: new_child :: cs2) : Int))
          = countNodes r.root + countNodes r.second) ∧
      ((r.second = .null ∧ NodeOK lo hi h r.root ∧ (r.root.keys.length : Int) ≤ hi
          ∧ r.root.keys.length = (ks1 ++ ks2).length + 1
          ∧ inorder r.root = interleave (ks1 ++ new_key :: ks2) (cs1 ++ c :: new_child :: cs2))
       ∨ (Subtree lo hi (h + 1) r.root ∧ Subtree lo hi (h + 1) r.second
          ∧ inorder r.root ++ r.first :: inorder r.second
              = interleave (ks1 ++ new_key :: ks2) (cs1 ++ c :: new_child :: cs2))) := by
  obtain ⟨r, hr, hcase⟩ := InsertAndSplit_spec lo hi nn hlo hd1 hd2 ks1 ks2 cs1 cs2 c
    new_child new_key idx h1 h2 h3 hfill
  refine ⟨r, hr, ?_⟩
  rcases hcase with ⟨q1, q2, q3, q4⟩
    | ⟨lk, lc, rk, rc, q1, q2, q3, q4, q5, q6, q7, q8, q9, q10, q11⟩
  · rw [q1, q2, q4]
    refine ⟨⟨0, rfl, ?_⟩, Or.inl ⟨rfl, ?_, ?_, ?_, ?_⟩⟩
    · simp only [countNodes_node, countNodes_null]
      push_cast
      ring
    · exact ⟨by simp; omega, hsub⟩
    · exact q3
    · simp [NodePtr.keys]; omega
    · rw [inorder_node]
  · rw [q1, q2, q11]
    refine ⟨⟨1, rfl, ?_⟩, Or.inr ⟨?_, ?_, ?_⟩⟩
    · simp only [countNodes_node, q4, countNodesList_append]
      push_cast
      ring
    · refine ⟨q5, q7, q8, ?_⟩
      intro x hx
      exact hsub x (by rw [q4]; simp [hx])
    · refine ⟨q6, q9, q10, ?_⟩
      intro x hx
      exact hsub x (by rw [q4]; simp [hx])
    · rw [inorder_node, inorder_node, q3, q4, interleave_append_key lk rk r.first lc rc q5]

theorem RecursiveInsert_node (kM nn : Int) (ks : List Int) (cs : List NodePtr) (key : Int) :
    RecursiveInsert kM nn (.node ks cs) key
      = if ks[scanKeys ks key]? = some key then
          some { first := 0, second := .null, root := .node ks cs, num_nodes_ := nn }
        else if cs.all NodePtr.isNull then
          InsertAndSplit kM nn (.node ks cs) key .null (scanKeys ks key)
        else
          match RecursiveInsertAt kM nn cs (scanKeys ks key) key with
          | none => none
          | some (split_result, children1) =>
            if split_result.second.isNull then
              some { split_result with root := .node ks children1 }
            else
              InsertAndSplit kM split_result.num_nodes_ (.node ks children1)
                split_result.first split_result.second (scanKeys ks key) := by
  rw [RecursiveInsert] <;> rfl

theorem RecursiveInsert_spec (lo hi : Int) (hlo : 1 ≤ lo) (hd1 : 2 * lo ≤ hi)
    (hd2 : hi ≤ 2 * lo + 1) (key : Int) (h : Nat) :
    ∀ (p : NodePtr) (nn : Int), NodeOK lo hi h p → (p.keys.length : Int) ≤ hi →
      (inorder p).Pairwise (· < ·) →
      ∃ r, RecursiveInsert hi nn p key = some r ∧
        (∃ k : Nat, r.num_nodes_ = incr32 k nn
          ∧ (k : Int) + countNodes p = countNodes r.root + countNodes r.second) ∧
        (key ∈ inorder p → r.root = p ∧ r.second = .null) ∧
        (key ∉ inorder p → ∃ A B, inorder p = A ++ B ∧ (∀ a ∈ A, a < key)
          ∧ (∀ b ∈ B, key < b) ∧
          ((r.second = .null ∧ NodeOK lo hi h r.root ∧ (r.root.keys.length : Int) ≤ hi
              ∧ p.keys.length ≤ r.root.keys.length ∧ inorder r.root = A ++ key :: B)
           ∨ (Subtree lo hi (h + 1) r.root ∧ Subtree lo hi (h + 1) r.second
              ∧ inorder r.root ++ r.first :: inorder r.second = A ++ key :: B))) := by
  induction h with
  | zero =>
    intro p nn hp hfill hs
    cases p with
    | null => exact absurd hp (by simp [NodeOK])
    | node ks cs =>
      rw [RecursiveInsert_node, NodeOK_zero_all lo hi ks cs hp]
      rw [inorder_node] at hs
      obtain ⟨ks1, ks2, cs1, c, cs2, e1, e2, e3, e4, e5, e6, e7, e8⟩ :=
        node_at_scan_sorted ks cs key hp.1 hs
      subst e1 e2
      by_cases hf : (ks1 ++ ks2)[scanKeys (ks1 ++ ks2) key]? = some key
      · rw [if_pos hf]
        refine ⟨_, rfl, ⟨0, rfl, ?_⟩, fun _ => ⟨rfl, rfl⟩, ?_⟩
        · simp [countNodes_null]
        · intro hn
          have hm : key ∈ inorder (NodePtr.node (ks1 ++ ks2) (cs1 ++ c :: cs2)) := by
            rw [inorder_node]
            exact mem_interleave_key _ _ key (List.getElem?_mem hf)
          exact absurd hm hn
      · rw [if_neg hf]
        simp only [if_true]
        have hcn : c = .null := NodeOK_zero_nulls lo hi _ _ hp c (by simp)
        have hsub : ∀ x ∈ cs1 ++ c :: NodePtr.null :: cs2, Subtree lo hi 0 x := by
          intro x hx
          rw [Subtree_zero_iff]
          simp only [List.mem_append, List.mem_cons] at hx
          rcases hx with hx | rfl | rfl | hx
          · exact NodeOK_zero_nulls lo hi _ _ hp x (by simp [hx])
          · exact hcn
          · rfl
          · exact NodeOK_zero_nulls lo hi _ _ hp x (by simp [hx])
        have hfill2 : ((ks1 ++ ks2).length : Int) ≤ hi := hfill
        obtain ⟨r, hr, hcnt, hcase⟩ := InsertAndSplit_tree lo hi nn hlo hd1 hd2 0 ks1 ks2 cs1
          cs2 c .null key (scanKeys (ks1 ++ ks2) key) e3 e4 e5 hfill2 hsub
        rw [hr]
        rw [e6] at hf
        have hin : inorder (NodePtr.node (ks1 ++ ks2) (cs1 ++ c :: cs2))
            = interleave ks1 cs1 ++ interleaveTail ks2 cs2 := by
          rw [inorder_node]
          rw [interleave_mid ks1 ks2 cs1 cs2 c e4, hcn]
          simp [inorder]
        have hX : interleave (ks1 ++ key :: ks2) (cs1 ++ c :: NodePtr.null :: cs2)
            = interleave ks1 cs1 ++ key :: interleaveTail ks2 cs2 := by
          rw [interleave_ins ks1 ks2 cs1 cs2 c .null key e4, hcn]
          simp [inorder]
        have hnotin : key ∉ inorder (NodePtr.node (ks1 ++ ks2) (cs1 ++ c :: cs2)) := by
          rw [hin]
          intro hm
          rcases List.mem_append.1 hm with hm | hm
          · exact absurd (e7 key hm) (lt_irrefl _)
          · exact absurd (e8 hf key hm) (lt_irrefl _)
        obtain ⟨k, hk1, hk2⟩ := hcnt
        refine ⟨r, rfl, ⟨k, hk1, ?_⟩, fun hm => absurd hm hnotin, ?_⟩
        · rw [countNodes_node]
          rw [← hk2]
          simp only [countNodesList_append, countNodesList_cons, countNodes_null]
          push_cast
          ring
        · intro _
          refine ⟨interleave ks1 cs1, interleaveTail ks2 cs2, hin, e7, e8 hf, ?_⟩
          rw [hX] at hcase
          rcases hcase with ⟨q1, q2, q3, q4, q5⟩ | ⟨q1, q2, q3⟩
          · refine Or.inl ⟨q1, q2, q3, ?_, q5⟩
            rw [q4]
            simp [NodePtr.keys]
          · exact Or.inr ⟨q1, q2, q3⟩
  | succ h ih =>
    intro p nn hp hfill hs
    cases p with
    | null => exact absurd hp (by simp [NodeOK])
    | node ks cs =>
      rw [RecursiveInsert_node, NodeOK_succ_all lo hi h ks cs hp]
      rw [inorder_node] at hs
      obtain ⟨ks1, ks2, cs1, c, cs2, e1, e2, e3, e4, e5, e6, e7, e8⟩ :=
        node_at_scan_sorted ks cs key hp.1 hs
      subst e1 e2
      by_cases hf : (ks1 ++ ks2)[scanKeys (ks1 ++ ks2) key]? = some key
      · rw [if_pos hf]
        refine ⟨_, rfl, ⟨0, rfl, ?_⟩, fun _ => ⟨rfl, rfl⟩, ?_⟩
        · simp [countNodes_null]
        · intro hn
          have hm : key ∈ inorder (NodePtr.node (ks1 ++ ks2) (cs1 ++ c :: cs2)) := by
            rw [inorder_node]
            exact mem_interleave_key _ _ key (List.getElem?_mem hf)
          exact absurd hm hn
      · rw [if_neg hf]
        simp only [Bool.false_eq_true, if_false]
        rw [e6] at hf
        have hcsub : Subtree lo hi (h + 1) c := hp.2 c (by simp)
        obtain ⟨hcok, hclo, hchi⟩ := (Subtree_succ_iff lo hi h c).1 hcsub
        have hin : inorder (NodePtr.node (ks1 ++ ks2) (cs1 ++ c :: cs2))
            = interleave ks1 cs1 ++ (inorder c ++ interleaveTail ks2 cs2) := by
          rw [inorder_node]
          rw [interleave_mid ks1 ks2 cs1 cs2 c e4]
        have hs2 := hs
        rw [← inorder_node, hin, List.pairwise_append, List.pairwise_append] at hs2
        have hcs : (inorder c).Pairwise (· < ·) := hs2.2.1.1
        obtain ⟨rc, hrc, ⟨k, hk1, hcnt⟩, hdup, hnew⟩ := ih c nn hcok hchi hcs
        have hAt : RecursiveInsertAt hi nn (cs1 ++ c :: cs2) (scanKeys (ks1 ++ ks2) key) key
            = some (rc, cs1 ++ rc.root :: cs2) := by
          rw [RecursiveInsertAt_mid hi nn cs1 cs2 c _ key (by omega), hrc]
          rfl
        rw [hAt]
        simp only
        have hmem : key ∈ inorder (NodePtr.node (ks1 ++ ks2) (cs1 ++ c :: cs2))
            ↔ key ∈ inorder c := by
          rw [hin]
          constructor
          · intro hm
            rcases List.mem_append.1 hm with hm | hm
            · exact absurd (e7 key hm) (lt_irrefl _)
            · rcases List.mem_append.1 hm with hm | hm
              · exact hm
              · exact absurd (e8 hf key hm) (lt_irrefl _)
          · intro hm
            simp [hm]
        have hcntp : (countNodes (NodePtr.node (ks1 ++ ks2) (cs1 ++ c :: cs2)) : Int)
            = 1 + countNodesList cs1 + countNodes c + countNodesList cs2 := by
          rw [countNodes_node, countNodesList_append, countNodesList_cons]
          push_cast
          ring
        by_cases hkc : key ∈ inorder c
        · obtain ⟨q1, q2⟩ := hdup hkc
          rw [q2]
          simp only [NodePtr.isNull, if_true]
          refine ⟨_, rfl, ⟨k, hk1, ?_⟩, ?_, ?_⟩
          · simp only
            rw [q1, q2] at hcnt
            rw [q1]
            simp only [countNodes_null] at hcnt ⊢
            push_cast at hcnt ⊢
            omega
          · intro _
            simp only
            rw [q1]
            exact ⟨rfl, trivial⟩
          · intro hn
            exact absurd (hmem.2 hkc) hn
        · obtain ⟨A, B, hAB, hA, hB, hcase⟩ := hnew hkc
          have hA2 : ∀ a ∈ interleave ks1 cs1 ++ A, a < key := by
            intro a ha
            rcases List.mem_append.1 ha with ha | ha
            · exact e7 a ha
            · exact hA a ha
          have hB2 : ∀ b ∈ B ++ interleaveTail ks2 cs2, key < b := by
            intro b hb
            rcases List.mem_append.1 hb with hb | hb
            · exact hB b hb
            · exact e8 hf b hb
          have hin2 : inorder (NodePtr.node (ks1 ++ ks2) (cs1 ++ c :: cs2))
              = (interleave ks1 cs1 ++ A) ++ (B ++ interleaveTail ks2 cs2) := by
            rw [hin, hAB]
            simp
          rcases hcase with ⟨q1, q2, q3, q4, q5⟩ | ⟨q1, q2, q3⟩
          · rw [q1]
            simp only [NodePtr.isNull, if_true]
            refine ⟨_, rfl, ⟨k, hk1, ?_⟩, ?_, ?_⟩
            · simp only
              rw [q1] at hcnt
              rw [hcntp, countNodes_node, countNodesList_append, countNodesList_cons]
              simp only [countNodes_null] at hcnt ⊢
              push_cast at hcnt ⊢
              omega
            · intro hm
              exact absurd (hmem.1 hm) hkc
            · intro _
              refine ⟨_, _, hin2, hA2, hB2, Or.inl ⟨rfl, ?_, ?_, ?_, ?_⟩⟩
              · refine ⟨by have := hp.1; simp at this ⊢; omega, ?_⟩
                intro x hx
                simp only [List.mem_append, List.mem_cons] at hx
                rcases hx with hx | rfl | hx
                · exact hp.2 x (by simp [hx])
                · rw [Subtree_succ_iff]
                  exact ⟨q2, by omega, q3⟩
                · exact hp.2 x (by simp [hx])
              · exact hfill
              · exact le_refl _
              · simp only
                rw [inorder_node]
                rw [interleave_mid ks1 ks2 cs1 cs2 rc.root e4, q5]
                simp
          · obtain ⟨sk, sc, hsec⟩ := Subtree_ne_null lo hi h rc.second q2
            have hnn : rc.second.isNull = false := by rw [hsec]; rfl
            rw [hnn]
            simp only [Bool.false_eq_true, if_false]
            have hsub : ∀ x ∈ cs1 ++ rc.root :: rc.second :: cs2, Subtree lo hi (h + 1) x := by
              intro x hx
              simp only [List.mem_append, List.mem_cons] at hx
              rcases hx with hx | rfl | rfl | hx
              · exact hp.2 x (by simp [hx])
              · exact q1
              · exact q2
              · exact hp.2 x (by simp [hx])
            have hfill2 : ((ks1 ++ ks2).length : Int) ≤ hi := hfill
            obtain ⟨r, hr, ⟨k2, hk21, hcnt2⟩, hcase2⟩ := InsertAndSplit_tree lo hi
              rc.num_nodes_ hlo hd1 hd2 (h + 1) ks1 ks2 cs1 cs2 rc.root rc.second rc.first
              (scanKeys (ks1 ++ ks2) key) e3 e4 e5 hfill2 hsub
            rw [hr]
            have hX : interleave (ks1 ++ rc.first :: ks2) (cs1 ++ rc.root :: rc.second :: cs2)
                = (interleave ks1 cs1 ++ A) ++ key :: (B ++ interleaveTail ks2 cs2) := by
              rw [interleave_ins ks1 ks2 cs1 cs2 rc.root rc.second rc.first e4]
              have : inorder rc.root ++ rc.first :: (inorder rc.second ++ interleaveTail ks2 cs2)
                  = (inorder rc.root ++ rc.first :: inorder rc.second)
                    ++ interleaveTail ks2 cs2 := by simp
              rw [this, q3]
              simp
            refine ⟨r, rfl, ⟨k2 + k, by rw [hk21, hk1, incr32_add], ?_⟩, ?_, ?_⟩
            · rw [hcntp]
              simp only [countNodesList_append, countNodesList_cons] at hcnt2
              push_cast at hcnt2 ⊢
              omega
            · intro hm
              exact absurd (hmem.1 hm) hkc
            · intro _
              refine ⟨_, _, hin2, hA2, hB2, ?_⟩
              rw [hX] at hcase2
              rcases hcase2 with ⟨p1, p2, p3, p4, p5⟩ | ⟨p1, p2, p3⟩
              · refine Or.inl ⟨p1, p2, p3, ?_, p5⟩
                rw [p4]
                simp [NodePtr.keys]
              · exact Or.inr ⟨p1, p2, p3⟩

/-! ## The primitives of removal -/

theorem RemoveKeyAt_mid (ks1 ks2 : List Int) (k : Int) (cs1 cs2 : List NodePtr)
    (c c1 : NodePtr) (idx : Nat) (h1 : ks1.length = idx) (h2 : cs1.length = idx) :
    Node.RemoveKeyAt (.node (ks1 ++ k :: ks2) (cs1 ++ c :: c1 :: cs2)) idx
      = some (.node (ks1 ++ ks2) (cs1 ++ c :: cs2)) := by
  simp only [Node.RemoveKeyAt]
  rw [if_pos (by simp; omega), eraseIdx_mid ks1 ks2 k idx h1,
    eraseIdx_mid_succ cs1 cs2 c c1 idx h2]

theorem getLast?_snoc {α : Type} (l : List α) (a : α) : (l ++ [a]).getLast? = some a := by
  simp

theorem dropLast_snoc {α : Type} (l : List α) (a : α) : (l ++ [a]).dropLast = l := by
  simp

theorem concatLoop_spec (rk : List Int) :
    ∀ (lk : List Int) (lc rc : List NodePtr), rc.length = rk.length + 1 →
      ∃ rest, concatLoop lk lc rk rc = some (lk ++ rk, lc ++ rc, rest) := by
  induction rk with
  | nil =>
    intro lk lc rc h
    match rc, h with
    | [c], _ => exact ⟨[c], by simp [concatLoop]⟩
  | cons k rk ih =>
    intro lk lc rc h
    cases rc with
    | nil => simp at h
    | cons c rc =>
      simp only [List.length_cons, Nat.add_right_cancel_iff] at h
      obtain ⟨rest, hr⟩ := ih (lk ++ [k]) (lc ++ [c]) rc h
      exact ⟨rest, by simp [concatLoop, hr]⟩

theorem interleave_rot_left (xk : List Int) (xc : List NodePtr) (s : Int) (rc0 : NodePtr)
    (h : xc.length = xk.length + 1) :
    interleave (xk ++ [s]) (xc ++ [rc0]) = interleave xk xc ++ s :: inorder rc0 := by
  rw [interleave_append_key xk [] s xc [rc0] h, interleave_one]

theorem RotateLeft_spec (lo hi : Int) (hlo : 1 ≤ lo) (hd1 : 2 * lo ≤ hi) (h : Nat)
    (ks1 ks2 : List Int) (s : Int) (cs1 cs2 : List NodePtr) (xk : List Int)
    (xc : List NodePtr) (r : NodePtr) (idx : Nat)
    (h1 : ks1.length = idx) (h2 : cs1.length = idx)
    (hx : NodeOK lo hi h (.node xk xc)) (hxk : (xk.length : Int) = lo - 1)
    (hr : Subtree lo hi (h + 1) r) (hrk : lo < (r.keys.length : Int)) :
    ∃ k1 x1 r1, RotateLeft (.node (ks1 ++ s :: ks2) (cs1 ++ .node xk xc :: r :: cs2)) idx
        = some (.node (ks1 ++ k1 :: ks2) (cs1 ++ x1 :: r1 :: cs2))
      ∧ Subtree lo hi (h + 1) x1 ∧ Subtree lo hi (h + 1) r1
      ∧ interleave (ks1 ++ k1 :: ks2) (cs1 ++ x1 :: r1 :: cs2)
          = interleave (ks1 ++ s :: ks2) (cs1 ++ .node xk xc :: r :: cs2) := by
  cases r with
  | null => simp [Subtree] at hr
  | node rk rc =>
    obtain ⟨hr1, hr2, hr3, hr4⟩ := hr
    simp only [NodePtr.keys] at hrk
    match rk, rc, hr1, hrk with
    | [], _, _, hrk => simp at hrk; omega
    | r0 :: rk, [], hr1, _ => simp at hr1
    | r0 :: rk, rc0 :: rc, hr1, hrk =>
      refine ⟨r0, .node (xk ++ [s]) (xc ++ [rc0]), .node rk rc, ?_, ?_, ?_, ?_⟩
      · simp only [RotateLeft]
        rw [getElem?_mid_succ cs1 cs2 _ _ idx h2, getElem?_mid cs1 _ _ idx h2,
          getElem?_mid ks1 ks2 s idx h1]
        simp only
        rw [set_mid ks1 ks2 s r0 idx h1, set_mid cs1 _ _ _ idx h2,
          set_mid_succ cs1 cs2 _ _ _ idx h2]
      · refine ⟨by simp; exact hx.1, by simp; omega, by simp; omega, ?_⟩
        intro c hc
        rcases List.mem_append.1 hc with hc | hc
        · exact hx.2 c hc
        · simp only [List.mem_singleton] at hc
          subst hc
          exact hr4 c (by simp)
      · simp only [List.length_cons] at hr1 hr2 hr3 hrk
        push_cast at hr2 hr3 hrk
        refine ⟨by omega, by omega, by omega, ?_⟩
        intro c hc
        exact hr4 c (by simp [hc])
      · rw [interleave_ins ks1 ks2 cs1 cs2 _ _ r0 (by omega),
          interleave_ins ks1 ks2 cs1 cs2 _ _ s (by omega)]
        simp only [inorder_node]
        rw [interleave_rot_left xk xc s rc0 hx.1]
        simp [interleave]

theorem RotateRight_spec (lo hi : Int) (hlo : 1 ≤ lo) (hd1 : 2 * lo ≤ hi) (h : Nat)
    (ks1 ks2 : List Int) (s : Int) (cs1 cs2 : List NodePtr) (xk : List Int)
    (xc : List NodePtr) (l : NodePtr) (idx : Nat)
    (h1 : ks1.length + 1 = idx) (h2 : cs1.length + 1 = idx)
    (hx : NodeOK lo hi h (.node xk xc)) (hxk : (xk.length : Int) = lo - 1)
    (hl : Subtree lo hi (h + 1) l) (hlk : lo < (l.keys.length : Int)) :
    ∃ k1 l1 x1, RotateRight (.node (ks1 ++ s :: ks2) (cs1 ++ l :: .node xk xc :: cs2)) idx
        = some (.node (ks1 ++ k1 :: ks2) (cs1 ++ l1 :: x1 :: cs2))
      ∧ Subtree lo hi (h + 1) l1 ∧ Subtree lo hi (h + 1) x1
      ∧ interleave (ks1 ++ k1 :: ks2) (cs1 ++ l1 :: x1 :: cs2)
          = interleave (ks1 ++ s :: ks2) (cs1 ++ l :: .node xk xc :: cs2) := by
  cases l with
  | null => simp [Subtree] at hl
  | node lk lc =>
    obtain ⟨hl1, hl2, hl3, hl4⟩ := hl
    simp only [NodePtr.keys] at hlk
    rcases List.eq_nil_or_concat lk with e | ⟨lk1, kl, e⟩
    · rw [e] at hlk; simp at hlk; omega
    rcases List.eq_nil_or_concat lc with e2 | ⟨lc1, cl, e2⟩
    · rw [e2] at hl1; simp at hl1
    rw [List.concat_eq_append] at e e2
    subst e e2
    have hlen : lc1.length = lk1.length + 1 := by simpa using hl1
    refine ⟨kl, .node lk1 lc1, .node (s :: xk) (cl :: xc), ?_, ?_, ?_, ?_⟩
    · simp only [RotateRight]
      rw [if_neg (by omega)]
      have i1 : idx - 1 = cs1.length := by omega
      have i2 : idx = cs1.length + 1 := by omega
      rw [i1]
      rw [getElem?_mid cs1 _ _ cs1.length rfl, getElem?_mid ks1 ks2 s cs1.length (by omega)]
      rw [i2, getElem?_mid_succ cs1 cs2 _ _ cs1.length rfl]
      simp only [getLast?_snoc, dropLast_snoc]
      rw [set_mid ks1 ks2 s kl cs1.length (by omega),
        set_mid_succ cs1 cs2 _ _ _ cs1.length rfl, set_mid cs1 _ _ _ cs1.length rfl]
    · simp only [List.length_append, List.length_singleton] at hl2 hl3 hlk
      push_cast at hl2 hl3 hlk
      refine ⟨hlen, by omega, by omega, ?_⟩
      intro c hc
      exact hl4 c (by simp [hc])
    · refine ⟨by simp; exact hx.1, by simp; omega, by simp; omega, ?_⟩
      intro c hc
      rcases List.mem_cons.1 hc with hc | hc
      · subst hc
        exact hl4 c (by simp)
      · exact hx.2 c hc
    · rw [interleave_ins ks1 ks2 cs1 cs2 _ _ kl (by omega),
        interleave_ins ks1 ks2 cs1 cs2 _ _ s (by omega)]
      simp only [inorder_node]
      rw [interleave_rot_left lk1 lc1 kl cl hlen]
      simp [interleave]

theorem MergeSiblings_spec (t : BTree) (f : Bool) (ksA ksB : List Int) (s : Int)
    (csA csB : List NodePtr) (lk rk : List Int) (lc rc : List NodePtr) (li idx : Nat)
    (h1 : ksA.length = li) (h2 : csA.length = li) (h3 : csB.length = ksB.length)
    (hrc : rc.length = rk.length + 1)
    (hs : ∀ k ∈ ksA, k < s) (hidx : idx = li ∨ (idx = li + 1 ∧ csB = [])) :
    MergeSiblings t f (.node (ksA ++ s :: ksB) (csA ++ .node lk lc :: .node rk rc :: csB)) idx
      = some (if f = true ∧ (ksA ++ ksB).isEmpty = true then
          ({ t with num_nodes_ := wrap32 (t.num_nodes_ - 1),
                    height_ := wrap32 (t.height_ - 1) },
            .node (lk ++ s :: rk) (lc ++ rc))
        else (t, .node (ksA ++ ksB) (csA ++ .node (lk ++ s :: rk) (lc ++ rc) :: csB))) := by
  obtain ⟨rest, hcl⟩ := concatLoop_spec rk (lk ++ [s]) lc rc hrc
  have hli : (if idx + 1 < (csA ++ NodePtr.node lk lc :: NodePtr.node rk rc :: csB).length
      then idx else idx - 1) = li := by
    rcases hidx with e | ⟨e, e2⟩
    · rw [if_pos (by simp; omega)]; exact e
    · rw [if_neg (by simp [e2]; omega)]; omega
  have hg : ¬ (¬ (idx + 1 < (csA ++ NodePtr.node lk lc :: NodePtr.node rk rc :: csB).length)
      ∧ idx = 0) := by
    rcases hidx with e | ⟨e, e2⟩
    · intro hh; apply hh.1; simp; omega
    · intro hh; omega
  simp only [MergeSiblings]
  rw [if_neg hg]
  simp only [hli]
  rw [getElem?_mid csA _ _ li h2, getElem?_mid_succ csA csB _ _ li h2,
    getElem?_mid ksA ksB s li h1]
  simp only [ConcatenateNodes, hcl]
  rw [set_mid csA _ _ _ li h2, set_mid_succ csA csB _ _ _ li h2,
    scanKeys_mid ksA ksB s hs, RemoveKeyAt_mid ksA ksB s csA csB _ _ ksA.length rfl (by omega)]
  simp only [NodePtr.keys, List.append_assoc, List.singleton_append]
  split <;> rfl

/-! ## Rebalancing -/

theorem merge_action (lo hi : Int) (hlo : 1 ≤ lo) (hd1 : 2 * lo ≤ hi) (h : Nat)
    (t : BTree) (f : Bool) (ksA ksB : List Int) (s : Int)
    (csA csB : List NodePtr) (lk rk : List Int) (lc rc : List NodePtr) (li idx : Nat)
    (h1 : ksA.length = li) (h2 : csA.length = li) (h3 : csB.length = ksB.length)
    (hL : NodeOK lo hi h (.node lk lc)) (hR : NodeOK lo hi h (.node rk rc))
    (hcount : (lk.length : Int) + rk.length = 2 * lo - 1)
    (hsib : ∀ c ∈ csA ++ csB, Subtree lo hi (h + 1) c)
    (hsorted : (ksA ++ s :: ksB).Pairwise (· < ·))
    (hidx : idx = li ∨ (idx = li + 1 ∧ csB = [])) :
    ∃ t1 slot,
      MergeSiblings t f (.node (ksA ++ s :: ksB) (csA ++ .node lk lc :: .node rk rc :: csB)) idx
        = some (t1, slot)
      ∧ inorder slot = interleave (ksA ++ s :: ksB) (csA ++ .node lk lc :: .node rk rc :: csB)
      ∧ ((t1 = t ∧ NodeOK lo hi (h + 1) slot
            ∧ (ksA ++ s :: ksB).length ≤ slot.keys.length + 1
            ∧ slot.keys.length ≤ (ksA ++ s :: ksB).length ∧ (f = true → 1 ≤ slot.keys.length))
         ∨ (f = true ∧ (ksA ++ s :: ksB).length = 1 ∧ Subtree lo hi (h + 1) slot
            ∧ t1 = { t with num_nodes_ := wrap32 (t.num_nodes_ - 1),
                            height_ := wrap32 (t.height_ - 1) })) := by
  have hs : ∀ k ∈ ksA, k < s := by
    rw [List.pairwise_append] at hsorted
    intro k hk
    exact hsorted.2.2 k hk s (by simp)
  have hM : Subtree lo hi (h + 1) (.node (lk ++ s :: rk) (lc ++ rc)) := by
    have a1 := hL.1
    have a2 := hR.1
    refine ⟨by simp; omega, by simp; push_cast; omega, by simp; push_cast; omega, ?_⟩
    intro c hc
    rcases List.mem_append.1 hc with hc | hc
    · exact hL.2 c hc
    · exact hR.2 c hc
  have hinM : inorder (.node (lk ++ s :: rk) (lc ++ rc))
      = inorder (.node lk lc) ++ s :: inorder (.node rk rc) := by
    simp only [inorder_node]
    rw [interleave_append_key lk rk s lc rc hL.1]
  rw [MergeSiblings_spec t f ksA ksB s csA csB lk rk lc rc li idx h1 h2 h3 hR.1 hs hidx]
  by_cases hc : f = true ∧ (ksA ++ ksB).isEmpty = true
  · rw [if_pos hc]
    obtain ⟨hf, he⟩ := hc
    have he2 : ksA ++ ksB = [] := by simpa using he
    obtain ⟨ea, eb⟩ := List.append_eq_nil.1 he2
    subst ea eb
    have ea2 : csA = [] := by
      apply List.eq_nil_of_length_eq_zero
      simp at h1
      omega
    have eb2 : csB = [] := by
      apply List.eq_nil_of_length_eq_zero
      simpa using h3
    subst ea2 eb2
    refine ⟨_, _, rfl, ?_, Or.inr ⟨hf, by simp, hM, rfl⟩⟩
    rw [hinM]
    simp [interleave, inorder_node]
  · rw [if_neg hc]
    refine ⟨_, _, rfl, ?_, Or.inl ⟨rfl, ?_, ?_, ?_, ?_⟩⟩
    · rw [inorder_node, interleave_mid ksA ksB csA csB _ (by omega), hinM,
        interleave_ins ksA ksB csA csB _ _ s (by omega)]
      simp
    · refine ⟨by simp; omega, ?_⟩
      intro c hc
      simp only [List.mem_append, List.mem_cons] at hc
      rcases hc with hc | rfl | hc
      · exact hsib c (by simp [hc])
      · exact hM
      · exact hsib c (by simp [hc])
    · simp [NodePtr.keys]; omega
    · simp [NodePtr.keys]
    · intro hf
      simp only [NodePtr.keys]
      by_contra hcon
      apply hc
      refine ⟨hf, ?_⟩
      have : (ksA ++ ksB).length = 0 := by omega
      simpa using List.eq_nil_of_length_eq_zero this

theorem rotL_action (lo hi : Int) (hlo : 1 ≤ lo) (hd1 : 2 * lo ≤ hi) (h : Nat)
    (t : BTree) (f : Bool)
    (ks1 ks2 : List Int) (s : Int) (cs1 cs2 : List NodePtr) (xk : List Int)
    (xc : List NodePtr) (r : NodePtr) (idx : Nat)
    (h1 : ks1.length = idx) (h2 : cs1.length = idx) (h3 : cs2.length = ks2.length)
    (hsib : ∀ c ∈ cs1 ++ r :: cs2, Subtree lo hi (h + 1) c)
    (hx : NodeOK lo hi h (.node xk xc)) (hxk : (xk.length : Int) = lo - 1)
    (hrk : lo < (r.keys.length : Int)) :
    ∃ t1 slot,
      Option.map (fun p => (t, p))
        (RotateLeft (.node (ks1 ++ s :: ks2) (cs1 ++ .node xk xc :: r :: cs2)) idx)
        = some (t1, slot)
      ∧ inorder slot = interleave (ks1 ++ s :: ks2) (cs1 ++ .node xk xc :: r :: cs2)
      ∧ ((t1 = t ∧ NodeOK lo hi (h + 1) slot
            ∧ (ks1 ++ s :: ks2).length ≤ slot.keys.length + 1
            ∧ slot.keys.length ≤ (ks1 ++ s :: ks2).length ∧ (f = true → 1 ≤ slot.keys.length))
         ∨ (f = true ∧ (ks1 ++ s :: ks2).length = 1 ∧ Subtree lo hi (h + 1) slot
            ∧ t1 = { t with num_nodes_ := wrap32 (t.num_nodes_ - 1),
                            height_ := wrap32 (t.height_ - 1) })) := by
  obtain ⟨k1, x1, r1, q1, q2, q3, q4⟩ := RotateLeft_spec lo hi hlo hd1 h ks1 ks2 s cs1 cs2
    xk xc r idx h1 h2 hx hxk (hsib r (by simp)) hrk
  rw [q1]
  refine ⟨t, _, rfl, ?_, Or.inl ⟨rfl, ?_, ?_, ?_, ?_⟩⟩
  · rw [inorder_node, q4]
  · refine ⟨by simp; omega, ?_⟩
    intro c hc
    simp only [List.mem_append, List.mem_cons] at hc
    rcases hc with hc | rfl | rfl | hc
    · exact hsib c (by simp [hc])
    · exact q2
    · exact q3
    · exact hsib c (by simp [hc])
  · simp [NodePtr.keys]
  · simp [NodePtr.keys]
  · intro _
    simp [NodePtr.keys]
    omega

theorem rotR_action (lo hi : Int) (hlo : 1 ≤ lo) (hd1 : 2 * lo ≤ hi) (h : Nat)
    (t : BTree) (f : Bool)
    (ks1 ks2 : List Int) (s : Int) (cs1 cs2 : List NodePtr) (xk : List Int)
    (xc : List NodePtr) (l : NodePtr) (idx : Nat)
    (h1 : ks1.length + 1 = idx) (h2 : cs1.length + 1 = idx) (h3 : cs2.length = ks2.length)
    (hsib : ∀ c ∈ cs1 ++ l :: cs2, Subtree lo hi (h + 1) c)
    (hx : NodeOK lo hi h (.node xk xc)) (hxk : (xk.length : Int) = lo - 1)
    (hlk : lo < (l.keys.length : Int)) :
    ∃ t1 slot,
      Option.map (fun p => (t, p))
        (RotateRight (.node (ks1 ++ s :: ks2) (cs1 ++ l :: .node xk xc :: cs2)) idx)
        = some (t1, slot)
      ∧ inorder slot = interleave (ks1 ++ s :: ks2) (cs1 ++ l :: .node xk xc :: cs2)
      ∧ ((t1 = t ∧ NodeOK lo hi (h + 1) slot
            ∧ (ks1 ++ s :: ks2).length ≤ slot.keys.length + 1
            ∧ slot.keys.length ≤ (ks1 ++ s :: ks2).length ∧ (f = true → 1 ≤ slot.keys.length))
         ∨ (f = true ∧ (ks1 ++ s :: ks2).length = 1 ∧ Subtree lo hi (h + 1) slot
            ∧ t1 = { t with num_nodes_ := wrap32 (t.num_nodes_ - 1),
                            height_ := wrap32 (t.height_ - 1) })) := by
  obtain ⟨k1, l1, x1, q1, q2, q3, q4⟩ := RotateRight_spec lo hi hlo hd1 h ks1 ks2 s cs1
    cs2 xk xc l idx h1 h2 hx hxk (hsib l (by simp)) hlk
  rw [q1]
  refine ⟨t, _, rfl, ?_, Or.inl ⟨rfl, ?_, ?_, ?_, ?_⟩⟩
  · rw [inorder_node, q4]
  · refine ⟨by simp; omega, ?_⟩
    intro c hc
    simp only [List.mem_append, List.mem_cons] at hc
    rcases hc with hc | rfl | rfl | hc
    · exact hsib c (by simp [hc])
    · exact q2
    · exact q3
    · exact hsib c (by simp [hc])
  · simp [NodePtr.keys]
  · simp [NodePtr.keys]
  · intro _
    simp [NodePtr.keys]
    omega

theorem BalanceTree_spec (lo hi : Int) (hlo : 1 ≤ lo) (hd1 : 2 * lo ≤ hi) (h : Nat)
    (t : BTree) (ht : t.kMinKeys_ = lo) (f : Bool)
    (ks1 ks2 : List Int) (cs1 cs2 : List NodePtr) (xk : List Int) (xc : List NodePtr)
    (idx : Nat) (h1 : ks1.length = idx) (h2 : cs1.length = idx)
    (h3 : cs2.length = ks2.length) (hpk : 1 ≤ (ks1 ++ ks2).length)
    (hsib : ∀ c ∈ cs1 ++ cs2, Subtree lo hi (h + 1) c)
    (hx : NodeOK lo hi h (.node xk xc)) (hxk : (xk.length : Int) = lo - 1)
    (hsorted : (ks1 ++ ks2).Pairwise (· < ·)) :
    ∃ t1 slot,
      BalanceTree t f (.node (ks1 ++ ks2) (cs1 ++ .node xk xc :: cs2)) idx = some (t1, slot)
      ∧ inorder slot = interleave (ks1 ++ ks2) (cs1 ++ .node xk xc :: cs2)
      ∧ ((t1 = t ∧ NodeOK lo hi (h + 1) slot
            ∧ (ks1 ++ ks2).length ≤ slot.keys.length + 1
            ∧ slot.keys.length ≤ (ks1 ++ ks2).length ∧ (f = true → 1 ≤ slot.keys.length))
         ∨ (f = true ∧ (ks1 ++ ks2).length = 1 ∧ Subtree lo hi (h + 1) slot
            ∧ t1 = { t with num_nodes_ := wrap32 (t.num_nodes_ - 1),
                            height_ := wrap32 (t.height_ - 1) })) := by
  subst ht
  simp only [BalanceTree]
  cases cs2 with
  | nil =>
    have e3 : ks2 = [] := List.eq_nil_of_length_eq_zero (by simpa using h3.symm)
    subst e3
    rw [if_neg (show ¬ (idx + 1 < (cs1 ++ [NodePtr.node xk xc]).length) by simp; omega)]
    rcases List.eq_nil_or_concat cs1 with e | ⟨cs0, l, e⟩
    · subst e
      simp at h2
      subst h2
      simp at h1
      subst h1
      simp at hpk
    rw [List.concat_eq_append] at e
    subst e
    rcases List.eq_nil_or_concat ks1 with e | ⟨ks0, s, e⟩
    · subst e
      simp at h1 h2
      omega
    rw [List.concat_eq_append] at e
    subst e
    have h1b : ks0.length + 1 = idx := by simpa using h1
    have h2b : cs0.length + 1 = idx := by simpa using h2
    have hl : Subtree t.kMinKeys_ hi (h + 1) l := hsib l (by simp)
    cases l with
    | null => simp [Subtree] at hl
    | node lk lc =>
      have ek : ks0 ++ [s] ++ [] = ks0 ++ s :: [] := by simp
      have ec : cs0 ++ [NodePtr.node lk lc] ++ [NodePtr.node xk xc]
          = cs0 ++ NodePtr.node lk lc :: NodePtr.node xk xc :: [] := by simp
      rw [ek, ec]
      rw [ek] at hsorted
      rw [if_pos (show 1 ≤ idx by omega),
        getElem?_mid cs0 _ _ (idx - 1) (by omega)]
      simp only [Bool.false_eq_true, if_false, decide_eq_true_eq]
      have hsib2 : ∀ c ∈ cs0 ++ NodePtr.node lk lc :: [], Subtree t.kMinKeys_ hi (h + 1) c := by
        intro c hc
        exact hsib c (by simpa using hc)
      by_cases hk : t.kMinKeys_ < (lk.length : Int)
      · rw [if_pos hk]
        exact rotR_action t.kMinKeys_ hi hlo hd1 h t f ks0 [] s cs0 [] xk xc _ idx h1b h2b rfl hsib2 hx
          hxk hk
      · rw [if_neg hk]
        have := hl.2.1
        exact merge_action t.kMinKeys_ hi hlo hd1 h t f ks0 [] s cs0 [] lk xk lc xc ks0.length
          idx rfl (by omega) rfl ((Subtree_succ_iff t.kMinKeys_ hi h _).1 hl).1 hx (by omega)
          (fun c hc => hsib c (by
            simp only [List.append_nil] at hc
            simp [hc])) hsorted (Or.inr ⟨by omega, rfl⟩)
  | cons r cs0 =>
    cases ks2 with
    | nil => simp at h3
    | cons s ks0 =>
      have h3b : cs0.length = ks0.length := by simpa using h3
      have hr : Subtree t.kMinKeys_ hi (h + 1) r := hsib r (by simp)
      cases r with
      | null => simp [Subtree] at hr
      | node rk rc =>
        rw [if_pos (show idx + 1 < (cs1 ++ NodePtr.node xk xc :: NodePtr.node rk rc :: cs0).length
          by simp; omega), getElem?_mid_succ cs1 cs0 _ _ idx h2]
        have hmerge := merge_action t.kMinKeys_ hi hlo hd1 h t f ks1 ks0 s cs1 cs0 xk rk xc rc idx
          idx h1 h2 h3b hx ((Subtree_succ_iff t.kMinKeys_ hi h _).1 hr).1
        have hsibm : ∀ c ∈ cs1 ++ cs0, Subtree t.kMinKeys_ hi (h + 1) c := by
          intro c hc
          simp only [List.mem_append] at hc
          rcases hc with hc | hc
          · exact hsib c (by simp [hc])
          · exact hsib c (by simp [hc])
        rcases List.eq_nil_or_concat cs1 with e | ⟨cs9, l, e⟩
        · subst e
          simp at h2
          subst h2
          rw [if_neg (show ¬ (1 ≤ 0) by omega)]
          simp only [Bool.false_eq_true, if_false, decide_eq_true_eq]
          by_cases hk : t.kMinKeys_ < (rk.length : Int)
          · rw [if_pos hk]
            exact rotL_action t.kMinKeys_ hi hlo hd1 h t f ks1 ks0 s [] cs0 xk xc _ 0 h1 rfl h3b hsib hx
              hxk hk
          · rw [if_neg hk]
            have := hr.2.1
            exact hmerge (by omega) hsibm hsorted (Or.inl rfl)
        · rw [List.concat_eq_append] at e
          subst e
          rcases List.eq_nil_or_concat ks1 with e | ⟨ks9, s9, e⟩
          · subst e
            simp at h1 h2
            omega
          rw [List.concat_eq_append] at e
          subst e
          have h1b : ks9.length + 1 = idx := by simpa using h1
          have h2b : cs9.length + 1 = idx := by simpa using h2
          have hl : Subtree t.kMinKeys_ hi (h + 1) l := hsib l (by simp)
          cases l with
          | null => simp [Subtree] at hl
          | node lk lc =>
            have hget : (cs9 ++ [NodePtr.node lk lc] ++ NodePtr.node xk xc
                :: NodePtr.node rk rc :: cs0)[idx - 1]? = some (NodePtr.node lk lc) := by
              rw [List.append_assoc]
              exact getElem?_mid cs9 _ _ (idx - 1) (by omega)
            rw [if_pos (show 1 ≤ idx by omega), hget]
            simp only [decide_eq_true_eq]
            by_cases hk : t.kMinKeys_ < (rk.length : Int)
            · rw [if_pos hk]
              exact rotL_action t.kMinKeys_ hi hlo hd1 h t f _ ks0 s _ cs0 xk xc _ idx h1 h2 h3b hsib hx
                hxk hk
            · rw [if_neg hk]
              by_cases hk2 : t.kMinKeys_ < (lk.length : Int)
              · rw [if_pos hk2]
                have ek : ks9 ++ [s9] ++ s :: ks0 = ks9 ++ s9 :: s :: ks0 := by simp
                have ec : cs9 ++ [NodePtr.node lk lc] ++ NodePtr.node xk xc
                    :: NodePtr.node rk rc :: cs0
                    = cs9 ++ NodePtr.node lk lc :: NodePtr.node xk xc
                      :: NodePtr.node rk rc :: cs0 := by simp
                rw [ek, ec]
                have hsib3 : ∀ c ∈ cs9 ++ NodePtr.node lk lc :: NodePtr.node rk rc :: cs0,
                    Subtree t.kMinKeys_ hi (h + 1) c := by
                  intro c hc
                  exact hsib c (by simpa using hc)
                exact rotR_action t.kMinKeys_ hi hlo hd1 h t f ks9 (s :: ks0) s9 cs9 _ xk xc _ idx h1b
                  h2b (by simpa using h3b) hsib3 hx hxk hk2
              · rw [if_neg hk2]
                have := hr.2.1
                exact hmerge (by omega) hsibm hsorted (Or.inl rfl)

theorem BalanceIfNeeded_spec (lo hi : Int) (hlo : 1 ≤ lo) (hd1 : 2 * lo ≤ hi) (h : Nat)
    (t : BTree) (ht : t.kMinKeys_ = lo) (f : Bool)
    (ks1 ks2 : List Int) (cs1 cs2 : List NodePtr) (x0 : NodePtr) (xk : List Int)
    (xc : List NodePtr)
    (idx : Nat) (h1 : ks1.length = idx) (h2 : cs1.length = idx)
    (h3 : cs2.length = ks2.length) (hpk : 1 ≤ (ks1 ++ ks2).length)
    (hsib : ∀ c ∈ cs1 ++ cs2, Subtree lo hi (h + 1) c)
    (hx : NodeOK lo hi h (.node xk xc)) (hxlo : lo - 1 ≤ (xk.length : Int))
    (hxhi : (xk.length : Int) ≤ hi)
    (hsorted : (ks1 ++ ks2).Pairwise (· < ·)) :
    ∃ t1 slot,
      BalanceIfNeeded t f (.node (ks1 ++ ks2) (cs1 ++ x0 :: cs2)) (.node xk xc) idx
        = some (t1, slot)
      ∧ inorder slot = interleave (ks1 ++ ks2) (cs1 ++ .node xk xc :: cs2)
      ∧ ((t1 = t ∧ NodeOK lo hi (h + 1) slot
            ∧ (ks1 ++ ks2).length ≤ slot.keys.length + 1
            ∧ slot.keys.length ≤ (ks1 ++ ks2).length ∧ (f = true → 1 ≤ slot.keys.length))
         ∨ (f = true ∧ (ks1 ++ ks2).length = 1 ∧ Subtree lo hi (h + 1) slot
            ∧ t1 = { t with num_nodes_ := wrap32 (t.num_nodes_ - 1),
                            height_ := wrap32 (t.height_ - 1) })) := by
  subst ht
  simp only [BalanceIfNeeded]
  rw [set_mid cs1 cs2 x0 _ idx h2]
  by_cases hu : (xk.length : Int) < t.kMinKeys_
  · rw [if_pos hu]
    exact BalanceTree_spec t.kMinKeys_ hi hlo hd1 h t rfl f ks1 ks2 cs1 cs2 xk xc idx h1 h2 h3 hpk hsib
      hx (by omega) hsorted
  · rw [if_neg hu]
    refine ⟨t, _, rfl, by rw [inorder_node], Or.inl ⟨rfl, ?_, ?_, ?_, ?_⟩⟩
    · refine ⟨by simp; omega, ?_⟩
      intro c hc
      simp only [List.mem_append, List.mem_cons] at hc
      rcases hc with hc | rfl | hc
      · exact hsib c (by simp [hc])
      · rw [Subtree_succ_iff]
        exact ⟨hx, by simp [NodePtr.keys]; omega, by simpa [NodePtr.keys] using hxhi⟩
      · exact hsib c (by simp [hc])
    · simp [NodePtr.keys]
    · simp [NodePtr.keys]
    · intro _
      simpa [NodePtr.keys] using hpk

/-! ## RecursiveRemove -/

theorem interleave_keys_sublist (cs : List NodePtr) :
    ∀ ks : List Int, List.Sublist ks (interleave ks cs) := by
  induction cs with
  | nil => intro ks; simp [interleave]
  | cons c cs ih =>
    intro ks
    cases ks with
    | nil => simp
    | cons k ks =>
      simp only [interleave]
      exact List.Sublist.trans ((ih ks).cons₂ k) (List.sublist_append_right _ _)

theorem RecursiveRemove_node (t : BTree) (f : Bool) (parent : NodePtr) (ks : List Int)
    (cs : List NodePtr) (root_idx : Nat) (key : Int) :
    RecursiveRemove t f parent (.node ks cs) root_idx key
      = if ks[scanKeys ks key]? = some key then
          match Node.RemoveKeyAt (.node ks cs) (scanKeys ks key) with
          | none => none
          | some root1 => BalanceIfNeeded t f parent root1 root_idx
        else
          match RecursiveRemoveAt t parent.isNull (.node ks cs) cs (scanKeys ks key)
              (scanKeys ks key) key with
          | none => none
          | some (t1, root1) => BalanceIfNeeded t1 f parent root1 root_idx := by
  rw [RecursiveRemove] <;> rfl

/-- Removing a key met in a leaf. -/
theorem remove_found (lo hi : Int) (ks : List Int) (cs : List NodePtr) (key : Int)
    (hp : NodeOK lo hi 0 (.node ks cs)) (hf : ks[scanKeys ks key]? = some key) :
    ∃ ksa ksb cs1, ks = ksa ++ key :: ksb
      ∧ Node.RemoveKeyAt (.node ks cs) (scanKeys ks key) = some (.node (ksa ++ ksb) cs1)
      ∧ NodeOK lo hi 0 (.node (ksa ++ ksb) cs1)
      ∧ interleave ks cs = ksa ++ key :: ksb ∧ interleave (ksa ++ ksb) cs1 = ksa ++ ksb := by
  obtain ⟨ks1, ks2, cs1, c, cs2, e1, e2, e3, e4, e5, e6, _, _⟩ := node_at_scan ks cs key hp.1
  rw [e6] at hf
  cases ks2 with
  | nil => simp at hf
  | cons k ks2 =>
    simp only [List.head?_cons, Option.some.injEq] at hf
    subst hf
    cases cs2 with
    | nil => simp at e5
    | cons c1 cs2 =>
      have hn := NodeOK_zero_nulls lo hi ks cs hp
      refine ⟨ks1, ks2, cs1 ++ c :: cs2, e1, ?_, ⟨?_, ?_⟩, ?_, ?_⟩
      · rw [← e3]
        subst e1 e2
        exact RemoveKeyAt_mid ks1 ks2 k cs1 cs2 c c1 ks1.length rfl e4
      · simp at e5 ⊢; omega
      · intro x hx
        rw [Subtree_zero_iff]
        apply hn x
        rw [e2]
        simp only [List.mem_append, List.mem_cons] at hx ⊢
        tauto
      · rw [interleave_nulls ks cs hn, e1]
      · apply interleave_nulls
        intro x hx
        apply hn x
        rw [e2]
        simp only [List.mem_append, List.mem_cons] at hx ⊢
        tauto

theorem RecursiveRemove_child (lo hi : Int) (hlo : 1 ≤ lo) (hd1 : 2 * lo ≤ hi) (key : Int)
    (h : Nat) :
    ∀ (t : BTree) (f : Bool) (ks1 ks2 : List Int) (cs1 cs2 : List NodePtr) (root : NodePtr)
      (idx : Nat), t.kMinKeys_ = lo → ks1.length = idx → cs1.length = idx →
      cs2.length = ks2.length → 1 ≤ (ks1 ++ ks2).length →
      (∀ c ∈ cs1 ++ cs2, Subtree lo hi (h + 1) c) → Subtree lo hi (h + 1) root →
      (interleave (ks1 ++ ks2) (cs1 ++ root :: cs2)).Pairwise (· < ·) →
      (∃ fk fc, SearchNode root key = some (.node fk fc) ∧ fc.all NodePtr.isNull = true) →
      ∃ t1 slot,
        RecursiveRemove t f (.node (ks1 ++ ks2) (cs1 ++ root :: cs2)) root idx key
          = some (t1, slot)
        ∧ (∃ A B, interleave (ks1 ++ ks2) (cs1 ++ root :: cs2) = A ++ key :: B
            ∧ inorder slot = A ++ B)
        ∧ ((t1 = t ∧ NodeOK lo hi (h + 1) slot
              ∧ (ks1 ++ ks2).length ≤ slot.keys.length + 1
              ∧ slot.keys.length ≤ (ks1 ++ ks2).length ∧ (f = true → 1 ≤ slot.keys.length))
           ∨ (f = true ∧ (ks1 ++ ks2).length = 1 ∧ Subtree lo hi (h + 1) slot
              ∧ t1 = { t with num_nodes_ := wrap32 (t.num_nodes_ - 1),
                              height_ := wrap32 (t.height_ - 1) })) := by
  induction h with
  | zero =>
    intro t f ks1 ks2 cs1 cs2 root idx ht h1 h2 h3 hpk hsib hroot hs hleaf
    cases root with
    | null => simp [Subtree] at hroot
    | node ks cs =>
      obtain ⟨hok, hrlo, hrhi⟩ := (Subtree_succ_iff lo hi 0 _).1 hroot
      simp only [NodePtr.keys] at hrlo hrhi
      obtain ⟨fk, fc, hsearch, hfc⟩ := hleaf
      rw [SearchNode_node, NodeOK_zero_all lo hi ks cs hok] at hsearch
      by_cases hf : ks[scanKeys ks key]? = some key
      · obtain ⟨ksa, ksb, csn, e1, e2, e3, e4, e5⟩ := remove_found lo hi ks cs key hok hf
        rw [RecursiveRemove_node, if_pos hf, e2]
        simp only
        have hlen : ks.length = ksa.length + (ksb.length + 1) := by rw [e1]; simp
        obtain ⟨t1, slot, q1, q2, q3⟩ := BalanceIfNeeded_spec lo hi hlo hd1 0 t ht f ks1 ks2
          cs1 cs2 (.node ks cs) (ksa ++ ksb) csn idx h1 h2 h3 hpk hsib e3
          (by simp; push_cast at hrlo; omega) (by simp; push_cast at hrhi; omega)
          (hs.sublist (interleave_keys_sublist _ _))
        refine ⟨t1, slot, q1, ?_, q3⟩
        refine ⟨interleave ks1 cs1 ++ ksa, ksb ++ interleaveTail ks2 cs2, ?_, ?_⟩
        · rw [interleave_mid ks1 ks2 cs1 cs2 _ (by omega), inorder_node, e4]
          simp
        · rw [q2, interleave_mid ks1 ks2 cs1 cs2 _ (by omega), inorder_node, e5]
          simp
      · rw [if_neg hf] at hsearch
        simp at hsearch
  | succ h ih =>
    intro t f ks1 ks2 cs1 cs2 root idx ht h1 h2 h3 hpk hsib hroot hs hleaf
    cases root with
    | null => simp [Subtree] at hroot
    | node ks cs =>
      obtain ⟨hok, hrlo, hrhi⟩ := (Subtree_succ_iff lo hi (h + 1) _).1 hroot
      simp only [NodePtr.keys] at hrlo hrhi
      obtain ⟨fk, fc, hsearch, hfc⟩ := hleaf
      have hnotall := NodeOK_succ_all lo hi h ks cs hok
      rw [SearchNode_node, hnotall] at hsearch
      by_cases hf : ks[scanKeys ks key]? = some key
      · rw [if_pos hf] at hsearch
        simp only [Option.some.injEq, NodePtr.node.injEq] at hsearch
        rw [← hsearch.2, hnotall] at hfc
        simp at hfc
      · rw [if_neg hf] at hsearch
        simp only [Bool.false_eq_true, if_false] at hsearch
        have hsroot : (interleave ks cs).Pairwise (· < ·) := by
          rw [interleave_mid ks1 ks2 cs1 cs2 _ (by omega), List.pairwise_append,
            List.pairwise_append, inorder_node] at hs
          exact hs.2.1.1
        obtain ⟨ksa, ksb, csa, c, csb, e1, e2, e3, e4, e5, _⟩ := node_at_scan ks cs key hok.1
        rw [RecursiveRemove_node, if_neg hf]
        subst e1 e2
        rw [SearchNodeAt_mid csa csb c _ key (by omega)] at hsearch
        rw [RecursiveRemoveAt_mid t _ _ csa csb c _ _ key (by omega)]
        have hpk2 : 1 ≤ (ksa ++ ksb).length := by
          push_cast at hrlo
          omega
        obtain ⟨t1, slotc, p1, ⟨A, B, p2, p3⟩, p4⟩ := ih t false ksa ksb csa csb c
          (scanKeys (ksa ++ ksb) key) ht e3 (by omega) e5 hpk2
          (fun x hx => hok.2 x (by
            simp only [List.mem_append, List.mem_cons] at hx ⊢
            tauto))
          (hok.2 c (by simp)) hsroot ⟨fk, fc, hsearch, hfc⟩
        simp only [NodePtr.isNull]
        rw [p1]
        simp only
        rcases p4 with ⟨r1, r2, r3, r4, _⟩ | ⟨r1, _⟩
        · subst r1
          cases slotc with
          | null => simp [NodeOK] at r2
          | node xk xc =>
            simp only [NodePtr.keys] at r3 r4
            obtain ⟨t2, slot, q1, q2, q3⟩ := BalanceIfNeeded_spec lo hi hlo hd1 (h + 1) t1 ht
              f ks1 ks2 cs1 cs2 (.node (ksa ++ ksb) (csa ++ c :: csb)) xk xc idx h1 h2 h3 hpk
              hsib r2 (by omega) (by omega) (hs.sublist (interleave_keys_sublist _ _))
            refine ⟨t2, slot, q1, ?_, q3⟩
            refine ⟨interleave ks1 cs1 ++ A, B ++ interleaveTail ks2 cs2, ?_, ?_⟩
            · rw [interleave_mid ks1 ks2 cs1 cs2 _ (by omega), inorder_node, p2]
              simp
            · rw [q2, interleave_mid ks1 ks2 cs1 cs2 _ (by omega), p3]
              simp
        · simp at r1

theorem RecursiveRemove_top (lo hi : Int) (hlo : 1 ≤ lo) (hd1 : 2 * lo ≤ hi) (key : Int)
    (t : BTree) (ht : t.kMinKeys_ = lo) (f : Bool) (ridx : Nat) (h : Nat) (root : NodePtr)
    (hroot : NodeOK lo hi h root) (hfill : 0 < h → 1 ≤ root.keys.length)
    (hs : (inorder root).Pairwise (· < ·))
    (hleaf : ∃ fk fc, SearchNode root key = some (.node fk fc)
      ∧ fc.all NodePtr.isNull = true) :
    ∃ t1 slot, RecursiveRemove t f .null root ridx key = some (t1, slot)
      ∧ (∃ A B, inorder root = A ++ key :: B ∧ inorder slot = A ++ B)
      ∧ ((t1 = t ∧ NodeOK lo hi h slot ∧ slot.keys.length ≤ root.keys.length
            ∧ root.keys.length ≤ slot.keys.length + 1 ∧ (0 < h → 1 ≤ slot.keys.length))
         ∨ (∃ h1, h = h1 + 1 ∧ Subtree lo hi (h1 + 1) slot
            ∧ t1 = { t with num_nodes_ := wrap32 (t.num_nodes_ - 1),
                            height_ := wrap32 (t.height_ - 1) })) := by
  cases root with
  | null => simp [NodeOK] at hroot
  | node ks cs =>
    obtain ⟨fk, fc, hsearch, hfc⟩ := hleaf
    rw [SearchNode_node] at hsearch
    rw [RecursiveRemove_node]
    by_cases hf : ks[scanKeys ks key]? = some key
    · rw [if_pos hf] at hsearch
      simp only [Option.some.injEq, NodePtr.node.injEq] at hsearch
      rw [← hsearch.2] at hfc
      have h0 := NodeOK_of_all_null lo hi h ks cs hroot hfc
      subst h0
      obtain ⟨ksa, ksb, csn, e1, e2, e3, e4, e5⟩ := remove_found lo hi ks cs key hroot hf
      rw [if_pos hf, e2]
      simp only [BalanceIfNeeded]
      refine ⟨t, _, rfl, ⟨ksa, ksb, by rw [inorder_node, e4], by rw [inorder_node, e5]⟩,
        Or.inl ⟨rfl, e3, ?_, ?_, ?_⟩⟩
      · rw [e1]; simp [NodePtr.keys]
      · rw [e1]; simp [NodePtr.keys]; omega
      · intro hh; omega
    · rw [if_neg hf] at hsearch
      rw [if_neg hf]
      cases h with
      | zero =>
        rw [NodeOK_zero_all lo hi ks cs hroot] at hsearch
        simp at hsearch
      | succ h =>
        rw [NodeOK_succ_all lo hi h ks cs hroot] at hsearch
        simp only [Bool.false_eq_true, if_false] at hsearch
        obtain ⟨ksa, ksb, csa, c, csb, e1, e2, e3, e4, e5, _⟩ :=
          node_at_scan ks cs key hroot.1
        subst e1 e2
        rw [SearchNodeAt_mid csa csb c _ key (by omega)] at hsearch
        rw [RecursiveRemoveAt_mid t _ _ csa csb c _ _ key (by omega)]
        rw [inorder_node] at hs
        have hpk : 1 ≤ (ksa ++ ksb).length := hfill (by omega)
        obtain ⟨t1, slot, p1, p2, p3⟩ := RecursiveRemove_child lo hi hlo hd1 key h t true
          ksa ksb csa csb c (scanKeys (ksa ++ ksb) key) ht e3 (by omega) e5 hpk
          (fun x hx => hroot.2 x (by
            simp only [List.mem_append, List.mem_cons] at hx ⊢
            tauto))
          (hroot.2 c (by simp)) hs ⟨fk, fc, hsearch, hfc⟩
        simp only [NodePtr.isNull]
        rw [p1]
        simp only [BalanceIfNeeded]
        refine ⟨t1, slot, rfl, ?_, ?_⟩
        · rw [inorder_node]
          exact p2
        · rcases p3 with ⟨r1, r2, r3, r4, r5⟩ | ⟨r1, r2, r3, r4⟩
          · exact Or.inl ⟨r1, r2, r4, r3, fun _ => r5 rfl⟩
          · exact Or.inr ⟨h, rfl, r3, r4⟩

/-! ## FindAndReplace -/

theorem ReplaceNode_node (ks : List Int) (cs : List NodePtr) (a b : Int) :
    ReplaceNode (.node ks cs) a b
      = if ks[scanKeys ks a]? = some a then some (.node (ks.set (scanKeys ks a) b) cs)
        else if cs.all NodePtr.isNull then none
        else
          match ReplaceNodeAt cs (scanKeys ks a) a b with
          | none => none
          | some children1 => some (.node ks children1) := by
  rw [ReplaceNode] <;> rfl

theorem ReplaceNode_spec (lo hi : Int) (key new : Int) (h : Nat) :
    ∀ root, NodeOK lo hi h root → (∃ n, SearchNode root key = some n ∧ n ≠ .null) →
      ∃ root1, ReplaceNode root key new = some root1 ∧ NodeOK lo hi h root1
        ∧ root1.keys.length = root.keys.length
        ∧ ∃ A B, inorder root = A ++ key :: B ∧ inorder root1 = A ++ new :: B := by
  induction h with
  | zero =>
    intro root hroot hfound
    cases root with
    | null => simp [NodeOK] at hroot
    | node ks cs =>
      obtain ⟨n, hsearch, hn⟩ := hfound
      rw [SearchNode_node, NodeOK_zero_all lo hi ks cs hroot] at hsearch
      rw [ReplaceNode_node]
      by_cases hf : ks[scanKeys ks key]? = some key
      · rw [if_pos hf]
        obtain ⟨ksa, ksb, csa, c, csb, e1, e2, e3, e4, e5, e6, _⟩ :=
          node_at_scan ks cs key hroot.1
        rw [e6] at hf
        cases ksb with
        | nil => simp at hf
        | cons k ksb =>
          simp only [List.head?_cons, Option.some.injEq] at hf
          subst hf e1 e2
          rw [← e3, set_mid ksa ksb k new _ rfl]
          refine ⟨_, rfl, ⟨by have := hroot.1; simp at this ⊢; omega, hroot.2⟩,
            by simp [NodePtr.keys], interleave ksa csa ++ inorder c, interleave ksb csb, ?_, ?_⟩
          · rw [inorder_node, interleave_mid ksa _ csa csb c e4, interleaveTail_cons]
            simp
          · rw [inorder_node, interleave_mid ksa _ csa csb c e4, interleaveTail_cons]
            simp
      · rw [if_neg hf] at hsearch
        simp only [if_true, Option.some.injEq] at hsearch
        exact absurd hsearch.symm hn
  | succ h ih =>
    intro root hroot hfound
    cases root with
    | null => simp [NodeOK] at hroot
    | node ks cs =>
      obtain ⟨n, hsearch, hn⟩ := hfound
      rw [SearchNode_node, NodeOK_succ_all lo hi h ks cs hroot] at hsearch
      rw [ReplaceNode_node, NodeOK_succ_all lo hi h ks cs hroot]
      obtain ⟨ksa, ksb, csa, c, csb, e1, e2, e3, e4, e5, e6, _⟩ :=
        node_at_scan ks cs key hroot.1
      by_cases hf : ks[scanKeys ks key]? = some key
      · rw [if_pos hf]
        rw [e6] at hf
        cases ksb with
        | nil => simp at hf
        | cons k ksb =>
          simp only [List.head?_cons, Option.some.injEq] at hf
          subst hf e1 e2
          rw [← e3, set_mid ksa ksb k new _ rfl]
          refine ⟨_, rfl, ⟨by have := hroot.1; simp at this ⊢; omega, hroot.2⟩,
            by simp [NodePtr.keys], interleave ksa csa ++ inorder c, interleave ksb csb, ?_, ?_⟩
          · rw [inorder_node, interleave_mid ksa _ csa csb c e4, interleaveTail_cons]
            simp
          · rw [inorder_node, interleave_mid ksa _ csa csb c e4, interleaveTail_cons]
            simp
      · rw [if_neg hf] at hsearch
        rw [if_neg hf]
        simp only [Bool.false_eq_true, if_false] at hsearch ⊢
        subst e1 e2
        rw [SearchNodeAt_mid csa csb c _ key (by omega)] at hsearch
        rw [ReplaceNodeAt_mid csa csb c _ key new (by omega)]
        have hc : Subtree lo hi (h + 1) c := hroot.2 c (by simp)
        obtain ⟨hcok, hclo, hchi⟩ := (Subtree_succ_iff lo hi h c).1 hc
        obtain ⟨c1, q1, q2, q3, A, B, q4, q5⟩ := ih c hcok ⟨n, hsearch, hn⟩
        rw [q1]
        simp only [Option.map_some']
        refine ⟨_, rfl, ⟨by have := hroot.1; simp at this ⊢; omega, ?_⟩, by simp [NodePtr.keys],
          interleave ksa csa ++ A, B ++ interleaveTail ksb csb, ?_, ?_⟩
        · intro x hx
          simp only [List.mem_append, List.mem_cons] at hx
          rcases hx with hx | rfl | hx
          · exact hroot.2 x (by simp [hx])
          · rw [Subtree_succ_iff, q3]
            exact ⟨q2, hclo, hchi⟩
          · exact hroot.2 x (by simp [hx])
        · rw [inorder_node, interleave_mid ksa _ csa csb c e4, q4]
          simp
        · rw [inorder_node, interleave_mid ksa _ csa csb _ e4, q5]
          simp

/-! ## InOrderSuccessor -/

/-- On a sorted node the search for a key of the traversal of a child goes to that child. -/
theorem search_descend (ksa ksb : List Int) (csa csb : List NodePtr) (c : NodePtr) (x : Int)
    (h : csa.length = ksa.length)
    (hs : (interleave (ksa ++ ksb) (csa ++ c :: csb)).Pairwise (· < ·))
    (hnn : (csa ++ c :: csb).all NodePtr.isNull = false) (hx : x ∈ inorder c) :
    SearchNode (.node (ksa ++ ksb) (csa ++ c :: csb)) x = SearchNode c x := by
  rw [interleave_mid ksa ksb csa csb c h, List.pairwise_append, List.pairwise_append] at hs
  obtain ⟨_, ⟨_, hT, hcT⟩, hP⟩ := hs
  have h1 : ∀ k ∈ ksa, k < x := by
    intro k hk
    exact hP k (mem_interleave_key ksa csa k hk) x (by simp [hx])
  have h2 : ∀ k, ksb.head? = some k → x < k := by
    intro k hk
    cases ksb with
    | nil => simp at hk
    | cons k0 ksb =>
      simp only [List.head?_cons, Option.some.injEq] at hk
      subst hk
      exact hcT x hx k0 (by simp [interleaveTail_cons])
  have hscan : scanKeys (ksa ++ ksb) x = ksa.length :=
    scanKeys_append ksa ksb x h1 (fun k hk => le_of_lt (h2 k hk))
  have hget : (ksa ++ ksb)[ksa.length]? ≠ some x := by
    rw [List.getElem?_append_right (le_refl _)]
    intro hh
    have : ksb.head? = some x := by
      cases ksb with
      | nil => simp at hh
      | cons k0 ksb => simpa using hh
    exact absurd (h2 x this) (lt_irrefl _)
  rw [SearchNode_node, hscan, if_neg hget, hnn]
  simp only [Bool.false_eq_true, if_false]
  exact SearchNodeAt_mid csa csb c _ x (by omega)

theorem descendFront_node (ks : List Int) (cs : List NodePtr) :
    descendFront (.node ks cs)
      = if cs.all NodePtr.isNull then some (.node ks cs)
        else
          match cs with
          | [] => none
          | c :: _ => descendFront c := by
  rw [descendFront.eq_def] <;> rfl

theorem descendFront_spec (lo hi : Int) (hlo : 1 ≤ lo) (n : Nat) :
    ∀ c, Subtree lo hi (n + 1) c → (inorder c).Pairwise (· < ·) →
      ∃ leafk leafc s rest, descendFront c = some (.node leafk leafc) ∧ leafk.head? = some s
        ∧ inorder c = s :: rest ∧ SearchNode c s = some (.node leafk leafc)
        ∧ leafc.all NodePtr.isNull = true := by
  induction n with
  | zero =>
    intro c hc hs
    cases c with
    | null => simp [Subtree] at hc
    | node ks cs =>
      obtain ⟨hok, hclo, _⟩ := (Subtree_succ_iff lo hi 0 _).1 hc
      simp only [NodePtr.keys] at hclo
      have hall := NodeOK_zero_all lo hi ks cs hok
      cases ks with
      | nil => simp at hclo; omega
      | cons s ks =>
        refine ⟨s :: ks, cs, s, ks, ?_, rfl, ?_, ?_, hall⟩
        · rw [descendFront_node, hall]
          rfl
        · rw [inorder_node, interleave_nulls _ cs (NodeOK_zero_nulls lo hi _ cs hok)]
        · rw [SearchNode_node]
          have : scanKeys (s :: ks) s = 0 := by simp [scanKeys]
          rw [this]
          simp
  | succ n ih =>
    intro c hc hs
    cases c with
    | null => simp [Subtree] at hc
    | node ks cs =>
      obtain ⟨hok, hclo, _⟩ := (Subtree_succ_iff lo hi (n + 1) _).1 hc
      have hall := NodeOK_succ_all lo hi n ks cs hok
      cases cs with
      | nil => simp at hall
      | cons c0 cs =>
        have hc0 : Subtree lo hi (n + 1) c0 := hok.2 c0 (by simp)
        rw [inorder_node] at hs
        have hs0 : (inorder c0).Pairwise (· < ·) := by
          rw [interleave_cons, List.pairwise_append] at hs
          exact hs.1
        obtain ⟨leafk, leafc, s, rest, q1, q2, q3, q4, q5⟩ := ih c0 hc0 hs0
        refine ⟨leafk, leafc, s, rest ++ interleaveTail ks cs, ?_, q2, ?_, ?_, q5⟩
        · rw [descendFront_node, hall]
          simpa using q1
        · rw [inorder_node, interleave_cons, q3]
          simp
        · have := search_descend [] ks [] cs c0 s rfl (by simpa using hs) (by simpa using hall)
            (by rw [q3]; simp)
          simp only [List.nil_append] at this
          rw [this, q4]

theorem successor_spec (lo hi : Int) (hlo : 1 ≤ lo) (key : Int) (h : Nat) :
    ∀ root, NodeOK lo hi h root → (inorder root).Pairwise (· < ·) →
      ∀ fk fc, SearchNode root key = some (.node fk fc) → fc.all NodePtr.isNull = false →
      ∃ itr leafk leafc s, fc[scanKeys fk key + 1]? = some itr
        ∧ descendFront itr = some (.node leafk leafc) ∧ leafk.head? = some s
        ∧ (∃ A B, inorder root = A ++ key :: s :: B)
        ∧ SearchNode root s = some (.node leafk leafc)
        ∧ leafc.all NodePtr.isNull = true := by
  induction h with
  | zero =>
    intro root hroot hs fk fc hsearch hfc
    cases root with
    | null => simp [NodeOK] at hroot
    | node ks cs =>
      rw [SearchNode_node, NodeOK_zero_all lo hi ks cs hroot] at hsearch
      split at hsearch
      · simp only [Option.some.injEq, NodePtr.node.injEq] at hsearch
        rw [← hsearch.2, NodeOK_zero_all lo hi ks cs hroot] at hfc
        simp at hfc
      · simp at hsearch
  | succ h ih =>
    intro root hroot hs fk fc hsearch hfc
    cases root with
    | null => simp [NodeOK] at hroot
    | node ks cs =>
      have hall := NodeOK_succ_all lo hi h ks cs hroot
      rw [SearchNode_node, hall] at hsearch
      rw [inorder_node] at hs
      obtain ⟨ksa, ksb, csa, c, csb, e1, e2, e3, e4, e5, e6, e7, e8⟩ :=
        node_at_scan_sorted ks cs key hroot.1 hs
      by_cases hf : ks[scanKeys ks key]? = some key
      · rw [if_pos hf] at hsearch
        simp only [Option.some.injEq, NodePtr.node.injEq] at hsearch
        obtain ⟨rfl, rfl⟩ := hsearch
        rw [e6] at hf
        cases ksb with
        | nil => simp at hf
        | cons k ksb =>
          simp only [List.head?_cons, Option.some.injEq] at hf
          subst hf
          cases csb with
          | nil => simp at e5
          | cons c1 csb =>
            subst e1 e2
            have hc1 : Subtree lo hi (h + 1) c1 := hroot.2 c1 (by simp)
            have hin : interleave (ksa ++ k :: ksb) (csa ++ c :: c1 :: csb)
                = interleave ksa csa ++ (inorder c ++ k :: (inorder c1 ++ interleaveTail ksb csb)) :=
              interleave_ins ksa ksb csa csb c c1 k e4
            have hs1 : (inorder c1).Pairwise (· < ·) := by
              rw [hin, List.pairwise_append, List.pairwise_append, List.pairwise_cons,
                List.pairwise_append] at hs
              exact hs.2.1.2.1.2.1
            obtain ⟨leafk, leafc, s, rest, q1, q2, q3, q4, q5⟩ :=
              descendFront_spec lo hi hlo h c1 hc1 hs1
            refine ⟨c1, leafk, leafc, s, ?_, q1, q2, ?_, ?_, q5⟩
            · rw [← e3]
              exact getElem?_mid_succ csa csb c c1 _ e4
            · refine ⟨interleave ksa csa ++ inorder c, rest ++ interleaveTail ksb csb, ?_⟩
              rw [inorder_node, hin, q3]
              simp
            · have ek : ksa ++ k :: ksb = (ksa ++ [k]) ++ ksb := by simp
              have ec : csa ++ c :: c1 :: csb = (csa ++ [c]) ++ c1 :: csb := by simp
              have := search_descend (ksa ++ [k]) ksb (csa ++ [c]) csb c1 s (by simp [e4])
                (by rw [← ek, ← ec]; exact hs) (by rw [← ec]; exact hall) (by rw [q3]; simp)
              rw [ek, ec, this, q4]
      · rw [if_neg hf] at hsearch
        simp only [Bool.false_eq_true, if_false] at hsearch
        subst e1 e2
        rw [SearchNodeAt_mid csa csb c _ key (by omega)] at hsearch
        have hc : Subtree lo hi (h + 1) c := hroot.2 c (by simp)
        have hin := interleave_mid ksa ksb csa csb c e4
        have hsc : (inorder c).Pairwise (· < ·) := by
          rw [hin, List.pairwise_append, List.pairwise_append] at hs
          exact hs.2.1.1
        obtain ⟨itr, leafk, leafc, s, q1, q2, q3, ⟨A, B, q4⟩, q5, q6⟩ :=
          ih c ((Subtree_succ_iff lo hi h c).1 hc).1 hsc fk fc hsearch hfc
        refine ⟨itr, leafk, leafc, s, q1, q2, q3, ?_, ?_, q6⟩
        · refine ⟨interleave ksa csa ++ A, B ++ interleaveTail ksb csb, ?_⟩
          rw [inorder_node, hin, q4]
          simp
        · rw [search_descend ksa ksb csa csb c s e4 hs hall (by rw [q4]; simp), q5]

/-! ## The invariant of the tree -/

theorem degree_bounds (d : Int) (hd : 3 ≤ d) :
    1 ≤ (Int.tdiv d 2 + Int.tmod d 2) - 1
      ∧ 2 * ((Int.tdiv d 2 + Int.tmod d 2) - 1) ≤ d - 1
      ∧ d - 1 ≤ 2 * ((Int.tdiv d 2 + Int.tmod d 2) - 1) + 1 := by
  rw [Int.tdiv_eq_ediv (by omega) (by omega), Int.tmod_eq_emod (by omega) (by omega)]
  omega

theorem inv_bounds (d : Int) (t : BTree) (hinv : TreeInv d t) :
    1 ≤ t.kMinKeys_ ∧ 2 * t.kMinKeys_ ≤ t.kMaxKeys_ ∧ t.kMaxKeys_ ≤ 2 * t.kMinKeys_ + 1 := by
  obtain ⟨hd, _, c2, c3, _⟩ := hinv
  rw [c2, c3]
  exact degree_bounds d hd

theorem pairwise_insert_mid {A B : List Int} {key : Int} (h : (A ++ B).Pairwise (· < ·))
    (hA : ∀ a ∈ A, a < key) (hB : ∀ b ∈ B, key < b) : (A ++ key :: B).Pairwise (· < ·) := by
  rw [List.pairwise_append] at h ⊢
  refine ⟨h.1, List.pairwise_cons.2 ⟨hB, h.2.1⟩, ?_⟩
  intro a ha b hb
  rcases List.mem_cons.1 hb with rfl | hb
  · exact hA a ha
  · exact h.2.2 a ha b hb

theorem pairwise_remove_mid {A B : List Int} {key : Int}
    (h : (A ++ key :: B).Pairwise (· < ·)) : (A ++ B).Pairwise (· < ·) :=
  h.sublist (List.Sublist.append (List.Sublist.refl A) (List.sublist_cons_self key B))

theorem mem_remove_mid {A B : List Int} {key : Int} (hn : (A ++ key :: B).Nodup) (x : Int) :
    x ∈ A ++ B ↔ x ≠ key ∧ x ∈ A ++ key :: B := by
  have h1 : key ∉ A := by
    intro hk
    have := (List.nodup_append.1 hn).2.2
    exact this hk (by simp)
  have h2 : key ∉ B := by
    have := (List.nodup_append.1 hn).2.1
    exact (List.nodup_cons.1 this).1
  simp only [List.mem_append, List.mem_cons]
  constructor
  · rintro (hx | hx)
    · exact ⟨fun e => h1 (e ▸ hx), Or.inl hx⟩
    · exact ⟨fun e => h2 (e ▸ hx), Or.inr (Or.inr hx)⟩
  · rintro ⟨hne, hx | hx | hx⟩
    · exact Or.inl hx
    · exact absurd hx hne
    · exact Or.inr hx

theorem Subtree_inorder_ne_nil (lo hi : Int) (hlo : 1 ≤ lo) (n : Nat) (c : NodePtr)
    (h : Subtree lo hi (n + 1) c) : inorder c ≠ [] := by
  cases c with
  | null => simp [Subtree] at h
  | node ks cs =>
    obtain ⟨_, h2, _⟩ := h
    cases ks with
    | nil => simp at h2; omega
    | cons k ks =>
      intro he
      have := mem_interleave_key (k :: ks) cs k (by simp)
      rw [inorder_node] at he
      rw [he] at this
      simp at this

/-- A root that is not a leaf stores at least two keys. -/
theorem internal_two_keys (lo hi : Int) (hlo : 1 ≤ lo) (h : Nat) (root : NodePtr)
    (hroot : NodeOK lo hi (h + 1) root) (hk : 1 ≤ root.keys.length) :
    2 ≤ (inorder root).length := by
  cases root with
  | null => simp [NodeOK] at hroot
  | node ks cs =>
    simp only [NodePtr.keys] at hk
    obtain ⟨h1, h2⟩ := hroot
    cases ks with
    | nil => simp at hk
    | cons k ks =>
      cases cs with
      | nil => simp at h1
      | cons c cs =>
        have := Subtree_inorder_ne_nil lo hi hlo h c (h2 c (by simp))
        have hl : 1 ≤ (inorder c).length := by
          cases hc : inorder c with
          | nil => exact absurd hc this
          | cons _ _ => simp
        rw [inorder_node]
        simp only [interleave, List.length_append, List.length_cons]
        omega

theorem Empty_iff (t : BTree) : t.Empty = true ↔ t.num_keys_ = 0 := by
  simp [BTree.Empty]

theorem Construct_inv (d : Int) (hd : 3 ≤ d) :
    ∃ t, Construct d = .ok t ∧ TreeInv d t ∧ t.root_ = .null ∧ t.num_nodes_ = 0
      ∧ t.num_keys_ = 0 ∧ t.height_ = 0 := by
  refine ⟨_, by simp only [Construct]; rw [if_neg (by omega)], ?_, rfl, rfl, rfl, rfl⟩
  exact ⟨hd, rfl, rfl, rfl, Or.inl ⟨rfl, rfl, rfl⟩⟩

/-- A subtree with `n` levels stores at least `n` keys. -/
theorem Subtree_levels_le (lo hi : Int) (hlo : 1 ≤ lo) (n : Nat) :
    ∀ c, Subtree lo hi n c → n ≤ (inorder c).length := by
  induction n with
  | zero => intro c _; exact Nat.zero_le _
  | succ n ih =>
    intro c hc
    cases c with
    | null => simp [Subtree] at hc
    | node ks cs =>
      obtain ⟨h1, h2, _, h4⟩ := hc
      match ks, cs, h1, h2 with
      | [], _, _, h2 => simp at h2; omega
      | k :: ks, [], h1, _ => simp at h1
      | k :: ks, c0 :: cs, _, _ =>
        have := ih c0 (h4 c0 (by simp))
        rw [inorder_node]
        simp only [interleave, List.length_append, List.length_cons]
        omega

/-- A root of height `h` stores at least `h` keys. -/
theorem NodeOK_levels_le (lo hi : Int) (hlo : 1 ≤ lo) (h : Nat) (root : NodePtr)
    (hroot : NodeOK lo hi h root) (hk : 0 < h → 1 ≤ root.keys.length) :
    h ≤ (inorder root).length := by
  cases h with
  | zero => exact Nat.zero_le _
  | succ h =>
    cases root with
    | null => simp [NodeOK] at hroot
    | node ks cs =>
      have hk1 := hk (by omega)
      simp only [NodePtr.keys] at hk1
      obtain ⟨h1, h2⟩ := hroot
      match ks, cs, h1, hk1 with
      | [], _, _, hk1 => simp at hk1
      | k :: ks, [], h1, _ => simp at h1
      | k :: ks, c0 :: cs, _, _ =>
        have := Subtree_levels_le lo hi hlo (h + 1) c0 (h2 c0 (by simp))
        rw [inorder_node]
        simp only [interleave, List.length_append, List.length_cons]
        omega

theorem Empty_false_iff (t : BTree) : t.Empty = false ↔ t.num_keys_ ≠ 0 := by
  simp [BTree.Empty]

theorem struct_bounds (d : Int) (t : BTree) (hinv : StructInv d t) :
    1 ≤ t.kMinKeys_ ∧ 2 * t.kMinKeys_ ≤ t.kMaxKeys_ ∧ t.kMaxKeys_ ≤ 2 * t.kMinKeys_ + 1 := by
  obtain ⟨hd, _, c2, c3, _⟩ := hinv
  rw [c2, c3]
  exact degree_bounds d hd

theorem TreeInv_struct (d : Int) (t : BTree) (hinv : TreeInv d t) : StructInv d t := by
  obtain ⟨hd, c1, c2, c3, hcase⟩ := hinv
  refine ⟨hd, c1, c2, c3, ?_⟩
  rcases hcase with ⟨hr, hk, _⟩ | ⟨h, _, hok, hfill, hint, hs, _, _⟩
  · exact Or.inl ⟨hr, hk⟩
  · exact Or.inr ⟨h, hok, hfill, hint, hs⟩

theorem Construct_struct (d : Int) (hd : 3 ≤ d) :
    ∃ t, Construct d = .ok t ∧ StructInv d t := by
  obtain ⟨t, q1, q2, _⟩ := Construct_inv d hd
  exact ⟨t, q1, TreeInv_struct d t q2⟩

/-- Method `Insert` on a tree whose root is present and that `Empty()` does not report empty,
whatever the counters hold. -/
theorem Insert_nonempty (t : BTree) (key : Int) (h : Nat)
    (hlo : 1 ≤ t.kMinKeys_) (hd1 : 2 * t.kMinKeys_ ≤ t.kMaxKeys_)
    (hd2 : t.kMaxKeys_ ≤ 2 * t.kMinKeys_ + 1) (he : t.Empty = false)
    (hok : NodeOK t.kMinKeys_ t.kMaxKeys_ h t.root_)
    (hfill : (t.root_.keys.length : Int) ≤ t.kMaxKeys_)
    (hint : 0 < h → 1 ≤ t.root_.keys.length) (hs : (inorder t.root_).Pairwise (· < ·)) :
    ∃ t1, t.Insert key = some t1
      ∧ (t1.kMaxDegree_ = t.kMaxDegree_ ∧ t1.kMaxKeys_ = t.kMaxKeys_
          ∧ t1.kMinKeys_ = t.kMinKeys_)
      ∧ t1.num_keys_ = wrap32 (t.num_keys_ + 1)
      ∧ (∃ h1 : Nat, NodeOK t.kMinKeys_ t.kMaxKeys_ h1 t1.root_
          ∧ (t1.root_.keys.length : Int) ≤ t.kMaxKeys_ ∧ (0 < h1 → 1 ≤ t1.root_.keys.length)
          ∧ (inorder t1.root_).Pairwise (· < ·)
          ∧ ((h1 = h ∧ t1.height_ = t.height_)
            ∨ (h1 = h + 1 ∧ t1.height_ = wrap32 (t.height_ + 1))))
      ∧ (∀ x, x ∈ inorder t1.root_ ↔ x = key ∨ x ∈ inorder t.root_)
      ∧ (∃ k : Nat, t1.num_nodes_ = incr32 k t.num_nodes_
          ∧ (k : Int) + countNodes t.root_ = countNodes t1.root_)
      ∧ (key ∈ inorder t.root_ → t1.root_ = t.root_ ∧ t1.num_nodes_ = t.num_nodes_
          ∧ t1.height_ = t.height_)
      ∧ (key ∉ inorder t.root_ →
          (inorder t1.root_).length = (inorder t.root_).length + 1) := by
  obtain ⟨r, hr, ⟨k, hk1, hcnt⟩, hdup, hnew⟩ := RecursiveInsert_spec t.kMinKeys_ t.kMaxKeys_
    hlo hd1 hd2 key h t.root_ t.num_nodes_ hok hfill hs
  simp only [BTree.Insert, he, Bool.false_eq_true, if_false, hr]
  by_cases hkey : key ∈ inorder t.root_
  · obtain ⟨q1, q2⟩ := hdup hkey
    rw [q1, q2] at hcnt
    simp only [countNodes_null] at hcnt
    have hk0 : k = 0 := by push_cast at hcnt; omega
    subst hk0
    have hnn : r.num_nodes_ = t.num_nodes_ := hk1
    rw [q2]
    simp only [NodePtr.isNull, if_true]
    rw [q1, hnn]
    refine ⟨_, rfl, ⟨rfl, rfl, rfl⟩, rfl, ⟨h, hok, hfill, hint, hs, Or.inl ⟨rfl, rfl⟩⟩, ?_,
      ⟨0, rfl, by simp⟩, ?_, ?_⟩
    · intro x
      simp only
      constructor
      · exact fun hx => Or.inr hx
      · rintro (rfl | hx)
        · exact hkey
        · exact hx
    · intro _
      exact ⟨rfl, rfl, rfl⟩
    · intro hn
      exact absurd hkey hn
  · obtain ⟨A, B, hAB, hA, hB, hc⟩ := hnew hkey
    have hs2 := hs
    rw [hAB] at hs2
    have hsorted : (A ++ key :: B).Pairwise (· < ·) := pairwise_insert_mid hs2 hA hB
    have hmem : ∀ x, x ∈ A ++ key :: B ↔ x = key ∨ x ∈ inorder t.root_ := by
      intro x
      rw [hAB]
      simp only [List.mem_append, List.mem_cons]
      constructor
      · rintro (hx | hx | hx)
        · exact Or.inr (Or.inl hx)
        · exact Or.inl hx
        · exact Or.inr (Or.inr hx)
      · rintro (hx | hx | hx)
        · exact Or.inr (Or.inl hx)
        · exact Or.inl hx
        · exact Or.inr (Or.inr hx)
    have hlen2 : (A ++ key :: B).length = (inorder t.root_).length + 1 := by
      rw [hAB]
      simp
      omega
    rcases hc with ⟨q1, q2, q3, q4, q5⟩ | ⟨q1, q2, q3⟩
    · rw [q1] at hcnt ⊢
      simp only [countNodes_null] at hcnt
      simp only [NodePtr.isNull, if_true]
      refine ⟨_, rfl, ⟨rfl, rfl, rfl⟩, rfl, ⟨h, q2, q3, ?_, ?_, Or.inl ⟨rfl, rfl⟩⟩, ?_,
        ⟨k, hk1, ?_⟩, ?_, ?_⟩
      · intro h0
        have := hint h0
        simp only
        omega
      · simp only
        rw [q5]
        exact hsorted
      · intro x
        simp only
        rw [q5]
        exact hmem x
      · simp only
        push_cast at hcnt
        omega
      · intro hn
        exact absurd hn hkey
      · intro _
        simp only
        rw [q5, hlen2]
    · obtain ⟨sk, sc, hsec⟩ := Subtree_ne_null _ _ h r.second q2
      have hnn : r.second.isNull = false := by rw [hsec]; rfl
      rw [hnn]
      simp only [Bool.false_eq_true, if_false]
      have hin : inorder (NodePtr.node [r.first] [r.root, r.second]) = A ++ key :: B := by
        rw [← q3, inorder_node]
        simp [interleave]
      refine ⟨_, rfl, ⟨rfl, rfl, rfl⟩, rfl, ⟨h + 1, ?_, ?_, ?_, ?_, Or.inr ⟨rfl, rfl⟩⟩, ?_,
        ⟨k + 1, ?_, ?_⟩, ?_, ?_⟩
      · refine ⟨rfl, ?_⟩
        intro c hc
        simp only [List.mem_cons, List.mem_singleton, List.not_mem_nil, or_false] at hc
        rcases hc with rfl | rfl
        · exact q1
        · exact q2
      · simp only [NodePtr.keys, List.length_singleton]
        push_cast
        omega
      · intro _
        simp [NodePtr.keys]
      · simp only
        rw [hin]
        exact hsorted
      · intro x
        simp only
        rw [hin]
        exact hmem x
      · simp only
        rw [incr32_succ, hk1]
      · simp only [countNodes_node, countNodesList_cons, countNodesList]
        push_cast at hcnt ⊢
        omega
      · intro hn
        exact absurd hn hkey
      · intro _
        simp only
        rw [hin, hlen2]

theorem ofKey_struct (lo hi : Int) (hhi : 1 ≤ hi) (key : Int) :
    NodeOK lo hi 0 (Node.ofKey key) ∧ ((Node.ofKey key).keys.length : Int) ≤ hi
      ∧ (inorder (Node.ofKey key)).Pairwise (· < ·) ∧ inorder (Node.ofKey key) = [key] := by
  refine ⟨⟨rfl, ?_⟩, ?_, ?_, ?_⟩
  · intro c hc
    simp only [List.mem_cons, List.mem_singleton, List.not_mem_nil, or_false, or_self] at hc
    subst hc
    simp [Subtree]
  · simp [Node.ofKey, NodePtr.keys]; omega
  · simp [Node.ofKey, inorder, interleave]
  · simp [Node.ofKey, inorder, interleave]

/-- Method `Insert` keeps the structure of the tree, whatever the counters hold: when `Empty()`
holds the root is replaced by a leaf with the key; otherwise the key is added to the keys
stored. -/
theorem Insert_struct (d : Int) (t : BTree) (key : Int) (hinv : StructInv d t) :
    ∃ t1, t.Insert key = some t1 ∧ StructInv d t1
      ∧ t1.num_keys_ = wrap32 (t.num_keys_ + 1) ∧ t1.root_.isNull = false
      ∧ ((t.Empty = true
            ∧ t1 = { t with root_ := Node.ofKey key
                            num_nodes_ := wrap32 (t.num_nodes_ + 1)
                            num_keys_ := wrap32 (t.num_keys_ + 1) })
        ∨ (t.Empty = false
            ∧ (∀ x, x ∈ inorder t1.root_ ↔ x = key ∨ x ∈ inorder t.root_)
            ∧ (key ∈ inorder t.root_ → t1.root_ = t.root_ ∧ t1.num_nodes_ = t.num_nodes_
                ∧ t1.height_ = t.height_)
            ∧ (key ∉ inorder t.root_ →
                (inorder t1.root_).length = (inorder t.root_).length + 1))) := by
  obtain ⟨hlo, hd1, hd2⟩ := struct_bounds d t hinv
  obtain ⟨hd, c1, c2, c3, hcase⟩ := hinv
  by_cases he : t.Empty = true
  · simp only [BTree.Insert, he, if_true]
    obtain ⟨o1, o2, o3, _⟩ := ofKey_struct t.kMinKeys_ t.kMaxKeys_ (by omega) key
    refine ⟨_, rfl, ⟨hd, c1, c2, c3, Or.inr ⟨0, o1, o2, fun h0 => absurd h0 (by omega), o3⟩⟩,
      rfl, rfl, Or.inl ⟨trivial, rfl⟩⟩
  · have he2 : t.Empty = false := by simpa using he
    have hk : t.num_keys_ ≠ 0 := (Empty_false_iff t).1 he2
    rcases hcase with ⟨_, hk0⟩ | ⟨h, hok, hfill, hint, hs⟩
    · exact absurd hk0 hk
    · obtain ⟨t1, q1, ⟨e1, e2, e3⟩, q3, ⟨h1, p1, p2, p3, p4, _⟩, q5, _, q7, q8⟩ :=
        Insert_nonempty t key h hlo hd1 hd2 he2 hok hfill hint hs
      refine ⟨t1, q1, ⟨hd, by rw [e1, c1], by rw [e2, c2], by rw [e3, c3],
        Or.inr ⟨h1, by rw [e2, e3]; exact p1, by rw [e2]; exact p2, p3, p4⟩⟩, q3, ?_,
        Or.inr ⟨he2, q5, q7, q8⟩⟩
      cases hr : t1.root_ with
      | null => rw [hr] at p1; simp [NodeOK] at p1
      | node _ _ => rfl

/-- Method `Insert` keeps the invariant and adds the key, as long as the key counter has room
for one more. -/
theorem Insert_spec (d : Int) (t : BTree) (key : Int) (hinv : TreeInv d t)
    (hroom : t.num_keys_ < 2147483647) :
    ∃ t1, t.Insert key = some t1 ∧ TreeInv d t1
      ∧ (∀ x, x ∈ inorder t1.root_ ↔ x = key ∨ x ∈ inorder t.root_)
      ∧ t1.num_keys_ = t.num_keys_ + 1
      ∧ (∃ k : Nat, t1.num_nodes_ = incr32 k t.num_nodes_
          ∧ (k : Int) + countNodes t.root_ = countNodes t1.root_)
      ∧ (key ∈ inorder t.root_ → t1.root_ = t.root_ ∧ t1.num_nodes_ = t.num_nodes_
          ∧ t1.height_ = t.height_)
      ∧ (key ∉ inorder t.root_ → (inorder t1.root_).length = (inorder t.root_).length + 1) := by
  obtain ⟨hlo, hd1, hd2⟩ := inv_bounds d t hinv
  obtain ⟨hd, c1, c2, c3, hcase⟩ := hinv
  rcases hcase with ⟨hr, hk, hh⟩ | ⟨h, hh, hok, hfill, hint, hs, hlen, hk⟩
  · have he : t.Empty = true := (Empty_iff t).2 hk
    simp only [BTree.Insert, he, if_true]
    obtain ⟨o1, o2, o3, o4⟩ := ofKey_struct t.kMinKeys_ t.kMaxKeys_ (by omega) key
    have hw : wrap32 (t.num_keys_ + 1) = 1 := by
      rw [hk]
      exact wrap32_of_range _ (by omega) (by omega)
    refine ⟨_, rfl, ⟨hd, c1, c2, c3, Or.inr ⟨0, hh, o1, o2, fun h0 => absurd h0 (by omega), o3,
      ?_, ?_⟩⟩, ?_, ?_, ⟨1, rfl, ?_⟩, ?_, ?_⟩
    · simp only
      rw [o4, hw]
      simp
    · simp only
      rw [hw]
    · intro x
      simp only
      rw [o4, hr]
      simp [inorder]
    · simp only
      rw [hw, hk]
      rfl
    · simp [Node.ofKey, hr, countNodes, countNodesList]
    · intro hkey
      rw [hr] at hkey
      simp [inorder] at hkey
    · intro _
      simp only
      rw [o4, hr]
      simp [inorder]
  · have he : t.Empty = false := (Empty_false_iff t).2 (by omega)
    obtain ⟨t1, q1, ⟨e1, e2, e3⟩, q3, ⟨h1, p1, p2, p3, p4, p5⟩, q5, q6, q7, q8⟩ :=
      Insert_nonempty t key h hlo hd1 hd2 he hok hfill hint hs
    have hw : t1.num_keys_ = t.num_keys_ + 1 := by
      rw [q3]
      exact wrap32_of_range _ (by omega) (by omega)
    have hlev := NodeOK_levels_le t.kMinKeys_ t.kMaxKeys_ hlo h t.root_ hok hint
    have hh1 : t1.height_ = (h1 : Int) := by
      rcases p5 with ⟨a1, a2⟩ | ⟨a1, a2⟩
      · rw [a2, hh, a1]
      · rw [a2, hh, a1]
        push_cast
        exact wrap32_of_range _ (by omega) (by omega)
    have hlen1 : ((inorder t1.root_).length : Int) ≤ t1.num_keys_ := by
      rw [hw]
      by_cases hkey : key ∈ inorder t.root_
      · rw [(q7 hkey).1]
        omega
      · rw [q8 hkey]
        push_cast
        omega
    refine ⟨t1, q1, ⟨hd, by rw [e1, c1], by rw [e2, c2], by rw [e3, c3],
      Or.inr ⟨h1, hh1, by rw [e2, e3]; exact p1, by rw [e2]; exact p2, p3, p4, hlen1,
        by omega⟩⟩, q5, hw, q6, q7, q8⟩

/-- The outermost call of `RecursiveRemove` on a root whose children are proper subtrees,
for a key that the search meets in a leaf: the root keeps its level and the counters, or it
had one key, the returned node is one level lower and `num_nodes_` and `height_` are
lowered by one. -/
theorem RecursiveRemove_root (lo hi : Int) (hlo : 1 ≤ lo) (hd1 : 2 * lo ≤ hi) (key : Int)
    (t : BTree) (ht : t.kMinKeys_ = lo) (h : Nat)
    (hroot : NodeOK lo hi h t.root_) (hhi : (t.root_.keys.length : Int) ≤ hi)
    (hfill : 0 < h → 1 ≤ t.root_.keys.length)
    (hs : (inorder t.root_).Pairwise (· < ·))
    (hleaf : ∃ fk fc, SearchNode t.root_ key = some (.node fk fc)
      ∧ fc.all NodePtr.isNull = true) :
    ∃ t1 slot, RecursiveRemove t false .null t.root_ 0 key = some (t1, slot)
      ∧ (∃ A B, inorder t.root_ = A ++ key :: B ∧ inorder slot = A ++ B)
      ∧ t1.kMaxDegree_ = t.kMaxDegree_ ∧ t1.kMaxKeys_ = t.kMaxKeys_
      ∧ t1.kMinKeys_ = t.kMinKeys_ ∧ t1.num_keys_ = t.num_keys_
      ∧ ∃ h1 : Nat, NodeOK lo hi h1 slot ∧ (slot.keys.length : Int) ≤ hi
          ∧ (0 < h1 → 1 ≤ slot.keys.length)
          ∧ ((h1 = h ∧ t1.height_ = t.height_ ∧ t1.num_nodes_ = t.num_nodes_)
            ∨ (h = h1 + 1 ∧ t1.height_ = wrap32 (t.height_ - 1)
                ∧ t1.num_nodes_ = wrap32 (t.num_nodes_ - 1))) := by
  obtain ⟨t1, slot, q1, q2, q3⟩ := RecursiveRemove_top lo hi hlo hd1 key t ht false 0 h
    t.root_ hroot hfill hs hleaf
  refine ⟨t1, slot, q1, q2, ?_⟩
  rcases q3 with ⟨r1, r2, r3, r4, r5⟩ | ⟨h1, r1, r2, r3⟩
  · subst r1
    exact ⟨rfl, rfl, rfl, rfl, h, r2, by omega, r5, Or.inl ⟨rfl, rfl, rfl⟩⟩
  · subst r3
    obtain ⟨s1, s2, s3⟩ := (Subtree_succ_iff lo hi h1 slot).1 r2
    refine ⟨rfl, rfl, rfl, rfl, h1, s1, s3, ?_, Or.inr ⟨r1, rfl, rfl⟩⟩
    intro _
    omega

/-- Method `Remove` on a tree whose root is present and that `Empty()` does not report empty,
whatever the counters hold: an absent key changes nothing; when `NumKeys()` is 1 the root is
deleted; otherwise the key is taken out of the keys stored. -/
theorem Remove_nonempty (t : BTree) (key : Int) (h : Nat)
    (hlo : 1 ≤ t.kMinKeys_) (hd1 : 2 * t.kMinKeys_ ≤ t.kMaxKeys_) (he : t.Empty = false)
    (hok : NodeOK t.kMinKeys_ t.kMaxKeys_ h t.root_)
    (hfill : (t.root_.keys.length : Int) ≤ t.kMaxKeys_)
    (hint : 0 < h → 1 ≤ t.root_.keys.length) (hs : (inorder t.root_).Pairwise (· < ·)) :
    ∃ t1, t.Remove key = some t1
      ∧ ((key ∉ inorder t.root_ ∧ t1 = t)
        ∨ (key ∈ inorder t.root_ ∧ t.num_keys_ = 1
            ∧ t1 = { t with root_ := .null
                            num_nodes_ := wrap32 (t.num_nodes_ - 1)
                            num_keys_ := wrap32 (t.num_keys_ - 1) })
        ∨ (key ∈ inorder t.root_ ∧ t.num_keys_ ≠ 1
            ∧ (t1.kMaxDegree_ = t.kMaxDegree_ ∧ t1.kMaxKeys_ = t.kMaxKeys_
                ∧ t1.kMinKeys_ = t.kMinKeys_)
            ∧ t1.num_keys_ = wrap32 (t.num_keys_ - 1)
            ∧ (∀ x, x ∈ inorder t1.root_ ↔ x ≠ key ∧ x ∈ inorder t.root_)
            ∧ (inorder t1.root_).length + 1 = (inorder t.root_).length
            ∧ ∃ h1 : Nat, NodeOK t.kMinKeys_ t.kMaxKeys_ h1 t1.root_
                ∧ (t1.root_.keys.length : Int) ≤ t.kMaxKeys_
                ∧ (0 < h1 → 1 ≤ t1.root_.keys.length)
                ∧ (inorder t1.root_).Pairwise (· < ·)
                ∧ ((h1 = h ∧ t1.height_ = t.height_ ∧ t1.num_nodes_ = t.num_nodes_)
                  ∨ (h = h1 + 1 ∧ t1.height_ = wrap32 (t.height_ - 1)
                      ∧ t1.num_nodes_ = wrap32 (t.num_nodes_ - 1))))) := by
  have hk0 : t.num_keys_ ≠ 0 := (Empty_false_iff t).1 he
  obtain ⟨n, hsearch⟩ := search_total t.kMinKeys_ t.kMaxKeys_ key h t.root_ hok
  have hfind : t.Find key = some n := by
    simp only [BTree.Find, he, Bool.false_eq_true, if_false]
    exact hsearch
  have hnodup := pairwise_lt_nodup hs
  cases n with
  | null =>
    have hnot : key ∉ inorder t.root_ := by
      intro hkey
      obtain ⟨n1, q1, q2⟩ := search_complete t.kMinKeys_ t.kMaxKeys_ key h t.root_ hok hs hkey
      rw [hsearch] at q1
      simp only [Option.some.injEq] at q1
      exact q2 q1.symm
    simp only [BTree.Remove, hfind]
    exact ⟨t, rfl, Or.inl ⟨hnot, rfl⟩⟩
  | node fk fc =>
    have hkey : key ∈ inorder t.root_ :=
      (search_sound t.root_ key _ hsearch (by simp)).2
    simp only [BTree.Remove, hfind, BTree.NumKeys]
    by_cases h1 : t.num_keys_ = 1
    · rw [if_pos h1]
      exact ⟨_, rfl, Or.inr (Or.inl ⟨hkey, h1, rfl⟩)⟩
    · rw [if_neg h1]
      by_cases hleaf : fc.all NodePtr.isNull = true
      · -- the key is in a leaf
        rw [if_pos hleaf]
        obtain ⟨t1, slot, q1, ⟨A, B, q2, q3⟩, e1, e2, e3, e4, h2, q5, q6, q7, q8⟩ :=
          RecursiveRemove_root t.kMinKeys_ t.kMaxKeys_ hlo hd1 key t rfl h hok hfill hint
            hs ⟨fk, fc, hsearch, hleaf⟩
        rw [q1]
        simp only
        rw [q2] at hs hnodup
        refine ⟨_, rfl, Or.inr (Or.inr ⟨hkey, h1, ⟨e1, e2, e3⟩, ?_, ?_, ?_,
          h2, q5, q6, q7, ?_, q8⟩)⟩
        · simp only; rw [e4]
        · intro x
          simp only
          rw [q3, q2]
          exact mem_remove_mid hnodup x
        · simp only
          rw [q3, q2]
          simp only [List.length_append, List.length_cons]
          omega
        · simp only; rw [q3]; exact pairwise_remove_mid hs
      · -- the key is in an internal node
        rw [if_neg hleaf]
        have hleaf2 : fc.all NodePtr.isNull = false := by
          cases hh2 : fc.all NodePtr.isNull with
          | false => rfl
          | true => exact absurd hh2 hleaf
        obtain ⟨itr, leafk, leafc, s, p1, p2, p3, ⟨A, B, p4⟩, p5, p6⟩ :=
          successor_spec t.kMinKeys_ t.kMaxKeys_ hlo key h t.root_ hok hs fk fc hsearch hleaf2
        have hsucc : t.InOrderSuccessor key = some s := by
          simp only [BTree.InOrderSuccessor, hfind, p1, p2, p3]
        rw [hsucc]
        simp only
        obtain ⟨t1, slot, q1, ⟨A1, B1, q2, q3⟩, e1, e2, e3, e4, h2, q5, q6, q7, q8⟩ :=
          RecursiveRemove_root t.kMinKeys_ t.kMaxKeys_ hlo hd1 s t rfl h hok hfill hint
            hs ⟨leafk, leafc, p5, p6⟩
        rw [q1]
        simp only
        rw [p4] at hs hnodup
        have hA1 : A1 = A ++ [key] ∧ B1 = B := by
          have e : A1 ++ s :: B1 = (A ++ [key]) ++ s :: B := by
            rw [← q2, p4]
            simp
          exact nodup_mid_unique (by rw [e]; simpa using hnodup) e
        obtain ⟨rfl, rfl⟩ := hA1
        have hslot : inorder slot = A ++ key :: B1 := by rw [q3]; simp
        have hs_slot : (inorder slot).Pairwise (· < ·) := by
          rw [hslot]
          exact hs.sublist (List.Sublist.append (List.Sublist.refl A)
            ((List.sublist_cons_self s B1).cons₂ key))
        obtain ⟨n2, r1, r2⟩ := search_complete t.kMinKeys_ t.kMaxKeys_ key h2 slot q5 hs_slot
          (by rw [hslot]; simp)
        obtain ⟨root2, u1, u2, u3, C, D, u4, u5⟩ := ReplaceNode_spec t.kMinKeys_ t.kMaxKeys_
          key s h2 slot q5 ⟨n2, r1, r2⟩
        have hCD : C = A ∧ D = B1 := by
          have e : C ++ key :: D = A ++ key :: B1 := by rw [← u4, hslot]
          exact nodup_mid_unique (by rw [e, ← hslot]; exact pairwise_lt_nodup hs_slot) e
        obtain ⟨rfl, rfl⟩ := hCD
        have hne : BTree.Empty { t1 with root_ := slot } = false := by
          rw [Empty_false_iff]
          simp only
          rw [e4]
          exact hk0
        simp only [BTree.FindAndReplace, hne, Bool.false_eq_true, if_false, u1]
        have hs_fin : (C ++ s :: D).Pairwise (· < ·) :=
          hs.sublist (List.Sublist.append (List.Sublist.refl C) (List.sublist_cons_self key _))
        refine ⟨_, rfl, Or.inr (Or.inr ⟨hkey, h1, ⟨e1, e2, e3⟩, ?_, ?_, ?_,
          h2, u2, ?_, ?_, ?_, q8⟩)⟩
        · simp only; rw [e4]
        · intro x
          simp only
          rw [u5, p4]
          have hn1 : key ∉ C := by
            intro hk1
            exact (List.nodup_append.1 hnodup).2.2 hk1 (by simp)
          have hn2 : key ≠ s ∧ key ∉ D := by
            have := (List.nodup_cons.1 (List.nodup_append.1 hnodup).2.1).1
            simp only [List.mem_cons, not_or] at this
            exact this
          simp only [List.mem_append, List.mem_cons]
          constructor
          · rintro (hx | hx | hx)
            · exact ⟨fun e => hn1 (e ▸ hx), Or.inl hx⟩
            · exact ⟨fun e => hn2.1 (by rw [← e, hx]), Or.inr (Or.inr (Or.inl hx))⟩
            · exact ⟨fun e => hn2.2 (e ▸ hx), Or.inr (Or.inr (Or.inr hx))⟩
          · rintro ⟨hne2, hx | hx | hx | hx⟩
            · exact Or.inl hx
            · exact absurd hx hne2
            · exact Or.inr (Or.inl hx)
            · exact Or.inr (Or.inr hx)
        · simp only
          rw [u5, p4]
          simp only [List.length_append, List.length_cons]
          omega
        · simp only; rw [u3]; exact q6
        · simp only; rw [u3]; exact q7
        · simp only; rw [u5]; exact hs_fin

/-- Method `Remove` returns and keeps the structure of the tree, whatever the counters hold; it
changes nothing when `Empty()` holds. -/
theorem Remove_struct (d : Int) (t : BTree) (key : Int) (hinv : StructInv d t) :
    ∃ t1, t.Remove key = some t1 ∧ StructInv d t1 ∧ (t.Empty = true → t1 = t)
      ∧ (key ∉ inorder t.root_ → t1 = t) := by
  obtain ⟨hlo, hd1, hd2⟩ := struct_bounds d t hinv
  have hinv0 := hinv
  obtain ⟨hd, c1, c2, c3, hcase⟩ := hinv
  by_cases he : t.Empty = true
  · have hfind : t.Find key = some .null := by simp only [BTree.Find, he, if_true]
    simp only [BTree.Remove, hfind]
    exact ⟨t, rfl, hinv0, fun _ => rfl, fun _ => rfl⟩
  · have he2 : t.Empty = false := by simpa using he
    have hk : t.num_keys_ ≠ 0 := (Empty_false_iff t).1 he2
    rcases hcase with ⟨_, hk0⟩ | ⟨h, hok, hfill, hint, hs⟩
    · exact absurd hk0 hk
    · obtain ⟨t1, q1, hc⟩ := Remove_nonempty t key h hlo hd1 he2 hok hfill hint hs
      refine ⟨t1, q1, ?_, fun hE => absurd hE he, ?_⟩
      rotate_left
      · intro hk2
        rcases hc with ⟨_, e⟩ | ⟨hm, _⟩ | ⟨hm, _⟩
        · exact e
        · exact absurd hm hk2
        · exact absurd hm hk2
      rcases hc with ⟨_, e⟩ | ⟨_, h1, e⟩ | ⟨_, _, ⟨e1, e2, e3⟩, _, _, _, h1, p1, p2, p3, p4, _⟩
      · rw [e]
        exact hinv0
      · rw [e]
        refine ⟨hd, c1, c2, c3, Or.inl ⟨rfl, ?_⟩⟩
        simp only
        rw [h1]
        exact wrap32_zero
      · exact ⟨hd, by rw [e1, c1], by rw [e2, c2], by rw [e3, c3],
          Or.inr ⟨h1, by rw [e2, e3]; exact p1, by rw [e2]; exact p2, p3, p4⟩⟩

/-- Method `Remove` keeps the invariant and takes the key out, on a tree whose key counter has
not overflowed. -/
theorem Remove_spec (d : Int) (t : BTree) (key : Int) (hinv : TreeInv d t)
    (hrange : t.num_keys_ < 2147483648) :
    ∃ t1, t.Remove key = some t1 ∧ TreeInv d t1
      ∧ (∀ x, x ∈ inorder t1.root_ ↔ x ≠ key ∧ x ∈ inorder t.root_)
      ∧ (key ∉ inorder t.root_ → t1 = t)
      ∧ (key ∈ inorder t.root_ → t1.num_keys_ = t.num_keys_ - 1
          ∧ (inorder t1.root_).length + 1 = (inorder t.root_).length) := by
  obtain ⟨hlo, hd1, hd2⟩ := inv_bounds d t hinv
  have hinv0 := hinv
  obtain ⟨hd, c1, c2, c3, hcase⟩ := hinv
  rcases hcase with ⟨hr, hk, hh⟩ | ⟨h, hh, hok, hfill, hint, hs, hlen, hk⟩
  · have he : t.Empty = true := (Empty_iff t).2 hk
    have hfind : t.Find key = some .null := by simp only [BTree.Find, he, if_true]
    simp only [BTree.Remove, hfind]
    refine ⟨t, rfl, ⟨hd, c1, c2, c3, Or.inl ⟨hr, hk, hh⟩⟩, ?_, fun _ => rfl, ?_⟩
    · intro x
      rw [hr]
      simp [inorder]
    · intro hkey
      rw [hr] at hkey
      simp [inorder] at hkey
  · have he : t.Empty = false := (Empty_false_iff t).2 (by omega)
    obtain ⟨t1, q1, hc⟩ := Remove_nonempty t key h hlo hd1 he hok hfill hint hs
    refine ⟨t1, q1, ?_⟩
    rcases hc with ⟨hnot, e⟩ | ⟨hkey, h1, e⟩
        | ⟨hkey, h1, ⟨e1, e2, e3⟩, e4, m1, m2, h2, p1, p2, p3, p4, p5⟩
    · subst e
      refine ⟨hinv0, ?_, fun _ => rfl, fun hkey => absurd hkey hnot⟩
      intro x
      constructor
      · intro hx
        exact ⟨fun e => hnot (e ▸ hx), hx⟩
      · exact fun hx => hx.2
    · have hlen1 : (inorder t.root_).length = 1 := by
        have : 1 ≤ (inorder t.root_).length := by
          cases hin : inorder t.root_ with
          | nil => rw [hin] at hkey; simp at hkey
          | cons _ _ => simp
        omega
      have h0 : h = 0 := by
        cases h with
        | zero => rfl
        | succ h =>
          have := internal_two_keys t.kMinKeys_ t.kMaxKeys_ hlo h t.root_ hok (hint (by omega))
          omega
      have hone : inorder t.root_ = [key] := by
        match hin : inorder t.root_, hlen1 with
        | [a], _ =>
          rw [hin] at hkey
          simp only [List.mem_singleton] at hkey
          rw [hkey]
      have hw : wrap32 (t.num_keys_ - 1) = 0 := by
        rw [h1]
        exact wrap32_zero
      subst e
      refine ⟨⟨hd, c1, c2, c3, Or.inl ⟨rfl, hw, ?_⟩⟩, ?_, ?_, ?_⟩
      · simp only; rw [hh, h0]; rfl
      · intro x
        simp only
        rw [hone]
        simp only [inorder, List.mem_singleton, List.not_mem_nil, false_iff, not_and,
          Decidable.not_not]
        exact fun hx => hx
      · intro hn
        exact absurd hkey hn
      · intro _
        simp only
        rw [hone, hw, h1]
        simp [inorder]
    · have hw : t1.num_keys_ = t.num_keys_ - 1 := by
        rw [e4]
        exact wrap32_of_range _ (by omega) (by omega)
      have hlev := NodeOK_levels_le t.kMinKeys_ t.kMaxKeys_ hlo h t.root_ hok hint
      have hh1 : t1.height_ = (h2 : Int) := by
        rcases p5 with ⟨a1, a2, _⟩ | ⟨a1, a2, _⟩
        · rw [a2, hh, a1]
        · rw [a2, hh, a1]
          push_cast
          rw [wrap32_of_range _ (by omega) (by omega)]
          omega
      refine ⟨⟨hd, by rw [e1, c1], by rw [e2, c2], by rw [e3, c3],
        Or.inr ⟨h2, hh1, by rw [e2, e3]; exact p1, by rw [e2]; exact p2, p3, p4, ?_, ?_⟩⟩,
        m1, fun hn => absurd hkey hn, fun _ => ⟨hw, m2⟩⟩
      · rw [hw]
        omega
      · rw [hw]
        omega

/-! ## Sequences of calls -/

theorem insertCalls_append (ops1 ops2 : List Op) :
    insertCalls (ops1 ++ ops2) = insertCalls ops1 + insertCalls ops2 := by
  induction ops1 with
  | nil => simp [insertCalls]
  | cons op ops1 ih =>
    cases op with
    | Insert k =>
      show insertCalls (Op.Insert k :: (ops1 ++ ops2)) = _
      simp only [insertCalls, ih]
      omega
    | Remove k =>
      show insertCalls (Op.Remove k :: (ops1 ++ ops2)) = _
      simp only [insertCalls, ih]

theorem insertCalls_le_length (ops : List Op) : insertCalls ops ≤ ops.length := by
  induction ops with
  | nil => simp [insertCalls]
  | cons op ops ih =>
    cases op <;> simp only [insertCalls, List.length_cons] <;> omega

theorem insertCalls_map_Insert (ins : List Int) :
    insertCalls (ins.map Op.Insert) = ins.length := by
  induction ins with
  | nil => simp [insertCalls]
  | cons k ins ih => simp only [List.map_cons, insertCalls, ih, List.length_cons]

theorem insertCalls_map_Remove (rem : List Int) :
    insertCalls (rem.map Op.Remove) = 0 := by
  induction rem with
  | nil => simp [insertCalls]
  | cons k rem ih => simp only [List.map_cons, insertCalls, ih]

/-- One call keeps the structure of the tree, whatever the counters hold. -/
theorem step_struct (d : Int) (t : BTree) (op : Op) (hinv : StructInv d t) :
    ∃ t1, t.step op = some t1 ∧ StructInv d t1 := by
  cases op with
  | Insert key =>
    obtain ⟨t1, q1, q2, _⟩ := Insert_struct d t key hinv
    exact ⟨t1, q1, q2⟩
  | Remove key =>
    obtain ⟨t1, q1, q2, _⟩ := Remove_struct d t key hinv
    exact ⟨t1, q1, q2⟩

theorem run_struct (d : Int) (ops : List Op) :
    ∀ (t : BTree), StructInv d t → ∃ t1, t.run ops = some t1 ∧ StructInv d t1 := by
  induction ops with
  | nil =>
    intro t hinv
    exact ⟨t, rfl, hinv⟩
  | cons op ops ih =>
    intro t hinv
    obtain ⟨t1, q1, q2⟩ := step_struct d t op hinv
    obtain ⟨t2, r1, r2⟩ := ih t1 q2
    refine ⟨t2, ?_, r2⟩
    simp only [BTree.run, q1]
    exact r1

/-- Every sequence of calls on a fresh tree returns, and the tree keeps its structure. -/
theorem runFresh_struct (d : Int) (hd : 3 ≤ d) (ops : List Op) :
    ∃ t, runFresh d ops = some t ∧ StructInv d t := by
  obtain ⟨t0, q1, q2⟩ := Construct_struct d hd
  obtain ⟨t, r1, r2⟩ := run_struct d ops t0 q2
  refine ⟨t, ?_, r2⟩
  simp only [runFresh, q1]
  exact r1

/-- One call keeps the invariant and acts on the set of keys, as long as the key counter
has room for the call. -/
theorem step_inv (d : Int) (t : BTree) (op : Op) (s : Finset Int) (hinv : TreeInv d t)
    (hs : ∀ x, x ∈ inorder t.root_ ↔ x ∈ s)
    (hb : t.num_keys_ + insertCalls [op] < 2147483648) :
    ∃ t1, t.step op = some t1 ∧ TreeInv d t1
      ∧ (∀ x, x ∈ inorder t1.root_ ↔ x ∈ op.apply s)
      ∧ t1.num_keys_ ≤ t.num_keys_ + insertCalls [op] := by
  cases op with
  | Insert key =>
    simp only [insertCalls] at hb ⊢
    obtain ⟨t1, q1, q2, q3, q4, _⟩ := Insert_spec d t key hinv (by omega)
    refine ⟨t1, q1, q2, ?_, by omega⟩
    intro x
    rw [q3 x, hs x]
    simp [Op.apply]
  | Remove key =>
    simp only [insertCalls] at hb ⊢
    obtain ⟨t1, q1, q2, q3, q4, q5⟩ := Remove_spec d t key hinv (by omega)
    refine ⟨t1, q1, q2, ?_, ?_⟩
    · intro x
      rw [q3 x, hs x]
      simp [Op.apply]
    · by_cases hk : key ∈ inorder t.root_
      · have := (q5 hk).1
        omega
      · rw [q4 hk]
        omega

theorem run_inv (d : Int) (ops : List Op) :
    ∀ (t : BTree) (s : Finset Int), TreeInv d t → (∀ x, x ∈ inorder t.root_ ↔ x ∈ s) →
      t.num_keys_ + insertCalls ops < 2147483648 →
      ∃ t1, t.run ops = some t1 ∧ TreeInv d t1
        ∧ (∀ x, x ∈ inorder t1.root_ ↔ x ∈ replayFrom s ops)
        ∧ t1.num_keys_ ≤ t.num_keys_ + insertCalls ops := by
  induction ops with
  | nil =>
    intro t s hinv hs _
    exact ⟨t, rfl, hinv, hs, by simp [insertCalls]⟩
  | cons op ops ih =>
    intro t s hinv hs hb
    have hsplit : insertCalls (op :: ops) = insertCalls [op] + insertCalls ops :=
      insertCalls_append [op] ops
    rw [hsplit] at hb ⊢
    push_cast at hb ⊢
    obtain ⟨t1, q1, q2, q3, q4⟩ := step_inv d t op s hinv hs (by omega)
    obtain ⟨t2, r1, r2, r3, r4⟩ := ih t1 (op.apply s) q2 q3 (by omega)
    refine ⟨t2, ?_, r2, r3, by omega⟩
    simp only [BTree.run, q1]
    exact r1

/-- A sequence with fewer than `2^31` calls of `Insert` on a fresh tree returns, the tree
satisfies the invariant and stores the keys of the replayed set. -/
theorem runFresh_inv (d : Int) (hd : 3 ≤ d) (ops : List Op)
    (hops : insertCalls ops < 2 ^ 31) :
    ∃ t, runFresh d ops = some t ∧ TreeInv d t
      ∧ (∀ x, x ∈ inorder t.root_ ↔ x ∈ replay ops)
      ∧ t.num_keys_ ≤ insertCalls ops := by
  obtain ⟨t0, q1, q2, q3, _, q5, _⟩ := Construct_inv d hd
  obtain ⟨t, r1, r2, r3, r4⟩ := run_inv d ops t0 ∅ q2 (by
    intro x
    rw [q3]
    simp [inorder]) (by rw [q5]; omega)
  refine ⟨t, ?_, r2, r3, by omega⟩
  simp only [runFresh, q1]
  exact r1

theorem run_append (ops1 ops2 : List Op) :
    ∀ t : BTree, t.run (ops1 ++ ops2) = (t.run ops1).bind (fun t1 => t1.run ops2) := by
  induction ops1 with
  | nil => intro t; rfl
  | cons op ops1 ih =>
    intro t
    show BTree.run t (op :: (ops1 ++ ops2)) = _
    simp only [BTree.run]
    cases t.step op with
    | none => rfl
    | some t1 => exact ih t1

/-! ## What the invariant says about searches -/

/-- Method `Find` returns on every tree with the structure of a B-tree; when it returns a node,
`Empty()` does not hold, the node is the one the search from the root ends in, and it holds
the key. -/
theorem Find_struct (d : Int) (t : BTree) (k : Int) (hinv : StructInv d t) :
    ∃ n, t.Find k = some n
      ∧ (n ≠ .null → t.Empty = false ∧ SearchNode t.root_ k = some n ∧ k ∈ n.keys
          ∧ k ∈ inorder t.root_) := by
  obtain ⟨hd, c1, c2, c3, hcase⟩ := hinv
  by_cases he : t.Empty = true
  · refine ⟨.null, ?_, fun hn => absurd rfl hn⟩
    simp only [BTree.Find, he, if_true]
  · have he2 : t.Empty = false := by simpa using he
    have hk : t.num_keys_ ≠ 0 := (Empty_false_iff t).1 he2
    rcases hcase with ⟨_, hk0⟩ | ⟨h, hok, _, _, _⟩
    · exact absurd hk0 hk
    · obtain ⟨n, hsearch⟩ := search_total t.kMinKeys_ t.kMaxKeys_ k h t.root_ hok
      refine ⟨n, ?_, ?_⟩
      · simp only [BTree.Find, he2, Bool.false_eq_true, if_false]
        exact hsearch
      · intro hn
        obtain ⟨⟨ks, cs, e, hget⟩, hmem⟩ := search_sound t.root_ k n hsearch hn
        refine ⟨he2, hsearch, ?_, hmem⟩
        rw [e]
        exact List.getElem?_mem hget

/-! ## Properties of every node -/

theorem AllNodesList_iff (P : List Int → List NodePtr → Prop) (cs : List NodePtr) :
    AllNodesList P cs ↔ ∀ c ∈ cs, AllNodes P c := by
  induction cs with
  | nil => simp [AllNodesList]
  | cons c cs ih => simp [AllNodesList, ih]

theorem AllNodes_node (P : List Int → List NodePtr → Prop) (ks : List Int)
    (cs : List NodePtr) :
    AllNodes P (.node ks cs) ↔ P ks cs ∧ ∀ c ∈ cs, AllNodes P c := by
  simp only [AllNodes, AllNodesList_iff]

theorem AllNodes_null (P : List Int → List NodePtr → Prop) : AllNodes P .null := by
  simp only [AllNodes]

theorem interleave_child_sorted (cs : List NodePtr) :
    ∀ ks : List Int, (interleave ks cs).Pairwise (· < ·) →
      ∀ c ∈ cs, (inorder c).Pairwise (· < ·) := by
  induction cs with
  | nil => intro ks _ c hc; simp at hc
  | cons c0 cs ih =>
    intro ks hs c hc
    rw [interleave_cons, List.pairwise_append] at hs
    rcases List.mem_cons.1 hc with rfl | hc
    · exact hs.1
    · cases ks with
      | nil => exact ih [] hs.2.1 c hc
      | cons k ks =>
        rw [interleaveTail_cons] at hs
        exact ih ks (List.Pairwise.of_cons hs.2.1) c hc

theorem interleave_local (cs : List NodePtr) :
    ∀ ks : List Int, (interleave ks cs).Pairwise (· < ·) → LocalOrder ks cs := by
  induction cs with
  | nil =>
    intro ks _ i k _
    simp
  | cons c0 cs ih =>
    intro ks hs i k hk
    cases ks with
    | nil => simp at hk
    | cons k0 ks =>
      rw [interleave_cons, interleaveTail_cons, List.pairwise_append, List.pairwise_cons] at hs
      obtain ⟨_, ⟨h2, h3⟩, h4⟩ := hs
      cases i with
      | zero =>
        simp only [List.getElem?_cons_zero, Option.some.injEq] at hk
        subst hk
        constructor
        · intro c hc x hx
          simp only [List.getElem?_cons_zero, Option.some.injEq] at hc
          subst hc
          exact h4 x hx k0 (by simp)
        · intro c hc x hx
          simp only [zero_add, List.getElem?_cons_succ] at hc
          exact h2 x (mem_interleave_child ks cs c x (List.getElem?_mem hc) hx)
      | succ i =>
        simp only [List.getElem?_cons_succ] at hk
        obtain ⟨q1, q2⟩ := ih ks h3 i k hk
        constructor
        · intro c hc x hx
          simp only [List.getElem?_cons_succ] at hc
          exact q1 c hc x hx
        · intro c hc x hx
          simp only [List.getElem?_cons_succ] at hc
          exact q2 c hc x hx

/-- A sorted traversal gives the ordering of every node. -/
theorem sorted_all_local (p : NodePtr) :
    (inorder p).Pairwise (· < ·) → AllNodes LocalOrder p := by
  induction p using NodePtr.induct with
  | hnull => intro _; exact AllNodes_null _
  | hnode ks cs ih =>
    intro hs
    rw [inorder_node] at hs
    rw [AllNodes_node]
    exact ⟨interleave_local cs ks hs, fun c hc => ih c hc (interleave_child_sorted cs ks hs c hc)⟩

theorem Subtree_all_fill (lo hi : Int) (n : Nat) :
    ∀ c, Subtree lo hi n c → AllNodes (NodeFill lo hi) c := by
  induction n with
  | zero =>
    intro c hc
    rw [(Subtree_zero_iff lo hi c).1 hc]
    exact AllNodes_null _
  | succ n ih =>
    intro c hc
    cases c with
    | null => simp [Subtree] at hc
    | node ks cs =>
      obtain ⟨_, h2, h3, h4⟩ := hc
      rw [AllNodes_node]
      exact ⟨⟨h2, h3⟩, fun x hx => ih x (h4 x hx)⟩

theorem leafDepths_node (dpt : Nat) (ks : List Int) (cs : List NodePtr) :
    leafDepths dpt (.node ks cs)
      = if cs.all NodePtr.isNull then [dpt] else leafDepthsList dpt cs := by
  simp only [leafDepths]

theorem run_inserts_exact (d : Int) (ins : List Int) :
    ∀ (t : BTree), TreeInv d t → t.num_keys_ = (inorder t.root_).length →
      t.num_keys_ + ins.length < 2147483648 →
      ins.Nodup → (∀ x ∈ ins, x ∉ inorder t.root_) →
      ∃ t1, t.run (ins.map Op.Insert) = some t1 ∧ TreeInv d t1
        ∧ t1.num_keys_ = (inorder t1.root_).length
        ∧ (∀ x, x ∈ inorder t1.root_ ↔ x ∈ ins ∨ x ∈ inorder t.root_)
        ∧ (inorder t1.root_).length = (inorder t.root_).length + ins.length := by
  induction ins with
  | nil =>
    intro t hinv hex _ _ _
    exact ⟨t, rfl, hinv, hex, by simp, by simp⟩
  | cons k ins ih =>
    intro t hinv hex hb hnd hnew
    simp only [List.length_cons] at hb
    push_cast at hb
    obtain ⟨t1, q1, q2, q3, q4, _, _, q7⟩ := Insert_spec d t k hinv (by omega)
    have hk : k ∉ inorder t.root_ := hnew k (by simp)
    obtain ⟨hk2, hnd2⟩ := List.nodup_cons.1 hnd
    obtain ⟨t2, r1, r2, r3, r4, r5⟩ := ih t1 q2 (by rw [q4, q7 hk, hex]; push_cast; ring)
      (by omega) hnd2
      (by
        intro x hx
        rw [q3 x]
        intro hh
        rcases hh with rfl | hh
        · exact hk2 hx
        · exact hnew x (by simp [hx]) hh)
    refine ⟨t2, ?_, r2, r3, ?_, ?_⟩
    · simp only [List.map_cons, BTree.run, BTree.step, q1]
      exact r1
    · intro x
      rw [r4 x, q3 x]
      simp only [List.mem_cons]
      tauto
    · rw [r5, q7 hk, List.length_cons]
      omega

theorem run_removes_exact (d : Int) (rem : List Int) :
    ∀ (t : BTree), TreeInv d t → t.num_keys_ = (inorder t.root_).length →
      t.num_keys_ < 2147483648 →
      ∃ t1, t.run (rem.map Op.Remove) = some t1 ∧ TreeInv d t1
        ∧ t1.num_keys_ = (inorder t1.root_).length
        ∧ ∀ x, x ∈ inorder t1.root_ ↔ x ∉ rem ∧ x ∈ inorder t.root_ := by
  induction rem with
  | nil =>
    intro t hinv hex _
    exact ⟨t, rfl, hinv, hex, by simp⟩
  | cons k rem ih =>
    intro t hinv hex hb
    obtain ⟨t1, q1, q2, q3, q4, q5⟩ := Remove_spec d t k hinv hb
    have hex1 : t1.num_keys_ = (inorder t1.root_).length := by
      by_cases hk : k ∈ inorder t.root_
      · obtain ⟨a, b⟩ := q5 hk
        rw [a, hex, ← b]
        push_cast
        ring
      · rw [q4 hk]
        exact hex
    have hb1 : t1.num_keys_ < 2147483648 := by
      by_cases hk : k ∈ inorder t.root_
      · have := (q5 hk).1
        omega
      · rw [q4 hk]
        exact hb
    obtain ⟨t2, r1, r2, r3, r4⟩ := ih t1 q2 hex1 hb1
    refine ⟨t2, ?_, r2, r3, ?_⟩
    · simp only [List.map_cons, BTree.run, BTree.step, q1]
      exact r1
    · intro x
      rw [r4 x, q3 x]
      simp only [List.mem_cons, not_or]
      tauto

theorem inv_empty_of_no_keys (d : Int) (t : BTree) (hinv : TreeInv d t)
    (hex : t.num_keys_ = (inorder t.root_).length) (hnil : inorder t.root_ = []) :
    t.root_ = .null ∧ t.num_keys_ = 0 ∧ t.height_ = 0 := by
  obtain ⟨_, _, _, _, hcase⟩ := hinv
  rcases hcase with h | ⟨h, _, _, _, _, _, _, hk⟩
  · exact h
  · rw [hnil] at hex
    simp at hex
    omega

/-! ## Runs that overflow the key counter -/

theorem runFresh_append (d : Int) (ops1 ops2 : List Op) :
    runFresh d (ops1 ++ ops2) = (runFresh d ops1).bind (fun t => t.run ops2) := by
  simp only [runFresh]
  cases Construct d with
  | error e => rfl
  | ok t => exact run_append ops1 ops2 t

/-- Method `Remove` on a tree for which `Empty()` holds. -/
theorem Remove_of_Empty (t : BTree) (key : Int) (he : t.num_keys_ = 0) :
    t.Remove key = some t := by
  simp only [BTree.Remove, BTree.Find, BTree.Empty, BTree.NumKeys, he]
  simp

theorem run_removes_of_Empty (rem : List Op) (hrem : insertCalls rem = 0) :
    ∀ t : BTree, t.num_keys_ = 0 → t.run rem = some t := by
  induction rem with
  | nil =>
    intro t _
    rfl
  | cons op rem ih =>
    intro t he
    cases op with
    | Insert k => simp [insertCalls] at hrem
    | Remove k =>
      simp only [insertCalls] at hrem
      simp only [BTree.run, BTree.step, Remove_of_Empty t k he]
      exact ih hrem t he

/-! ## Replaying repeated inserts -/

theorem replayFrom_append (ops1 ops2 : List Op) :
    ∀ s : Finset Int, replayFrom s (ops1 ++ ops2) = replayFrom (replayFrom s ops1) ops2 := by
  induction ops1 with
  | nil =>
    intro s
    rfl
  | cons op ops1 ih =>
    intro s
    simp only [List.cons_append, replayFrom]
    exact ih _

theorem insertCalls_replicate_Insert (key : Int) (n : Nat) :
    insertCalls (List.replicate n (.Insert key)) = n := by
  induction n with
  | zero => rfl
  | succ n ih =>
    simp only [List.replicate_succ, insertCalls, ih]

/-! ## Distinct inserts through the whole range of the key counter -/

theorem wrap32_ne_zero (x : Int) (h1 : 0 < x) (h2 : x < 4294967296) : wrap32 x ≠ 0 := by
  simp only [wrap32]
  omega

/-- Inserting distinct new keys, as long as no more than `2 ^ 32` keys are stored in the
end, stores every one of them and leaves the key counter the wrapped number of keys. -/
theorem run_inserts_wrap (d : Int) (ins : List Int) :
    ∀ (t : BTree), StructInv d t → t.num_keys_ = wrap32 (inorder t.root_).length →
      (inorder t.root_).length + ins.length ≤ 4294967296 →
      ins.Nodup → (∀ x ∈ ins, x ∉ inorder t.root_) →
      ∃ t1, t.run (ins.map Op.Insert) = some t1 ∧ StructInv d t1
        ∧ t1.num_keys_ = wrap32 (inorder t1.root_).length
        ∧ (∀ x, x ∈ inorder t1.root_ ↔ x ∈ ins ∨ x ∈ inorder t.root_)
        ∧ (inorder t1.root_).length = (inorder t.root_).length + ins.length
        ∧ (ins ≠ [] → t1.root_.isNull = false) := by
  induction ins with
  | nil =>
    intro t hinv hex _ _ _
    exact ⟨t, rfl, hinv, hex, by simp, by simp, fun h => absurd rfl h⟩
  | cons k ins ih =>
    intro t hinv hex hb hnd hnew
    simp only [List.length_cons] at hb
    have hk : k ∉ inorder t.root_ := hnew k (by simp)
    obtain ⟨hk2, hnd2⟩ := List.nodup_cons.1 hnd
    obtain ⟨t1, q1, q2, q3, q4, hc⟩ := Insert_struct d t k hinv
    have hmem : ∀ x, x ∈ inorder t1.root_ ↔ x = k ∨ x ∈ inorder t.root_ := by
      rcases hc with ⟨he, e⟩ | ⟨_, hm, _⟩
      · have h0 : t.num_keys_ = 0 := (Empty_iff t).1 he
        have hlen : (inorder t.root_).length = 0 := by
          by_contra hne
          rw [hex] at h0
          exact wrap32_ne_zero _ (by omega) (by omega) h0
        have hnil : inorder t.root_ = [] := List.length_eq_zero.1 hlen
        intro x
        rw [e, hnil]
        simp only [(ofKey_struct 0 1 (by omega) k).2.2.2, List.mem_singleton,
          List.not_mem_nil, or_false]
      · exact hm
    have hlen1 : (inorder t1.root_).length = (inorder t.root_).length + 1 := by
      rcases hc with ⟨he, e⟩ | ⟨_, _, _, hl⟩
      · have h0 : t.num_keys_ = 0 := (Empty_iff t).1 he
        have hlen : (inorder t.root_).length = 0 := by
          by_contra hne
          rw [hex] at h0
          exact wrap32_ne_zero _ (by omega) (by omega) h0
        rw [e, hlen]
        simp only [(ofKey_struct 0 1 (by omega) k).2.2.2, List.length_singleton]
      · exact hl hk
    have hex1 : t1.num_keys_ = wrap32 (inorder t1.root_).length := by
      rw [q3, hex, hlen1, wrap32_wrap32_add]
      push_cast
      rfl
    obtain ⟨t2, r1, r2, r3, r4, r5, _⟩ := ih t1 q2 hex1 (by omega) hnd2
      (by
        intro x hx
        rw [hmem x]
        intro hh
        rcases hh with rfl | hh
        · exact hk2 hx
        · exact hnew x (by simp [hx]) hh)
    refine ⟨t2, ?_, r2, r3, ?_, ?_, ?_⟩
    · simp only [List.map_cons, BTree.run, BTree.step, q1]
      exact r1
    · intro x
      rw [r4 x, hmem x]
      simp only [List.mem_cons]
      tauto
    · rw [r5, hlen1, List.length_cons]
      omega
    · intro _
      cases hroot : t2.root_ with
      | null =>
        rw [hroot] at r5
        simp only [inorder, List.length_nil] at r5
        omega
      | node ks cs => rfl

/-- The tree after `2 ^ 32` distinct inserts into a fresh tree of degree 3. -/
theorem run_range_inserts (ins : List Int) (hnd : ins.Nodup)
    (hlen : ins.length = 4294967296) :
    ∃ t, runFresh 3 (ins.map Op.Insert) = some t ∧ t.num_keys_ = 0
      ∧ t.root_.isNull = false ∧ (inorder t.root_).length = 4294967296 := by
  obtain ⟨t0, q1, q2, q3, _, q5, _⟩ := Construct_inv 3 (by omega)
  have hnil : inorder t0.root_ = [] := by rw [q3]; simp [inorder]
  obtain ⟨t1, r1, _, r3, _, r5, r6⟩ := run_inserts_wrap 3 ins t0 (TreeInv_struct 3 t0 q2)
    (by rw [q5, hnil]; simp [wrap32]) (by rw [hnil, hlen]; simp) hnd
    (by intro x _; rw [hnil]; simp)
  rw [hnil, hlen] at r5
  simp only [List.length_nil, zero_add] at r5
  refine ⟨t1, by simp only [runFresh, q1]; exact r1, ?_, r6 ?_, r5⟩
  · rw [r3, r5]
    simp [wrap32]
  · intro h
    rw [h] at hlen
    simp at hlen

/-! ## The tree after `Insert 10, 20, 5` and `2 ^ 32 - 3` further calls `Insert 5` -/

theorem minKeys_eq_ceil (d : Int) (hd : 0 ≤ d) :
    (Int.tdiv d 2 + Int.tmod d 2) - 1 = ⌈(d : ℚ) / 2⌉ - 1 := by
  rw [Int.tdiv_eq_ediv hd (by omega), Int.tmod_eq_emod hd (by omega)]
  congr 1
  symm
  rw [Int.ceil_eq_iff]
  have h1 : d = 2 * (d / 2) + d % 2 := by omega
  have h2 : ((d : ℤ) : ℚ) = 2 * ((d / 2 : ℤ) : ℚ) + ((d % 2 : ℤ) : ℚ) := by
    exact_mod_cast h1
  have h3 : d % 2 = 0 ∨ d % 2 = 1 := by omega
  rcases h3 with h3 | h3
  · rw [h3] at h2 ⊢
    push_cast at h2 ⊢
    constructor <;> linarith
  · rw [h3] at h2 ⊢
    push_cast at h2 ⊢
    constructor <;> linarith

/-! ## The claims -/

/-- C2. Sortedness: after any sequence of calls on a fresh tree of degree at least 3 the
in-order traversal is strictly increasing, so has no duplicates, and in every node the keys
under `children_[i]` are below `keys_[i]`, which is below the keys under `children_[i+1]`. -/
theorem C2_sorted (d : Int) (hd : 3 ≤ d) (ops : List Op) :
    ∃ t, runFresh d ops = some t ∧ (inorder t.root_).Pairwise (· < ·)
      ∧ (inorder t.root_).Nodup ∧ AllNodes LocalOrder t.root_ := by
  obtain ⟨t, q1, q2⟩ := runFresh_struct d hd ops
  have hs : (inorder t.root_).Pairwise (· < ·) := by
    obtain ⟨_, _, _, _, hcase⟩ := q2
    rcases hcase with ⟨hr, _⟩ | ⟨h, _, _, _, hs⟩
    · rw [hr]
      simp [inorder]
    · exact hs
  exact ⟨t, q1, hs, pairwise_lt_nodup hs, sorted_all_local t.root_ hs⟩

/-- Witness of C2: degree 3, with the removal of a key held in an internal node. -/
theorem C2_sorted_witness :
    (3 : Int) ≤ 3 ∧ ∃ t, runFresh 3 [.Insert 10, .Insert 20, .Insert 5, .Remove 10] = some t
      ∧ (inorder t.root_).Pairwise (· < ·)
      ∧ (inorder t.root_).Nodup ∧ AllNodes LocalOrder t.root_ :=
  ⟨by decide, C2_sorted 3 (by decide) [.Insert 10, .Insert 20, .Insert 5, .Remove 10]⟩

/-- C3. Fill factor: after any sequence of calls on a fresh tree of degree `d` at least 3,
with `kMinKeys_ = ceil(d / 2) - 1` and `kMaxKeys_ = d - 1`, every node below the root has
between `kMinKeys_` and `kMaxKeys_` keys; the root has at most `kMaxKeys_` keys, at least one
when a key is stored, and none only when it is a single node and no key is stored. -/
theorem C3_fill_factor (d : Int) (hd : 3 ≤ d) (ops : List Op) :
    ∃ t, runFresh d ops = some t ∧ t.kMinKeys_ = ⌈(d : ℚ) / 2⌉ - 1 ∧ t.kMaxKeys_ = d - 1
      ∧ (∀ c ∈ t.root_.children, AllNodes (NodeFill t.kMinKeys_ t.kMaxKeys_) c)
      ∧ (t.root_.keys.length : Int) ≤ t.kMaxKeys_
      ∧ (inorder t.root_ ≠ [] → 1 ≤ t.root_.keys.length)
      ∧ (t.root_.keys = [] → inorder t.root_ = [] ∧ ∀ c ∈ t.root_.children, c = .null) := by
  obtain ⟨t, q1, q2⟩ := runFresh_struct d hd ops
  obtain ⟨hlo, hd1, _⟩ := struct_bounds d t q2
  obtain ⟨_, _, c2, c3, hcase⟩ := q2
  refine ⟨t, q1, by rw [c3]; exact minKeys_eq_ceil d (by omega), c2, ?_⟩
  rcases hcase with ⟨hr, _⟩ | ⟨h, hok, hfill, hint, _⟩
  · rw [hr]
    simp only [NodePtr.children, NodePtr.keys, inorder]
    refine ⟨by simp, by simp; omega, by simp, by simp⟩
  · cases hroot : t.root_ with
    | null => rw [hroot] at hok; simp [NodeOK] at hok
    | node ks cs =>
      rw [hroot] at hok hfill hint
      simp only [NodePtr.children, NodePtr.keys] at hfill hint ⊢
      cases h with
      | zero =>
        have hnull := NodeOK_zero_nulls _ _ ks cs hok
        refine ⟨?_, hfill, ?_, ?_⟩
        · intro c hc
          rw [hnull c hc]
          exact AllNodes_null _
        · intro hne
          rw [inorder_node, interleave_nulls ks cs hnull] at hne
          cases ks with
          | nil => exact absurd rfl hne
          | cons _ _ => simp
        · intro hk
          rw [inorder_node, interleave_nulls ks cs hnull]
          exact ⟨hk, hnull⟩
      | succ h =>
        have hk := hint (by omega)
        refine ⟨?_, hfill, fun _ => hk, ?_⟩
        · intro c hc
          exact Subtree_all_fill _ _ (h + 1) c (hok.2 c hc)
        · intro he
          rw [he] at hk
          simp at hk

/-- Witness of C3: degree 4 and a sequence with a split, a rotation and merges. -/
theorem C3_fill_factor_witness :
    (3 : Int) ≤ 4 ∧ ∃ t, runFresh 4
        [.Insert 1, .Insert 2, .Insert 3, .Insert 4, .Insert 5, .Remove 1, .Remove 2] = some t
      ∧ t.kMinKeys_ = ⌈((4 : Int) : ℚ) / 2⌉ - 1 ∧ t.kMaxKeys_ = 4 - 1
      ∧ (∀ c ∈ t.root_.children, AllNodes (NodeFill t.kMinKeys_ t.kMaxKeys_) c)
      ∧ (t.root_.keys.length : Int) ≤ t.kMaxKeys_
      ∧ (inorder t.root_ ≠ [] → 1 ≤ t.root_.keys.length)
      ∧ (t.root_.keys = [] → inorder t.root_ = [] ∧ ∀ c ∈ t.root_.children, c = .null) :=
  ⟨by decide, C3_fill_factor 4 (by decide)
    [.Insert 1, .Insert 2, .Insert 3, .Insert 4, .Insert 5, .Remove 1, .Remove 2]⟩

/-- C5. The code at the failing input: degree 3, `Insert 10, 20, 5`, `Remove 10` leaves the
keys `[5, 20]` with `NumKeys() = 2`; a further `Insert 5` leaves the same keys and
`NumKeys() = 3`, so the counter is not the number of keys stored. -/
theorem C5_duplicate_insert_is_counted :
    (runFresh 3 [.Insert 10, .Insert 20, .Insert 5, .Remove 10]).map
        (fun t => (inorder t.root_, t.NumKeys)) = some ([5, 20], 2)
      ∧ (runFresh 3 [.Insert 10, .Insert 20, .Insert 5, .Remove 10, .Insert 5]).map
        (fun t => (inorder t.root_, t.NumKeys)) = some ([5, 20], 3) := by
  decide!

/-- C8. The code at the failing input: degree 3, `Insert 10, 20, 5`, `Remove 10` leaves one
node, holding `[5, 20]`, and `NumNodes() = 2`; removing 5 and 20 as well leaves no node and
`NumNodes() = 1`. -/
theorem C8_merge_leaves_node_count :
    (runFresh 3 [.Insert 10, .Insert 20, .Insert 5, .Remove 10]).map
        (fun t => (inorder t.root_, countNodes t.root_, t.NumNodes)) = some ([5, 20], 1, 2)
      ∧ (runFresh 3 [.Insert 10, .Insert 20, .Insert 5, .Remove 10, .Remove 5,
          .Remove 20]).map
        (fun t => (inorder t.root_, countNodes t.root_, t.NumNodes)) = some ([], 0, 1) := by
  decide!

/-- C9. Round trip: for a degree at least 3, inserting fewer than `2 ^ 31` distinct keys in
any order into a fresh tree and then removing all of them in any order leaves
`Empty() == true`, the root absent, every `Find` returning null, and `Height() == 0`. -/
theorem C9_round_trip (d : Int) (hd : 3 ≤ d) (ins rem : List Int) (hnd : ins.Nodup)
    (hperm : rem.Perm ins) (hlen : ins.length < 2 ^ 31) :
    ∃ t, runFresh d (ins.map Op.Insert ++ rem.map Op.Remove) = some t ∧ t.Empty = true
      ∧ t.root_ = .null ∧ (∀ k, t.Find k = some .null) ∧ t.Height = 0 := by
  have h2 : (2 : Nat) ^ 31 = 2147483648 := by norm_num
  obtain ⟨t0, q1, q2, q3, _, q5, _⟩ := Construct_inv d hd
  have hnil0 : inorder t0.root_ = [] := by rw [q3]; simp [inorder]
  obtain ⟨t1, r1, r2, r3, r4, r5⟩ := run_inserts_exact d ins t0 q2
    (by rw [q5, hnil0]; simp) (by rw [q5]; omega) hnd (by intro x _; rw [hnil0]; simp)
  obtain ⟨t2, s1, s2, s3, s4⟩ := run_removes_exact d rem t1 r2 r3
    (by rw [r3, r5, hnil0]; simp only [List.length_nil, zero_add]; omega)
  have hnil : inorder t2.root_ = [] := by
    apply List.eq_nil_iff_forall_not_mem.2
    intro x hx
    obtain ⟨a, b⟩ := (s4 x).1 hx
    rcases (r4 x).1 b with h | h
    · exact a (hperm.symm.subset h)
    · rw [hnil0] at h
      simp at h
  obtain ⟨e1, e2, e3⟩ := inv_empty_of_no_keys d t2 s2 s3 hnil
  have hE : t2.Empty = true := (Empty_iff t2).2 e2
  refine ⟨t2, ?_, hE, e1, ?_, e3⟩
  · simp only [runFresh, q1, run_append, r1, Option.some_bind]
    exact s1
  · intro k
    simp only [BTree.Find, hE, if_true]

/-- Witness of C9: degree 3, insert 10, 20, 5 and remove 20, 5, 10. -/
theorem C9_round_trip_witness :
    ((3 : Int) ≤ 3 ∧ [(10 : Int), 20, 5].Nodup ∧ [(20 : Int), 5, 10].Perm [10, 20, 5]
      ∧ [(10 : Int), 20, 5].length < 2 ^ 31)
    ∧ ∃ t, runFresh 3 ([(10 : Int), 20, 5].map Op.Insert ++ [(20 : Int), 5, 10].map Op.Remove)
        = some t ∧ t.Empty = true
      ∧ t.root_ = .null ∧ (∀ k, t.Find k = some .null) ∧ t.Height = 0 :=
  ⟨⟨by decide, by decide, by decide, by decide⟩,
    C9_round_trip 3 (by decide) [10, 20, 5] [20, 5, 10] (by decide) (by decide) (by decide)⟩

/-- Counterexample to C9 as stated for any number of keys: degree 3, inserting the `2 ^ 32`
distinct keys `-2 ^ 31, ..., 2 ^ 31 - 1` (every value of an `int`) brings the key counter back
to 0, every `Remove` then returns at once, and the root is still present with all `2 ^ 32`
keys stored. -/
theorem C9_counterexample :
    ((List.range (2 ^ 32)).map (fun i : Nat => (i : Int) - 2147483648)).Nodup
      ∧ ∃ t, runFresh 3
          (((List.range (2 ^ 32)).map (fun i : Nat => (i : Int) - 2147483648)).map Op.Insert
            ++ ((List.range (2 ^ 32)).map (fun i : Nat => (i : Int) - 2147483648)).map
                Op.Remove) = some t
        ∧ t.root_ ≠ .null ∧ (inorder t.root_).length = 2 ^ 32 := by
  have hnd : ((List.range (2 ^ 32)).map (fun i : Nat => (i : Int) - 2147483648)).Nodup :=
    (List.nodup_range _).map (fun a b h => by
      have h1 : (a : Int) - 2147483648 = (b : Int) - 2147483648 := h
      omega)
  refine ⟨hnd, ?_⟩
  obtain ⟨t, q1, q2, q3, q4⟩ := run_range_inserts _ hnd
    (by rw [List.length_map, List.length_range]; norm_num)
  refine ⟨t, ?_, ?_, by rw [q4]; norm_num⟩
  · rw [runFresh_append, q1, Option.some_bind]
    exact run_removes_of_Empty _ (insertCalls_map_Remove _) t q2
  · intro h
    rw [h] at q3
    cases q3

/-- C10. Construction: `BTree(d)` throws `invalid_argument` exactly when `d < 3`; for
`d >= 3` it gives the empty tree (root absent, all counters 0) with `kMaxKeys_ = d - 1` and
`kMinKeys_ = (d / 2 + d % 2) - 1 = ceil(d / 2) - 1`, and then `1 <= kMinKeys_` and
`2 * kMinKeys_ <= kMaxKeys_`. -/
theorem C10_construction (d : Int) :
    (Construct d = .error .invalid_argument ↔ d < 3)
      ∧ (3 ≤ d → ∃ t, Construct d = .ok t ∧ t.root_ = .null ∧ t.NumNodes = 0 ∧ t.NumKeys = 0
          ∧ t.Height = 0 ∧ t.Empty = true ∧ t.kMaxDegree_ = d ∧ t.kMaxKeys_ = d - 1
          ∧ t.kMinKeys_ = (Int.tdiv d 2 + Int.tmod d 2) - 1
          ∧ t.kMinKeys_ = ⌈(d : ℚ) / 2⌉ - 1
          ∧ 1 ≤ t.kMinKeys_ ∧ 2 * t.kMinKeys_ ≤ t.kMaxKeys_) := by
  constructor
  · simp only [Construct]
    constructor
    · intro h
      by_contra hcon
      rw [if_neg hcon] at h
      cases h
    · intro h
      rw [if_pos h]
  · intro hd
    obtain ⟨t, q1, q2, q3, q4, q5, q6⟩ := Construct_inv d hd
    obtain ⟨h1, h2, _⟩ := inv_bounds d t q2
    obtain ⟨_, c1, c2, c3, _⟩ := q2
    exact ⟨t, q1, q3, q4, q5, q6, (Empty_iff t).2 q5, c1, c2, c3,
      by rw [c3]; exact minKeys_eq_ceil d (by omega), h1, h2⟩

/-! ## The number of keys of a tree of a given height -/

/-- The top-level call of `RecursiveRemove`, with the shape of the root when it is emptied:
the counters change exactly when the root had one key and its two children were merged. -/
theorem RecursiveRemove_top_detail (lo hi : Int) (hlo : 1 ≤ lo) (hd1 : 2 * lo ≤ hi) (key : Int)
    (t : BTree) (ht : t.kMinKeys_ = lo) (f : Bool) (ridx : Nat) (h : Nat) (root : NodePtr)
    (hroot : NodeOK lo hi h root) (hfill : 0 < h → 1 ≤ root.keys.length)
    (hs : (inorder root).Pairwise (· < ·))
    (hleaf : ∃ fk fc, SearchNode root key = some (.node fk fc)
      ∧ fc.all NodePtr.isNull = true) :
    ∃ t1 slot, RecursiveRemove t f .null root ridx key = some (t1, slot)
      ∧ ((t1 = t ∧ NodeOK lo hi h slot)
         ∨ (∃ h1, h = h1 + 1 ∧ root.keys.length = 1 ∧ Subtree lo hi (h1 + 1) slot
            ∧ t1 = { t with num_nodes_ := wrap32 (t.num_nodes_ - 1),
                            height_ := wrap32 (t.height_ - 1) })) := by
  cases root with
  | null => simp [NodeOK] at hroot
  | node ks cs =>
    obtain ⟨fk, fc, hsearch, hfc⟩ := hleaf
    rw [SearchNode_node] at hsearch
    rw [RecursiveRemove_node]
    by_cases hf : ks[scanKeys ks key]? = some key
    · rw [if_pos hf] at hsearch
      simp only [Option.some.injEq, NodePtr.node.injEq] at hsearch
      rw [← hsearch.2] at hfc
      have h0 := NodeOK_of_all_null lo hi h ks cs hroot hfc
      subst h0
      obtain ⟨ksa, ksb, csn, e1, e2, e3, e4, e5⟩ := remove_found lo hi ks cs key hroot hf
      rw [if_pos hf, e2]
      simp only [BalanceIfNeeded]
      exact ⟨t, _, rfl, Or.inl ⟨rfl, e3⟩⟩
    · rw [if_neg hf] at hsearch
      rw [if_neg hf]
      cases h with
      | zero =>
        rw [NodeOK_zero_all lo hi ks cs hroot] at hsearch
        simp at hsearch
      | succ h =>
        rw [NodeOK_succ_all lo hi h ks cs hroot] at hsearch
        simp only [Bool.false_eq_true, if_false] at hsearch
        obtain ⟨ksa, ksb, csa, c, csb, e1, e2, e3, e4, e5, _⟩ :=
          node_at_scan ks cs key hroot.1
        subst e1 e2
        rw [SearchNodeAt_mid csa csb c _ key (by omega)] at hsearch
        rw [RecursiveRemoveAt_mid t _ _ csa csb c _ _ key (by omega)]
        rw [inorder_node] at hs
        have hpk : 1 ≤ (ksa ++ ksb).length := hfill (by omega)
        obtain ⟨t1, slot, p1, p2, p3⟩ := RecursiveRemove_child lo hi hlo hd1 key h t true
          ksa ksb csa csb c (scanKeys (ksa ++ ksb) key) ht e3 (by omega) e5 hpk
          (fun x hx => hroot.2 x (by
            simp only [List.mem_append, List.mem_cons] at hx ⊢
            tauto))
          (hroot.2 c (by simp)) hs ⟨fk, fc, hsearch, hfc⟩
        simp only [NodePtr.isNull]
        rw [p1]
        simp only [BalanceIfNeeded]
        refine ⟨t1, slot, rfl, ?_⟩
        rcases p3 with ⟨r1, r2, r3, r4, r5⟩ | ⟨r1, r2, r3, r4⟩
        · exact Or.inl ⟨r1, r2⟩
        · exact Or.inr ⟨h, rfl, by simpa [NodePtr.keys] using r2, r3, r4⟩

/-- The branches of `Remove`, read off its result. -/
theorem Remove_inversion (t t1 : BTree) (key : Int) (hrem : t.Remove key = some t1) :
    (t.Find key = some .null ∧ t1 = t)
    ∨ (∃ fk fc, t.Find key = some (.node fk fc) ∧ t.num_keys_ = 1
        ∧ t1 = { t with root_ := .null, num_nodes_ := wrap32 (t.num_nodes_ - 1),
                        num_keys_ := wrap32 (t.num_keys_ - 1) })
    ∨ (∃ fk fc tR slot, t.Find key = some (.node fk fc) ∧ t.num_keys_ ≠ 1
        ∧ fc.all NodePtr.isNull = true
        ∧ RecursiveRemove t false .null t.root_ 0 key = some (tR, slot)
        ∧ t1 = { tR with root_ := slot, num_keys_ := wrap32 (tR.num_keys_ - 1) })
    ∨ (∃ fk fc s tR slot root2, t.Find key = some (.node fk fc) ∧ t.num_keys_ ≠ 1
        ∧ fc.all NodePtr.isNull = false ∧ t.InOrderSuccessor key = some s
        ∧ RecursiveRemove t false .null t.root_ 0 s = some (tR, slot)
        ∧ tR.Empty = false ∧ ReplaceNode slot key s = some root2
        ∧ t1 = { tR with root_ := root2, num_keys_ := wrap32 (tR.num_keys_ - 1) }) := by
  unfold BTree.Remove at hrem
  cases hfind : t.Find key with
  | none => rw [hfind] at hrem; simp at hrem
  | some n =>
    rw [hfind] at hrem
    cases n with
    | null =>
      simp only [Option.some.injEq] at hrem
      exact Or.inl ⟨rfl, hrem.symm⟩
    | node fk fc =>
      simp only [BTree.NumKeys] at hrem
      by_cases h1 : t.num_keys_ = 1
      · rw [if_pos h1] at hrem
        simp only [Option.some.injEq] at hrem
        exact Or.inr (Or.inl ⟨fk, fc, rfl, h1, hrem.symm⟩)
      · rw [if_neg h1] at hrem
        by_cases hl : fc.all NodePtr.isNull = true
        · rw [if_pos hl] at hrem
          cases hrr : RecursiveRemove t false .null t.root_ 0 key with
          | none => rw [hrr] at hrem; simp at hrem
          | some r =>
            obtain ⟨tR, slot⟩ := r
            rw [hrr] at hrem
            simp only [Option.some.injEq] at hrem
            exact Or.inr (Or.inr (Or.inl ⟨fk, fc, tR, slot, rfl, h1, hl, rfl, hrem.symm⟩))
        · rw [if_neg hl] at hrem
          cases hsucc : t.InOrderSuccessor key with
          | none => rw [hsucc] at hrem; simp at hrem
          | some s =>
            rw [hsucc] at hrem
            simp only at hrem
            cases hrr : RecursiveRemove t false .null t.root_ 0 s with
            | none => rw [hrr] at hrem; simp at hrem
            | some r =>
              obtain ⟨tR, slot⟩ := r
              rw [hrr] at hrem
              simp only [BTree.FindAndReplace] at hrem
              have hE : tR.Empty = false := by
                cases hE : tR.Empty with
                | false => rfl
                | true =>
                  simp only [BTree.Empty] at hE
                  simp [BTree.Empty, hE] at hrem
              have hE2 : BTree.Empty { tR with root_ := slot } = false := hE
              rw [hE2] at hrem
              simp only [Bool.false_eq_true, if_false] at hrem
              cases hrep : ReplaceNode slot key s with
              | none => rw [hrep] at hrem; simp at hrem
              | some root2 =>
                rw [hrep] at hrem
                simp only [Option.some.injEq] at hrem
                refine Or.inr (Or.inr (Or.inr ⟨fk, fc, s, tR, slot, root2, rfl, h1, ?_, rfl,
                  hrr, hE, hrep, hrem.symm⟩))
                simpa using hl

theorem wrap32_pred_ne (x : Int) : wrap32 (x - 1) ≠ x := by
  simp only [wrap32]
  omega

/-- The cases of `Remove` on a reachable tree, whatever the counters hold: `Find` returns
null (the key is absent, or `Empty()` holds); or the key counter is one; or the root keeps its
level and the counters `height_` and `num_nodes_` are unchanged; or the root had one key, its
two children were merged into the new root, and both counters are decremented. -/
theorem Remove_cases (d : Int) (t : BTree) (key : Int) (hinv : StructInv d t) :
    ∃ t1, t.Remove key = some t1 ∧ StructInv d t1
      ∧ (((key ∉ inorder t.root_ ∨ t.Empty = true) ∧ t1 = t)
        ∨ (key ∈ inorder t.root_ ∧ t.Empty = false ∧ t.num_keys_ = 1
            ∧ t1 = { t with root_ := .null, num_nodes_ := wrap32 (t.num_nodes_ - 1),
                            num_keys_ := wrap32 (t.num_keys_ - 1) })
        ∨ (key ∈ inorder t.root_ ∧ t.Empty = false ∧ t.num_keys_ ≠ 1
            ∧ t1.num_keys_ = wrap32 (t.num_keys_ - 1)
            ∧ ∃ key1 tR slot, ∃ h : Nat,
              ((key1 = key ∧ t1.root_ = slot)
                ∨ (t.InOrderSuccessor key = some key1
                    ∧ ReplaceNode slot key key1 = some t1.root_))
              ∧ RecursiveRemove t false .null t.root_ 0 key1 = some (tR, slot)
              ∧ NodeOK t.kMinKeys_ t.kMaxKeys_ h t.root_
              ∧ ((tR = t ∧ NodeOK t.kMinKeys_ t.kMaxKeys_ h t1.root_ ∧ t1.height_ = t.height_
                    ∧ t1.num_nodes_ = t.num_nodes_)
                ∨ (∃ h1 s c0 c1, h = h1 + 1 ∧ t.root_ = .node [s] [c0, c1]
                    ∧ tR = { t with num_nodes_ := wrap32 (t.num_nodes_ - 1),
                                    height_ := wrap32 (t.height_ - 1) }
                    ∧ NodeOK t.kMinKeys_ t.kMaxKeys_ h1 t1.root_
                    ∧ t1.height_ = wrap32 (t.height_ - 1)
                    ∧ t1.num_nodes_ = wrap32 (t.num_nodes_ - 1))))) := by
  obtain ⟨hlo, hd1, hd2⟩ := struct_bounds d t hinv
  obtain ⟨t1, hrem, hinv1, hE, _⟩ := Remove_struct d t key hinv
  refine ⟨t1, hrem, hinv1, ?_⟩
  by_cases he : t.Empty = true
  · exact Or.inl ⟨Or.inr he, hE he⟩
  have he2 : t.Empty = false := by simpa using he
  have hk0 : t.num_keys_ ≠ 0 := (Empty_false_iff t).1 he2
  obtain ⟨_, _, _, _, hcase⟩ := hinv
  rcases hcase with ⟨_, hk⟩ | ⟨h, hok, hfill, hint, hs⟩
  · exact absurd hk hk0
  obtain ⟨t1', hrem', hc⟩ := Remove_nonempty t key h hlo hd1 he2 hok hfill hint hs
  rw [hrem] at hrem'
  have hrem' : t1 = t1' := Option.some.inj hrem'
  subst hrem'
  rcases hc with ⟨e1, e2⟩ | ⟨e1, e2, e3⟩
      | ⟨hkey, hne, _, hnk, _, hlen, h1, hok1, _, _, _, hlev⟩
  · exact Or.inl ⟨Or.inl e1, e2⟩
  · exact Or.inr (Or.inl ⟨e1, he2, e2, e3⟩)
  refine Or.inr (Or.inr ⟨hkey, he2, hne, hnk, ?_⟩)
  -- the top-level call
  have htop : ∀ (key1 : Int) (tR : BTree) (slot root2 : NodePtr),
      ((key1 = key ∧ root2 = slot)
        ∨ (t.InOrderSuccessor key = some key1 ∧ ReplaceNode slot key key1 = some root2)) →
      (∃ fk fc, SearchNode t.root_ key1 = some (.node fk fc) ∧ fc.all NodePtr.isNull = true) →
      RecursiveRemove t false .null t.root_ 0 key1 = some (tR, slot) →
      t1 = { tR with root_ := root2, num_keys_ := wrap32 (tR.num_keys_ - 1) } →
      ∃ key1 tR slot, ∃ h : Nat,
        ((key1 = key ∧ t1.root_ = slot)
          ∨ (t.InOrderSuccessor key = some key1
              ∧ ReplaceNode slot key key1 = some t1.root_))
        ∧ RecursiveRemove t false .null t.root_ 0 key1 = some (tR, slot)
        ∧ NodeOK t.kMinKeys_ t.kMaxKeys_ h t.root_
        ∧ ((tR = t ∧ NodeOK t.kMinKeys_ t.kMaxKeys_ h t1.root_ ∧ t1.height_ = t.height_
              ∧ t1.num_nodes_ = t.num_nodes_)
          ∨ (∃ h1 s c0 c1, h = h1 + 1 ∧ t.root_ = .node [s] [c0, c1]
              ∧ tR = { t with num_nodes_ := wrap32 (t.num_nodes_ - 1),
                              height_ := wrap32 (t.height_ - 1) }
              ∧ NodeOK t.kMinKeys_ t.kMaxKeys_ h1 t1.root_
              ∧ t1.height_ = wrap32 (t.height_ - 1)
              ∧ t1.num_nodes_ = wrap32 (t.num_nodes_ - 1))) := by
    intro key1 tR slot root2 hk1 hleaf hrr e
    obtain ⟨tR', slot', q1, q2⟩ := RecursiveRemove_top_detail t.kMinKeys_ t.kMaxKeys_ hlo hd1
      key1 t rfl false 0 h t.root_ hok hint hs hleaf
    rw [hrr] at q1
    simp only [Option.some.injEq, Prod.mk.injEq] at q1
    obtain ⟨q1a, q1b⟩ := q1
    subst q1a q1b
    have hroot2 : t1.root_ = root2 := by rw [e]
    have hht : t1.height_ = tR.height_ := by rw [e]
    have hnn : t1.num_nodes_ = tR.num_nodes_ := by rw [e]
    refine ⟨key1, tR, slot, h, by rw [hroot2]; exact hk1, hrr, hok, ?_⟩
    rcases q2 with ⟨r1, r2⟩ | ⟨g, r1, r2, r3, r4⟩
    · subst r1
      rcases hlev with ⟨l1, _, _⟩ | ⟨_, l2, _⟩
      · subst l1
        exact Or.inl ⟨rfl, hok1, hht, hnn⟩
      · rw [hht] at l2
        exact absurd l2.symm (wrap32_pred_ne _)
    · have hht2 : t1.height_ = wrap32 (t.height_ - 1) := by rw [hht, r4]
      have hnn2 : t1.num_nodes_ = wrap32 (t.num_nodes_ - 1) := by rw [hnn, r4]
      rcases hlev with ⟨_, l2, _⟩ | ⟨l1, _, _⟩
      · rw [hht2] at l2
        exact absurd l2 (wrap32_pred_ne _)
      · have hg : g = h1 := by omega
        subst hg
        refine Or.inr ⟨g, ?_⟩
        cases hroot : t.root_ with
        | null => rw [hroot] at hok; simp [NodeOK] at hok
        | node ks cs =>
          rw [hroot] at hok r2
          simp only [NodePtr.keys] at r2
          obtain ⟨hl, _⟩ := hok
          match ks, cs, r2, hl, hroot with
          | [s], [c0, c1], _, _, hroot =>
            exact ⟨s, c0, c1, r1, rfl, by rw [r4, hroot], hok1, hht2, hnn2⟩
  have hsearch_of : ∀ fk fc, t.Find key = some (.node fk fc) →
      SearchNode t.root_ key = some (.node fk fc) := by
    intro fk fc hf
    simp only [BTree.Find, he2, Bool.false_eq_true, if_false] at hf
    exact hf
  rcases Remove_inversion t t1 key hrem with ⟨p1, p2⟩ | ⟨fk, fc, p1, p2, p3⟩
      | ⟨fk, fc, tR, slot, p1, p2, p3, p4, p5⟩
      | ⟨fk, fc, s, tR, slot, root2, p1, p2, p3, p4, p5, p6, p7, p8⟩
  · rw [p2] at hlen
    omega
  · exact absurd p2 hne
  · exact htop key tR slot slot (Or.inl ⟨rfl, rfl⟩) ⟨fk, fc, hsearch_of fk fc p1, p3⟩ p4 p5
  · have hsearch := hsearch_of fk fc p1
    have hleaf : ∃ lk lc, SearchNode t.root_ s = some (.node lk lc)
        ∧ lc.all NodePtr.isNull = true := by
      obtain ⟨itr, leafk, leafc, s', w1, w2, w3, w4, w5, w6⟩ :=
        successor_spec t.kMinKeys_ t.kMaxKeys_ hlo key h t.root_ hok hs fk fc hsearch p3
      have : t.InOrderSuccessor key = some s' := by
        simp only [BTree.InOrderSuccessor, p1, w1, w2, w3]
      rw [p4] at this
      simp only [Option.some.injEq] at this
      subst this
      exact ⟨leafk, leafc, w5, w6⟩
    exact htop s tR slot root2 (Or.inr ⟨p4, p7⟩) hleaf p5 p8

/-! ## The cases of `Insert` -/

/-- What `Node::Split` returns: two nodes that share the keys other than the median. -/
theorem Split_keys_length (p l r : NodePtr) (m : Int) (h : Node.Split p = some (l, m, r)) :
    l.keys.length + r.keys.length + 1 = p.keys.length ∧ l.isNull = false
      ∧ r.isNull = false := by
  cases p with
  | null => simp [Node.Split] at h
  | node ks cs =>
    simp only [Node.Split] at h
    split at h
    · rename_i median back hm hb
      split at h
      · simp only [Option.some.injEq, Prod.mk.injEq] at h
        obtain ⟨h1, _, h3⟩ := h
        subst h1 h3
        have hlt : ks.length / 2 < ks.length := by
          by_contra hc
          rw [List.getElem?_eq_none (by omega)] at hm
          simp at hm
        refine ⟨?_, rfl, rfl⟩
        simp only [NodePtr.keys, List.length_take, List.length_drop]
        omega
      · simp at h
    · simp at h

theorem length_insertAt {α : Type} (l : List α) (i : Nat) (x : α) (h : i ≤ l.length) :
    (insertAt l i x).length = l.length + 1 := by
  simp only [insertAt, List.length_append, List.length_take, List.length_cons,
    List.length_drop]
  omega

/-- The two ways `InsertAndSplit` returns: without a split the counter is unchanged and the
second component is null; with a split the node had overflowed, the counter is one more and
the second component is the new sibling. -/
theorem InsertAndSplit_inversion (hi nn : Int) (root new_child : NodePtr) (new_key : Int)
    (idx : Nat) (r : InsertResult)
    (h : InsertAndSplit hi nn root new_key new_child idx = some r) :
    (r.second.isNull = true ∧ r.num_nodes_ = nn ∧ (root.keys.length : Int) + 1 ≤ hi)
      ∨ (r.second.isNull = false ∧ r.num_nodes_ = wrap32 (nn + 1)
          ∧ hi < (root.keys.length : Int) + 1
          ∧ r.root.keys.length + r.second.keys.length = root.keys.length) := by
  cases root with
  | null => simp [InsertAndSplit, Node.InsertKeyAt] at h
  | node ks cs =>
    simp only [InsertAndSplit, Node.InsertKeyAt] at h
    by_cases h1 : idx ≤ ks.length
    · rw [if_pos h1] at h
      simp only [Node.InsertChildAt] at h
      by_cases h2 : idx + 1 ≤ cs.length
      · rw [if_pos h2] at h
        simp only [NodePtr.keys] at h
        have hlen := length_insertAt ks idx new_key h1
        by_cases h3 : hi < ((insertAt ks idx new_key).length : Int)
        · rw [if_pos h3] at h
          split at h
          · simp at h
          · rename_i root3 median right hsplit
            simp only [Option.some.injEq] at h
            subst h
            obtain ⟨q1, q2, q3⟩ := Split_keys_length _ _ _ _ hsplit
            simp only [NodePtr.keys] at q1
            refine Or.inr ⟨q3, rfl, ?_, ?_⟩ <;> simp only [NodePtr.keys] <;> omega
        · rw [if_neg h3] at h
          simp only [Option.some.injEq] at h
          subst h
          refine Or.inl ⟨rfl, rfl, ?_⟩
          simp only [NodePtr.keys]
          omega
      · rw [if_neg h2] at h
        simp at h
    · rw [if_neg h1] at h
      simp at h

theorem RecursiveInsertAt_some (kM nn : Int) (key : Int) (cs : List NodePtr) :
    ∀ (i : Nat) (r : InsertResult) (cs1 : List NodePtr),
      RecursiveInsertAt kM nn cs i key = some (r, cs1) → cs1.length = cs.length := by
  induction cs with
  | nil =>
    intro i r cs1 h
    simp [RecursiveInsertAt] at h
  | cons c cs ih =>
    intro i r cs1 h
    cases i with
    | zero =>
      simp only [RecursiveInsertAt] at h
      split at h
      · simp at h
      · simp only [Option.some.injEq, Prod.mk.injEq] at h
        rw [← h.2]
        simp
    | succ i =>
      simp only [RecursiveInsertAt] at h
      split at h
      · simp at h
      · rename_i r0 cs0 hrec
        simp only [Option.some.injEq, Prod.mk.injEq] at h
        rw [← h.2]
        simp only [List.length_cons]
        rw [ih i r0 cs0 hrec]

/-- When `RecursiveInsert` returns a new sibling, the node it was called on had overflowed,
and the node and the sibling share its keys. -/
theorem RecursiveInsert_inversion (hi nn : Int) (ks : List Int) (cs : List NodePtr)
    (key : Int) (r : InsertResult)
    (h : RecursiveInsert hi nn (.node ks cs) key = some r) (hr : r.second.isNull = false) :
    hi < (ks.length : Int) + 1 ∧ r.root.keys.length + r.second.keys.length = ks.length := by
  rw [RecursiveInsert_node] at h
  split at h
  · simp only [Option.some.injEq] at h
    subst h
    simp [NodePtr.isNull] at hr
  · split at h
    · rcases InsertAndSplit_inversion _ _ _ _ _ _ _ h with ⟨q1, _⟩ | ⟨_, _, q3, q4⟩
      · rw [q1] at hr; simp at hr
      · exact ⟨q3, q4⟩
    · split at h
      · simp at h
      · rename_i sr cs1 hrec
        split at h
        · rename_i hnull
          simp only [Option.some.injEq] at h
          subst h
          simp only at hr
          rw [hnull] at hr
          simp at hr
        · rcases InsertAndSplit_inversion _ _ _ _ _ _ _ h with ⟨q1, _⟩ | ⟨_, _, q3, q4⟩
          · rw [q1] at hr; simp at hr
          · exact ⟨q3, q4⟩

/-- The cases of `Insert` on a reachable tree, whatever the counters hold: `Empty()` holds
and the root is replaced by a new leaf; or the root is not split and keeps its level; or the
root was full, is split in two nodes of the same level and a new root is put over them. -/
theorem Insert_cases (d : Int) (t : BTree) (key : Int) (hinv : StructInv d t) :
    ∃ t1, t.Insert key = some t1 ∧ StructInv d t1
      ∧ ((t.Empty = true
            ∧ t1 = { t with root_ := Node.ofKey key, num_nodes_ := wrap32 (t.num_nodes_ + 1),
                            num_keys_ := wrap32 (t.num_keys_ + 1) })
        ∨ (t.Empty = false ∧ ∃ r, ∃ h : Nat,
            RecursiveInsert t.kMaxKeys_ t.num_nodes_ t.root_ key = some r
            ∧ NodeOK t.kMinKeys_ t.kMaxKeys_ h t.root_
            ∧ (∃ k : Nat, r.num_nodes_ = incr32 k t.num_nodes_
                ∧ (k : Int) + countNodes t.root_ = countNodes r.root + countNodes r.second)
            ∧ ((r.second = .null ∧ NodeOK t.kMinKeys_ t.kMaxKeys_ h r.root
                  ∧ t1 = { t with root_ := r.root, num_nodes_ := r.num_nodes_,
                                  num_keys_ := wrap32 (t.num_keys_ + 1) })
              ∨ (Subtree t.kMinKeys_ t.kMaxKeys_ (h + 1) r.root
                  ∧ Subtree t.kMinKeys_ t.kMaxKeys_ (h + 1) r.second
                  ∧ (t.root_.keys.length : Int) = t.kMaxKeys_
                  ∧ ((r.root.keys.length + r.second.keys.length : Nat) : Int) = t.kMaxKeys_
                  ∧ t1 = { t with root_ := .node [r.first] [r.root, r.second],
                                  num_nodes_ := wrap32 (r.num_nodes_ + 1),
                                  height_ := wrap32 (t.height_ + 1),
                                  num_keys_ := wrap32 (t.num_keys_ + 1) })))) := by
  obtain ⟨hlo, hd1, hd2⟩ := struct_bounds d t hinv
  obtain ⟨t1, hins, hinv1, _⟩ := Insert_struct d t key hinv
  refine ⟨t1, hins, hinv1, ?_⟩
  obtain ⟨hd, c1, c2, c3, hcase⟩ := hinv
  by_cases hE : t.Empty = true
  · simp only [BTree.Insert, hE, if_true, Option.some.injEq] at hins
    exact Or.inl ⟨hE, hins.symm⟩
  have he : t.Empty = false := by simpa using hE
  have hk0 : t.num_keys_ ≠ 0 := (Empty_false_iff t).1 he
  rcases hcase with ⟨_, hk⟩ | ⟨h, hok, hfill, hint, hs⟩
  · exact absurd hk hk0
  · obtain ⟨r, hr, hcnt, hdup, hnew⟩ := RecursiveInsert_spec t.kMinKeys_ t.kMaxKeys_ hlo hd1
      hd2 key h t.root_ t.num_nodes_ hok hfill hs
    simp only [BTree.Insert, he, Bool.false_eq_true, if_false, hr] at hins
    refine Or.inr ⟨he, r, h, hr, hok, hcnt, ?_⟩
    have hnosplit : r.second = .null → NodeOK t.kMinKeys_ t.kMaxKeys_ h r.root →
        r.second = .null ∧ NodeOK t.kMinKeys_ t.kMaxKeys_ h r.root
          ∧ t1 = { t with root_ := r.root, num_nodes_ := r.num_nodes_,
                          num_keys_ := wrap32 (t.num_keys_ + 1) } := by
      intro q2 q1
      rw [q2] at hins
      simp only [NodePtr.isNull, if_true, Option.some.injEq] at hins
      exact ⟨q2, q1, hins.symm⟩
    by_cases hkey : key ∈ inorder t.root_
    · obtain ⟨q1, q2⟩ := hdup hkey
      exact Or.inl (hnosplit q2 (by rw [q1]; exact hok))
    · obtain ⟨A, B, hAB, hA, hB, hc⟩ := hnew hkey
      rcases hc with ⟨q1, q2, _⟩ | ⟨q1, q2, _⟩
      · exact Or.inl (hnosplit q1 q2)
      · obtain ⟨sk, sc, hsec⟩ := Subtree_ne_null _ _ _ _ q2
        have hnn : r.second.isNull = false := by rw [hsec]; rfl
        rw [hnn] at hins
        simp only [Bool.false_eq_true, if_false, Option.some.injEq] at hins
        cases hroot : t.root_ with
        | null => rw [hroot] at hok; simp [NodeOK] at hok
        | node ks cs =>
          rw [hroot] at hr hfill
          obtain ⟨w1, w2⟩ := RecursiveInsert_inversion _ _ ks cs key r hr hnn
          have e1 : (NodePtr.node ks cs).keys.length = ks.length := rfl
          rw [e1] at hfill ⊢
          refine Or.inr ⟨q1, q2, by omega, by omega, hins.symm⟩

/-! ## Counting nodes -/

/-- A root of height `h` that holds a key stores more than `h` keys. -/
theorem NodeOK_levels_lt (lo hi : Int) (hlo : 1 ≤ lo) (h : Nat) (root : NodePtr)
    (hroot : NodeOK lo hi h root) (hk : 1 ≤ root.keys.length) :
    h + 1 ≤ (inorder root).length := by
  cases root with
  | null => simp [NodeOK] at hroot
  | node ks cs =>
    simp only [NodePtr.keys] at hk
    obtain ⟨h1, h2⟩ := hroot
    match ks, cs, h1, hk with
    | [], _, _, hk => simp at hk
    | k :: ks, [], h1, _ => simp at h1
    | k :: ks, c0 :: cs, _, _ =>
      have := Subtree_levels_le lo hi hlo h c0 (h2 c0 (by simp))
      rw [inorder_node]
      simp only [interleave, List.length_append, List.length_cons]
      omega

theorem split_at_two {α : Type} (l : List α) (i : Nat) (a b : α) (h1 : l[i]? = some a)
    (h2 : l[i + 1]? = some b) : ∃ l1 l2, l = l1 ++ a :: b :: l2 ∧ l1.length = i := by
  obtain ⟨hi2, e2⟩ := List.getElem?_eq_some_iff.1 h2
  obtain ⟨hi1, e1⟩ := List.getElem?_eq_some_iff.1 h1
  refine ⟨l.take i, l.drop (i + 2), ?_, by simp; omega⟩
  have d1 : l.drop i = l[i] :: l.drop (i + 1) := by simp
  have d2 : l.drop (i + 1) = l[i + 1] :: l.drop (i + 2) := by simp
  conv_lhs => rw [← List.take_append_drop i l, d1, d2, e1, e2]

theorem split_at_one {α : Type} (l : List α) (i : Nat) (a : α) (h1 : l[i]? = some a) :
    ∃ l1 l2, l = l1 ++ a :: l2 ∧ l1.length = i := by
  obtain ⟨hi1, e1⟩ := List.getElem?_eq_some_iff.1 h1
  refine ⟨l.take i, l.drop (i + 1), ?_, by simp; omega⟩
  have d1 : l.drop i = l[i] :: l.drop (i + 1) := by simp
  conv_lhs => rw [← List.take_append_drop i l, d1, e1]

theorem leafDepthsList_append (dpt : Nat) (cs1 cs2 : List NodePtr) :
    leafDepthsList dpt (cs1 ++ cs2) = leafDepthsList dpt cs1 ++ leafDepthsList dpt cs2 := by
  induction cs1 with
  | nil => simp [leafDepthsList]
  | cons c cs1 ih =>
    show leafDepthsList dpt (c :: (cs1 ++ cs2)) = _
    simp only [leafDepthsList, ih, List.append_assoc]

theorem leafDepthsList_cons (dpt : Nat) (c : NodePtr) (cs : List NodePtr) :
    leafDepthsList dpt (c :: cs) = leafDepths (dpt + 1) c ++ leafDepthsList dpt cs := by
  simp only [leafDepthsList]

theorem leafDepthsList_nil (dpt : Nat) : leafDepthsList dpt [] = [] := by
  simp only [leafDepthsList]

/-- A vector that is not empty and has no null entry is not all null. -/
theorem all_isNull_false_of_nonnull (cs : List NodePtr) (hne : cs ≠ [])
    (h : cs.all (fun c => !c.isNull) = true) : cs.all NodePtr.isNull = false := by
  cases cs with
  | nil => exact absurd rfl hne
  | cons c cs =>
    simp only [List.all_cons, Bool.and_eq_true, Bool.not_eq_true', Bool.and_eq_false_imp] at h ⊢
    intro hc
    rw [h.1] at hc
    simp at hc

/-- The leaf depths of two siblings when the first child of the right one becomes the last
child of the left one. -/
theorem leafDepths_move_left (dpt : Nat) (lk lk1 rk rk1 : List Int) (lc rc : List NodePtr)
    (c0 : NodePtr) (hkind : lc.all NodePtr.isNull = (c0 :: rc).all NodePtr.isNull)
    (hR : (c0 :: rc).all NodePtr.isNull = true ∨ (c0 :: rc).all (fun c => !c.isNull) = true)
    (hrc : rc ≠ []) :
    leafDepths dpt (.node lk1 (lc ++ [c0])) ++ leafDepths dpt (.node rk1 rc)
      = leafDepths dpt (.node lk lc) ++ leafDepths dpt (.node rk (c0 :: rc)) := by
  simp only [leafDepths_node]
  rcases hR with hR | hR
  · have hl : lc.all NodePtr.isNull = true := by rw [hkind, hR]
    have h1 : (lc ++ [c0]).all NodePtr.isNull = true := by
      simp only [List.all_cons, Bool.and_eq_true] at hR
      simp [List.all_append, hl, hR.1]
    have h2 : rc.all NodePtr.isNull = true := by
      simp only [List.all_cons, Bool.and_eq_true] at hR
      exact hR.2
    rw [h1, h2, hl, hR]
    simp only [if_true]
  · have hR0 : (c0 :: rc).all NodePtr.isNull = false :=
      all_isNull_false_of_nonnull _ (by simp) hR
    have hl : lc.all NodePtr.isNull = false := by rw [hkind, hR0]
    have h1 : (lc ++ [c0]).all NodePtr.isNull = false := by
      simp [List.all_append, hl]
    have h2 : rc.all NodePtr.isNull = false := by
      simp only [List.all_cons, Bool.and_eq_true] at hR
      exact all_isNull_false_of_nonnull rc hrc hR.2
    rw [h1, h2, hl, hR0]
    simp only [Bool.false_eq_true, if_false, leafDepthsList_append, leafDepthsList_cons,
      leafDepthsList_nil, List.append_nil, List.append_assoc]

/-- The leaf depths of two siblings when the last child of the left one becomes the first
child of the right one. -/
theorem leafDepths_move_right (dpt : Nat) (lk lk1 rk rk1 : List Int) (lc rc : List NodePtr)
    (cl : NodePtr) (hkind : (lc ++ [cl]).all NodePtr.isNull = rc.all NodePtr.isNull)
    (hL : (lc ++ [cl]).all NodePtr.isNull = true
      ∨ (lc ++ [cl]).all (fun c => !c.isNull) = true)
    (hlc : lc ≠ []) :
    leafDepths dpt (.node lk1 lc) ++ leafDepths dpt (.node rk1 (cl :: rc))
      = leafDepths dpt (.node lk (lc ++ [cl])) ++ leafDepths dpt (.node rk rc) := by
  simp only [leafDepths_node]
  rcases hL with hL | hL
  · have hr : rc.all NodePtr.isNull = true := by rw [← hkind, hL]
    simp only [List.all_append, List.all_cons, List.all_nil, Bool.and_true,
      Bool.and_eq_true] at hL
    have h1 : (cl :: rc).all NodePtr.isNull = true := by
      simp [hr, hL.2]
    have h0 : (lc ++ [cl]).all NodePtr.isNull = true := by
      simp [List.all_append, hL.1, hL.2]
    rw [h1, hr, hL.1, h0]
    simp only [if_true]
  · have hL0 : (lc ++ [cl]).all NodePtr.isNull = false :=
      all_isNull_false_of_nonnull _ (by simp) hL
    have hr : rc.all NodePtr.isNull = false := by rw [← hkind, hL0]
    simp only [List.all_append, List.all_cons, List.all_nil, Bool.and_true,
      Bool.and_eq_true] at hL
    have h1 : (cl :: rc).all NodePtr.isNull = false := by
      simp [hr]
    have h2 : lc.all NodePtr.isNull = false := all_isNull_false_of_nonnull lc hlc hL.1
    rw [h1, h2, hr, hL0]
    simp only [Bool.false_eq_true, if_false, leafDepthsList_append, leafDepthsList_cons,
      leafDepthsList_nil, List.append_nil, List.append_assoc]

/-- The leaf depths under a parent depend on two adjacent non-null children only through
their own leaf depths. -/
theorem leafDepths_parent_pair (dpt : Nat) (pk pk1 : List Int) (csA csB : List NodePtr)
    (xk xk1 : List Int) (xc xc1 : List NodePtr) (y y1 : NodePtr)
    (h : leafDepths (dpt + 1) (.node xk1 xc1) ++ leafDepths (dpt + 1) y1
      = leafDepths (dpt + 1) (.node xk xc) ++ leafDepths (dpt + 1) y) :
    leafDepths dpt (.node pk1 (csA ++ .node xk1 xc1 :: y1 :: csB))
      = leafDepths dpt (.node pk (csA ++ .node xk xc :: y :: csB)) := by
  simp only [leafDepths_node]
  have e1 : (csA ++ .node xk1 xc1 :: y1 :: csB).all NodePtr.isNull = false := by
    simp [List.all_append, NodePtr.isNull]
  have e2 : (csA ++ .node xk xc :: y :: csB).all NodePtr.isNull = false := by
    simp [List.all_append, NodePtr.isNull]
  rw [e1, e2]
  simp only [Bool.false_eq_true, if_false, leafDepthsList_append, leafDepthsList_cons]
  rw [← List.append_assoc (leafDepths (dpt + 1) (.node xk1 xc1)), h, List.append_assoc]

/-- Method `RotateLeft` on any parent whose child at `idx` has one more child than keys and
whose child at `idx + 1` has a first key and a first child. -/
theorem RotateLeft_general (ksA ksB : List Int) (s : Int) (csA csB : List NodePtr)
    (lk : List Int) (lc : List NodePtr) (r0 : Int) (rk : List Int) (c0 : NodePtr)
    (rc : List NodePtr) (idx : Nat) (h1 : ksA.length = idx) (h2 : csA.length = idx)
    (hlc : lc.length = lk.length + 1) :
    RotateLeft (.node (ksA ++ s :: ksB)
        (csA ++ .node lk lc :: .node (r0 :: rk) (c0 :: rc) :: csB)) idx
      = some (.node (ksA ++ r0 :: ksB)
          (csA ++ .node (lk ++ [s]) (lc ++ [c0]) :: .node rk rc :: csB))
    ∧ interleave (ksA ++ r0 :: ksB)
          (csA ++ .node (lk ++ [s]) (lc ++ [c0]) :: .node rk rc :: csB)
        = interleave (ksA ++ s :: ksB)
          (csA ++ .node lk lc :: .node (r0 :: rk) (c0 :: rc) :: csB) := by
  constructor
  · simp only [RotateLeft]
    rw [getElem?_mid_succ csA csB _ _ idx h2, getElem?_mid csA _ _ idx h2,
      getElem?_mid ksA ksB s idx h1]
    simp only
    rw [set_mid ksA ksB s r0 idx h1, set_mid csA _ _ _ idx h2,
      set_mid_succ csA csB _ _ _ idx h2]
  · rw [interleave_ins ksA ksB csA csB _ _ r0 (by omega),
      interleave_ins ksA ksB csA csB _ _ s (by omega)]
    simp only [inorder_node]
    rw [interleave_rot_left lk lc s c0 hlc]
    simp [interleave]

/-- Method `RotateRight` on any parent whose child at `idx` (the left sibling of the child at
`idx + 1`) has a last key and a last child. -/
theorem RotateRight_general (ksA ksB : List Int) (s : Int) (csA csB : List NodePtr)
    (lk : List Int) (lc : List NodePtr) (kl : Int) (cl : NodePtr) (rk : List Int)
    (rc : List NodePtr) (idx : Nat) (h1 : ksA.length = idx) (h2 : csA.length = idx)
    (hlc : lc.length = lk.length + 1) :
    RotateRight (.node (ksA ++ s :: ksB)
        (csA ++ .node (lk ++ [kl]) (lc ++ [cl]) :: .node rk rc :: csB)) (idx + 1)
      = some (.node (ksA ++ kl :: ksB)
          (csA ++ .node lk lc :: .node (s :: rk) (cl :: rc) :: csB))
    ∧ interleave (ksA ++ kl :: ksB)
          (csA ++ .node lk lc :: .node (s :: rk) (cl :: rc) :: csB)
        = interleave (ksA ++ s :: ksB)
          (csA ++ .node (lk ++ [kl]) (lc ++ [cl]) :: .node rk rc :: csB) := by
  constructor
  · simp only [RotateRight]
    rw [if_neg (by omega)]
    have i1 : idx + 1 - 1 = idx := by omega
    rw [i1]
    rw [getElem?_mid csA _ _ idx h2, getElem?_mid ksA ksB s idx h1,
      getElem?_mid_succ csA csB _ _ idx h2]
    simp only [getLast?_snoc, dropLast_snoc]
    rw [set_mid ksA ksB s kl idx h1,
      set_mid_succ csA csB _ _ _ idx h2, set_mid csA _ _ _ idx h2]
  · rw [interleave_ins ksA ksB csA csB _ _ kl (by omega),
      interleave_ins ksA ksB csA csB _ _ s (by omega)]
    simp only [inorder_node]
    rw [interleave_rot_left lk lc kl cl hlc]
    simp [interleave]

/-! ## When the balancing methods succeed -/

theorem RotateLeft_some (pk : List Int) (pc : List NodePtr) (idx : Nat) (r : NodePtr)
    (h : RotateLeft (.node pk pc) idx = some r) :
    (∃ lk lc, pc[idx]? = some (.node lk lc)) ∧ (∃ rk rc, pc[idx + 1]? = some (.node rk rc))
      ∧ idx < pk.length := by
  simp only [RotateLeft] at h
  split at h
  · rename_i rk0 rkeys rc0 rchildren lkeys lchildren separator e1 e2 e3
    exact ⟨⟨_, _, e2⟩, ⟨_, _, e1⟩, (List.getElem?_eq_some_iff.1 e3).1⟩
  · simp at h

theorem RotateRight_some (pk : List Int) (pc : List NodePtr) (idx : Nat) (r : NodePtr)
    (h : RotateRight (.node pk pc) idx = some r) :
    1 ≤ idx ∧ (∃ lk lc, pc[idx - 1]? = some (.node lk lc))
      ∧ (∃ rk rc, pc[idx]? = some (.node rk rc)) ∧ idx - 1 < pk.length := by
  simp only [RotateRight] at h
  by_cases h0 : idx = 0
  · rw [if_pos h0] at h
    simp at h
  · rw [if_neg h0] at h
    split at h
    · rename_i lkeys lchildren rkeys rchildren separator e1 e2 e3
      exact ⟨by omega, ⟨_, _, e1⟩, ⟨_, _, e2⟩, (List.getElem?_eq_some_iff.1 e3).1⟩
    · simp at h

theorem ConcatenateNodes_some (l r : NodePtr) (x : NodePtr × NodePtr)
    (h : ConcatenateNodes l r = some x) : ∃ rk rc, r = .node rk rc := by
  cases l with
  | null => simp [ConcatenateNodes] at h
  | node lk lc =>
    cases r with
    | null => simp [ConcatenateNodes] at h
    | node rk rc => exact ⟨rk, rc, rfl⟩

theorem MergeSiblings_some (t : BTree) (f : Bool) (pk : List Int) (pc : List NodePtr)
    (idx : Nat) (r : BTree × NodePtr) (h : MergeSiblings t f (.node pk pc) idx = some r) :
    ∃ li, ((li = idx ∧ idx + 1 < pc.length) ∨ (li + 1 = idx ∧ ¬ idx + 1 < pc.length))
      ∧ (∃ lk lc, pc[li]? = some (.node lk lc))
      ∧ (∃ rk rc, pc[li + 1]? = some (.node rk rc)) ∧ li < pk.length := by
  simp only [MergeSiblings] at h
  by_cases h0 : ¬ idx + 1 < pc.length ∧ idx = 0
  · rw [if_pos h0] at h
    simp at h
  · rw [if_neg h0] at h
    split at h
    · rename_i lkeys lchildren r_sibling separator e1 e2 e3
      split at h
      · simp at h
      · rename_i l1 r1 hcat
        obtain ⟨rk, rc, hr⟩ := ConcatenateNodes_some _ _ _ hcat
        subst hr
        refine ⟨_, ?_, ⟨_, _, e1⟩, ⟨_, _, e2⟩, (List.getElem?_eq_some_iff.1 e3).1⟩
        by_cases hr : idx + 1 < pc.length
        · rw [if_pos hr]
          exact Or.inl ⟨rfl, hr⟩
        · rw [if_neg hr]
          exact Or.inr ⟨by omega, hr⟩
    · simp at h

/-- Whenever `BalanceTree(parent, idx)` returns, the parent has at least two children, the
child at `idx` is a node and so is the sibling at `idx + 1` or the one at `idx - 1`. -/
theorem BalanceTree_some (t : BTree) (f : Bool) (parent : NodePtr) (idx : Nat)
    (r : BTree × NodePtr) (h : BalanceTree t f parent idx = some r) :
    ∃ pk pc, parent = .node pk pc ∧ 2 ≤ pc.length
      ∧ (∃ ck cc, pc[idx]? = some (.node ck cc))
      ∧ ((∃ rk rc, pc[idx + 1]? = some (.node rk rc))
        ∨ (1 ≤ idx ∧ ∃ lk lc, pc[idx - 1]? = some (.node lk lc))) := by
  cases parent with
  | null => simp [BalanceTree] at h
  | node pk pc =>
    refine ⟨pk, pc, rfl, ?_⟩
    have key : (∃ ck cc, pc[idx]? = some (.node ck cc))
        ∧ ((∃ rk rc, pc[idx + 1]? = some (.node rk rc))
          ∨ (1 ≤ idx ∧ ∃ lk lc, pc[idx - 1]? = some (.node lk lc))) := by
      simp only [BalanceTree] at h
      split at h
      · rename_i rl rr e1 e2
        by_cases hrl : rl = true
        · rw [if_pos hrl] at h
          cases hrot : RotateLeft (.node pk pc) idx with
          | none => rw [hrot] at h; simp at h
          | some p =>
            obtain ⟨q1, q2, _⟩ := RotateLeft_some pk pc idx p hrot
            exact ⟨q1, Or.inl q2⟩
        · rw [if_neg hrl] at h
          by_cases hrr : rr = true
          · rw [if_pos hrr] at h
            cases hrot : RotateRight (.node pk pc) idx with
            | none => rw [hrot] at h; simp at h
            | some p =>
              obtain ⟨q1, q2, q3, _⟩ := RotateRight_some pk pc idx p hrot
              exact ⟨q3, Or.inr ⟨q1, q2⟩⟩
          · rw [if_neg hrr] at h
            obtain ⟨li, q1, q2, q3, _⟩ := MergeSiblings_some t f pk pc idx r h
            rcases q1 with ⟨q1, _⟩ | ⟨q1, _⟩
            · subst q1
              exact ⟨q2, Or.inl q3⟩
            · subst q1
              exact ⟨q3, Or.inr ⟨by omega, by simpa using q2⟩⟩
      · simp at h
    refine ⟨?_, key⟩
    obtain ⟨⟨ck, cc, hc⟩, hsib⟩ := key
    have hi := (List.getElem?_eq_some_iff.1 hc).1
    rcases hsib with ⟨rk, rc, hr⟩ | ⟨h1, lk, lc, hl⟩
    · have := (List.getElem?_eq_some_iff.1 hr).1
      omega
    · omega

theorem RecursiveRemoveAt_some (t : BTree) (f : Bool) (p : NodePtr) (idx : Nat) (key : Int)
    (r : BTree × NodePtr) (cs : List NodePtr) :
    ∀ (i : Nat), RecursiveRemoveAt t f p cs i idx key = some r →
      ∃ c, cs[i]? = some c ∧ RecursiveRemove t f p c idx key = some r := by
  induction cs with
  | nil =>
    intro i h
    simp [RecursiveRemoveAt] at h
  | cons c cs ih =>
    intro i h
    cases i with
    | zero =>
      simp only [RecursiveRemoveAt] at h
      exact ⟨c, by simp, h⟩
    | succ i =>
      simp only [RecursiveRemoveAt] at h
      obtain ⟨c1, q1, q2⟩ := ih i h
      exact ⟨c1, by simpa using q1, q2⟩

/-- Whenever `RecursiveRemove(parent, root, root_idx, key)` returns, it has met the key: the
search for `key` from `root` ends in a node and not below a leaf. -/
theorem RecursiveRemove_some_search (key : Int) :
    ∀ (root : NodePtr) (t : BTree) (f : Bool) (parent : NodePtr) (ridx : Nat)
      (r : BTree × NodePtr), RecursiveRemove t f parent root ridx key = some r →
      ∃ fk fc, SearchNode root key = some (.node fk fc) ∧ key ∈ fk := by
  intro root
  induction root using NodePtr.induct with
  | hnull =>
    intro t f parent ridx r h
    simp [RecursiveRemove] at h
  | hnode ks cs ih =>
    intro t f parent ridx r h
    rw [RecursiveRemove_node] at h
    rw [SearchNode_node]
    by_cases hf : ks[scanKeys ks key]? = some key
    · rw [if_pos hf]
      exact ⟨ks, cs, rfl, List.getElem?_mem hf⟩
    · rw [if_neg hf] at h ⊢
      split at h
      · simp at h
      · rename_i t1 root1 hrec
        obtain ⟨c, q1, q2⟩ := RecursiveRemoveAt_some _ _ _ _ _ _ cs _ hrec
        have hc : c ∈ cs := List.getElem?_mem q1
        have hnn : cs.all NodePtr.isNull = false := by
          cases hall : cs.all NodePtr.isNull with
          | false => rfl
          | true =>
            have := (all_isNull_iff cs).1 hall c hc
            subst this
            simp [RecursiveRemove] at q2
        rw [hnn]
        simp only [Bool.false_eq_true, if_false]
        obtain ⟨l1, l2, e, hl⟩ := split_at_one cs _ c q1
        rw [e, SearchNodeAt_mid l1 l2 c _ key hl]
        exact ih c hc _ _ _ _ _ q2

/-! ## The counters in `MergeSiblings` -/

theorem incr32_range (k : Nat) (x : Int) (h1 : -2147483648 ≤ x) (h2 : x < 2147483648) :
    -2147483648 ≤ incr32 k x ∧ incr32 k x < 2147483648 := by
  cases k with
  | zero => exact ⟨h1, h2⟩
  | succ k =>
    rw [incr32_succ]
    exact wrap32_range _

theorem Construct_range (d : Int) (t : BTree) (h : Construct d = .ok t) :
    CountersInRange t := by
  simp only [Construct] at h
  split at h
  · cases h
  · simp only [Except.ok.injEq] at h
    subst h
    simp [CountersInRange]

theorem Insert_range (d : Int) (t t1 : BTree) (key : Int) (hinv : StructInv d t)
    (hr : CountersInRange t) (h : t.Insert key = some t1) : CountersInRange t1 := by
  obtain ⟨t1', p1, _, hc⟩ := Insert_cases d t key hinv
  rw [h] at p1
  have p1 : t1 = t1' := Option.some.inj p1
  subst p1
  obtain ⟨⟨a1, a2⟩, ⟨b1, b2⟩, ⟨c1, c2⟩⟩ := hr
  rcases hc with ⟨_, e⟩ | ⟨_, r, h, _, _, ⟨k, e5, _⟩, hc⟩
  · rw [e]
    exact ⟨wrap32_range _, wrap32_range _, c1, c2⟩
  · have hrn := incr32_range k _ a1 a2
    rw [← e5] at hrn
    rcases hc with ⟨_, _, e⟩ | ⟨_, _, _, _, e⟩
    · rw [e]
      exact ⟨hrn, wrap32_range _, c1, c2⟩
    · rw [e]
      exact ⟨wrap32_range _, wrap32_range _, wrap32_range _⟩

theorem Remove_range (d : Int) (t t1 : BTree) (key : Int) (hinv : StructInv d t)
    (hr : CountersInRange t) (h : t.Remove key = some t1) : CountersInRange t1 := by
  obtain ⟨t1', p1, _, hc⟩ := Remove_cases d t key hinv
  rw [h] at p1
  have p1 : t1 = t1' := Option.some.inj p1
  subst p1
  obtain ⟨⟨a1, a2⟩, ⟨b1, b2⟩, ⟨c1, c2⟩⟩ := hr
  rcases hc with ⟨_, e⟩ | ⟨_, _, _, e⟩ | ⟨_, _, _, hnk, _, _, _, _, _, _, _, hc⟩
  · rw [e]
    exact ⟨⟨a1, a2⟩, ⟨b1, b2⟩, ⟨c1, c2⟩⟩
  · rw [e]
    exact ⟨wrap32_range _, wrap32_range _, c1, c2⟩
  · refine ⟨?_, by rw [hnk]; exact wrap32_range _, ?_⟩
    · rcases hc with ⟨_, _, _, e⟩ | ⟨_, _, _, _, _, _, _, _, _, e⟩
      · rw [e]
        exact ⟨a1, a2⟩
      · rw [e]
        exact wrap32_range _
    · rcases hc with ⟨_, _, e, _⟩ | ⟨_, _, _, _, _, _, _, _, e, _⟩
      · rw [e]
        exact ⟨c1, c2⟩
      · rw [e]
        exact wrap32_range _

theorem run_range (d : Int) (ops : List Op) :
    ∀ (t : BTree), StructInv d t → CountersInRange t →
      ∃ t1, t.run ops = some t1 ∧ StructInv d t1 ∧ CountersInRange t1 := by
  induction ops with
  | nil =>
    intro t hinv hr
    exact ⟨t, rfl, hinv, hr⟩
  | cons op ops ih =>
    intro t hinv hr
    obtain ⟨t1, q1, q2⟩ := step_struct d t op hinv
    have hr1 : CountersInRange t1 := by
      cases op with
      | Insert k => exact Insert_range d t t1 k hinv hr q1
      | Remove k => exact Remove_range d t t1 k hinv hr q1
    obtain ⟨t2, r1, r2, r3⟩ := ih t1 q2 hr1
    refine ⟨t2, ?_, r2, r3⟩
    simp only [BTree.run, q1]
    exact r1

/-- Every tree reached from the constructor keeps the structural invariant and has its
counters in the range of a 32-bit `int`. -/
theorem runFresh_range (d : Int) (hd : 3 ≤ d) (ops : List Op) :
    ∃ t, runFresh d ops = some t ∧ StructInv d t ∧ CountersInRange t := by
  obtain ⟨t0, q1, q2⟩ := Construct_struct d hd
  obtain ⟨t, r1, r2, r3⟩ := run_range d ops t0 q2 (Construct_range d t0 q1)
  exact ⟨t, by simp only [runFresh, q1]; exact r1, r2, r3⟩

/-- C12. Split: on a node with `n >= 1` keys and `n + 1` children, `Split()` with `m = n / 2`
returns the median `keys_[m]` and a right node; the node keeps `keys_[0..m)` and
`children_[0..m]`, the right node holds `keys_[m+1..n)` and `children_[m+1..n]`, so the entry
at `m` is in neither (and its value is in neither when the keys are distinct), the keys are
`left ++ [median] ++ right` and the children `left ++ right`.  When `n` is the degree of a
constructed tree, both halves have between `kMinKeys_` and `kMaxKeys_` keys. -/
theorem C12_split (ks : List Int) (cs : List NodePtr) (hk : 1 ≤ ks.length)
    (hc : cs.length = ks.length + 1) :
    ∃ median lk lc rk rc, Node.Split (.node ks cs) = some (.node lk lc, median, .node rk rc)
      ∧ ks[ks.length / 2]? = some median
      ∧ lk = ks.take (ks.length / 2) ∧ lc = cs.take (ks.length / 2 + 1)
      ∧ rk = ks.drop (ks.length / 2 + 1) ∧ rc = cs.drop (ks.length / 2 + 1)
      ∧ lk ++ [median] ++ rk = ks ∧ lc ++ rc = cs
      ∧ lk.length + rk.length + 1 = ks.length
      ∧ (ks.Nodup → median ∉ lk ∧ median ∉ rk)
      ∧ ∀ d t, Construct d = .ok t → (ks.length : Int) = d →
          t.kMinKeys_ ≤ (lk.length : Int) ∧ (lk.length : Int) ≤ t.kMaxKeys_
            ∧ t.kMinKeys_ ≤ (rk.length : Int) ∧ (rk.length : Int) ≤ t.kMaxKeys_ := by
  obtain ⟨lk, lc, med, rk, rc, q1, q2, q3, q4, q5, q6⟩ := Split_spec ks cs hc hk
  subst q2 q3
  have hlen : (lk ++ med :: rk).length = lk.length + (rk.length + 1) := by simp
  refine ⟨med, lk, lc, rk, rc, q1, ?_, ?_, ?_, ?_, ?_, ?_, rfl, by omega, ?_, ?_⟩
  · exact getElem?_mid lk rk med _ q6
  · exact (List.take_left' q6).symm
  · exact (List.take_left' (by omega)).symm
  · have e : lk ++ med :: rk = (lk ++ [med]) ++ rk := by simp
    rw [← q6]
    conv_rhs => rw [e]
    exact (List.drop_left' (by simp)).symm
  · exact (List.drop_left' (by omega)).symm
  · simp
  · intro hnd
    constructor
    · intro hm
      exact (List.nodup_append.1 hnd).2.2 hm (by simp)
    · exact (List.nodup_cons.1 (List.nodup_append.1 hnd).2.1).1
  · intro d t ht hd
    have hd3 : 3 ≤ d := by
      by_contra hcon
      simp only [Construct] at ht
      rw [if_pos (by omega)] at ht
      cases ht
    obtain ⟨t0, r1, r2, _⟩ := Construct_inv d hd3
    rw [ht] at r1
    cases r1
    obtain ⟨_, _, c2, c3, _⟩ := r2
    rw [c2, c3, Int.tdiv_eq_ediv (by omega) (by omega), Int.tmod_eq_emod (by omega) (by omega)]
    have h1 : (lk.length : Int) = d / 2 := by
      rw [q6, ← hd]
      simp
    have h2 : (lk.length : Int) + rk.length + 1 = d := by
      rw [← hd, hlen]
      push_cast
      ring
    omega

/-- Witness of C12: the overflowing root `[5, 10, 20]` of a tree of degree 3. -/
theorem C12_split_witness :
    (1 ≤ [(5 : Int), 10, 20].length
      ∧ [NodePtr.null, NodePtr.null, NodePtr.null, NodePtr.null].length
          = [(5 : Int), 10, 20].length + 1)
    ∧ ∃ median lk lc rk rc,
      Node.Split (.node [5, 10, 20] [.null, .null, .null, .null])
        = some (.node lk lc, median, .node rk rc)
      ∧ [(5 : Int), 10, 20][[(5 : Int), 10, 20].length / 2]? = some median
      ∧ lk = [(5 : Int), 10, 20].take ([(5 : Int), 10, 20].length / 2)
      ∧ lc = [NodePtr.null, NodePtr.null, NodePtr.null, NodePtr.null].take
          ([(5 : Int), 10, 20].length / 2 + 1)
      ∧ rk = [(5 : Int), 10, 20].drop ([(5 : Int), 10, 20].length / 2 + 1)
      ∧ rc = [NodePtr.null, NodePtr.null, NodePtr.null, NodePtr.null].drop
          ([(5 : Int), 10, 20].length / 2 + 1)
      ∧ lk ++ [median] ++ rk = [(5 : Int), 10, 20]
      ∧ lc ++ rc = [NodePtr.null, NodePtr.null, NodePtr.null, NodePtr.null]
      ∧ lk.length + rk.length + 1 = [(5 : Int), 10, 20].length
      ∧ ([(5 : Int), 10, 20].Nodup → median ∉ lk ∧ median ∉ rk)
      ∧ ∀ d t, Construct d = .ok t → ([(5 : Int), 10, 20].length : Int) = d →
          t.kMinKeys_ ≤ (lk.length : Int) ∧ (lk.length : Int) ≤ t.kMaxKeys_
            ∧ t.kMinKeys_ ≤ (rk.length : Int) ∧ (rk.length : Int) ≤ t.kMaxKeys_ :=
  ⟨⟨by decide, by decide⟩,
    C12_split [5, 10, 20] [.null, .null, .null, .null] (by decide) (by decide)⟩

/-- C13. Root split: on a tree reached by any sequence of calls, `Insert(k)` returns; when the
top-level `RecursiveInsert` hands back a new sibling, the root was full (`kMaxKeys_` keys)
and overflowed, the new root holds exactly the promoted key and exactly two children, the old
root as the split left it and the new sibling, which share the other `kMaxKeys_` keys, and
`height_++` and `num_nodes_++` are executed: `Height()` is one more in the arithmetic of
`int`, and exactly one more unless it was the largest `int`, which it is not when the sequence
has fewer than `2 ^ 31` calls of `Insert`; otherwise (also when `Empty()` holds) `Height()`
is unchanged and the root node stays the root or is the new leaf. -/
theorem C13_root_split (d : Int) (hd : 3 ≤ d) (ops : List Op) (k : Int) :
    ∃ t t1, runFresh d ops = some t ∧ t.Insert k = some t1
      ∧ ((t.Empty = true ∧ t1.root_ = Node.ofKey k ∧ t1.Height = t.Height)
        ∨ (t.Empty = false
            ∧ ∃ r, RecursiveInsert t.kMaxKeys_ t.num_nodes_ t.root_ k = some r
              ∧ ((r.second.isNull = true ∧ t1.root_ = r.root ∧ t1.Height = t.Height
                    ∧ t1.NumNodes = r.num_nodes_)
                ∨ (r.second.isNull = false ∧ r.root.isNull = false
                    ∧ (t.root_.keys.length : Int) = t.kMaxKeys_
                    ∧ ((r.root.keys.length + r.second.keys.length : Nat) : Int)
                        = t.kMaxKeys_
                    ∧ t1.root_ = .node [r.first] [r.root, r.second]
                    ∧ t1.Height = wrap32 (t.Height + 1)
                    ∧ (t.Height < 2147483647 → t1.Height = t.Height + 1)
                    ∧ (insertCalls ops < 2 ^ 31 → t1.Height = t.Height + 1)
                    ∧ t1.NumNodes = wrap32 (r.num_nodes_ + 1)
                    ∧ (r.num_nodes_ < 2147483647 →
                        t1.NumNodes = r.num_nodes_ + 1))))) := by
  obtain ⟨t, q1, q2, ⟨⟨n1, n2⟩, _, ⟨g1, g2⟩⟩⟩ := runFresh_range d hd ops
  obtain ⟨hlo, hd1, _⟩ := struct_bounds d t q2
  obtain ⟨t1, p1, _, hc⟩ := Insert_cases d t k q2
  refine ⟨t, t1, q1, p1, ?_⟩
  rcases hc with ⟨e1, e3⟩ | ⟨e1, r, h, e2, hok, ⟨j, hj, _⟩, hc⟩
  · subst e3
    exact Or.inl ⟨e1, rfl, rfl⟩
  · refine Or.inr ⟨e1, r, e2, ?_⟩
    rcases hc with ⟨w1, _, w3⟩ | ⟨w1, w2, w3, w4, w5⟩
    · subst w3
      exact Or.inl ⟨by rw [w1]; rfl, rfl, rfl, rfl⟩
    · obtain ⟨ak, ac, ha⟩ := Subtree_ne_null _ _ _ _ w1
      obtain ⟨bk, bc, hb⟩ := Subtree_ne_null _ _ _ _ w2
      subst w5
      have hrn := incr32_range j _ n1 n2
      rw [← hj] at hrn
      refine Or.inr ⟨by rw [hb]; rfl, by rw [ha]; rfl, w3, w4, rfl, rfl,
        fun hlt => wrap32_of_range _ (by simp only [BTree.Height] at hlt ⊢; omega)
          (by simp only [BTree.Height] at hlt ⊢; omega),
        ?_, rfl, fun hlt => wrap32_of_range _ (by omega) (by omega)⟩
      intro hops
      obtain ⟨t2, b1, b2, _, b4⟩ := runFresh_inv d hd ops hops
      rw [q1] at b1
      have b1 : t = t2 := Option.some.inj b1
      subst b1
      have h2 : (2 : Nat) ^ 31 = 2147483648 := by norm_num
      obtain ⟨_, _, _, _, hcase⟩ := b2
      rcases hcase with ⟨_, hk0, _⟩ | ⟨h', hh, hok', _, _, _, hlen, _⟩
      · exact absurd hk0 ((Empty_false_iff t).1 e1)
      · have hlt := NodeOK_levels_lt _ _ hlo h' t.root_ hok' (by omega)
        simp only [BTree.Height]
        exact wrap32_of_range _ (by omega) (by omega)

/-- Witness of C13: degree 3, `Insert 10, 20` and then `Insert 5` splits the root: root keys
`[10]` over the children `[5]` and `[20]`, `Height() = 1`, `NumNodes() = 3`,
`NumKeys() = 3`. -/
theorem C13_root_split_witness :
    ((3 : Int) ≤ 3 ∧ insertCalls [.Insert 10, .Insert 20] < 2 ^ 31
      ∧ (runFresh 3 [.Insert 10, .Insert 20, .Insert 5]).map
          (fun t => (t.root_.keys, t.root_.children.map NodePtr.keys, t.Height, t.NumNodes,
            t.NumKeys)) = some ([10], [[5], [20]], 1, 3, 3))
    ∧ ∃ t t1, runFresh 3 [.Insert 10, .Insert 20] = some t ∧ t.Insert 5 = some t1
      ∧ ((t.Empty = true ∧ t1.root_ = Node.ofKey 5 ∧ t1.Height = t.Height)
        ∨ (t.Empty = false
            ∧ ∃ r, RecursiveInsert t.kMaxKeys_ t.num_nodes_ t.root_ 5 = some r
              ∧ ((r.second.isNull = true ∧ t1.root_ = r.root ∧ t1.Height = t.Height
                    ∧ t1.NumNodes = r.num_nodes_)
                ∨ (r.second.isNull = false ∧ r.root.isNull = false
                    ∧ (t.root_.keys.length : Int) = t.kMaxKeys_
                    ∧ ((r.root.keys.length + r.second.keys.length : Nat) : Int)
                        = t.kMaxKeys_
                    ∧ t1.root_ = .node [r.first] [r.root, r.second]
                    ∧ t1.Height = wrap32 (t.Height + 1)
                    ∧ (t.Height < 2147483647 → t1.Height = t.Height + 1)
                    ∧ (insertCalls [.Insert 10, .Insert 20] < 2 ^ 31 → t1.Height = t.Height + 1)
                    ∧ t1.NumNodes = wrap32 (r.num_nodes_ + 1)
                    ∧ (r.num_nodes_ < 2147483647 →
                        t1.NumNodes = r.num_nodes_ + 1))))) :=
  ⟨⟨by decide, by decide, by decide!⟩,
    C13_root_split 3 (by decide) [.Insert 10, .Insert 20] 5⟩

/-- C14. Rotations: let `parent` hold the separator `s` at `idx` between the children
`L = children_[idx]` and `R = children_[idx + 1]`, each with one more child than keys.  If `R`
has at least one key, `RotateLeft(parent, idx)` appends `s` and the first child of `R` to `L`,
takes the first key and the first child from `R` and puts that key in place of `s`; if `L` has
at least one key, `RotateRight(parent, idx + 1)` is the mirror image.  Either way the number
of keys of the parent and the in-order key sequence of its subtree are unchanged, and so
are the leaf depths when `L` and `R` are both leaves or both internal nodes. -/
theorem C14_rotations (pk : List Int) (pc : List NodePtr) (idx : Nat) (s : Int)
    (lk rk : List Int) (lc rc : List NodePtr)
    (hs : pk[idx]? = some s) (hL : pc[idx]? = some (.node lk lc))
    (hR : pc[idx + 1]? = some (.node rk rc))
    (hlc : lc.length = lk.length + 1) (hrc : rc.length = rk.length + 1) :
    (1 ≤ rk.length →
      ∃ r0 rk1 c0 rc1 p1, rk = r0 :: rk1 ∧ rc = c0 :: rc1
        ∧ RotateLeft (.node pk pc) idx = some p1
        ∧ p1 = .node (pk.set idx r0)
            ((pc.set idx (.node (lk ++ [s]) (lc ++ [c0]))).set (idx + 1) (.node rk1 rc1))
        ∧ p1.keys.length = pk.length ∧ p1.children.length = pc.length
        ∧ inorder p1 = inorder (.node pk pc)
        ∧ (NodeShape lk lc → NodeShape rk rc →
            lc.all NodePtr.isNull = rc.all NodePtr.isNull →
            ∀ dpt, leafDepths dpt p1 = leafDepths dpt (.node pk pc)))
    ∧ (1 ≤ lk.length →
      ∃ kl lk1 cl lc1 p1, lk = lk1 ++ [kl] ∧ lc = lc1 ++ [cl]
        ∧ RotateRight (.node pk pc) (idx + 1) = some p1
        ∧ p1 = .node (pk.set idx kl)
            ((pc.set (idx + 1) (.node (s :: rk) (cl :: rc))).set idx (.node lk1 lc1))
        ∧ p1.keys.length = pk.length ∧ p1.children.length = pc.length
        ∧ inorder p1 = inorder (.node pk pc)
        ∧ (NodeShape lk lc → NodeShape rk rc →
            lc.all NodePtr.isNull = rc.all NodePtr.isNull →
            ∀ dpt, leafDepths dpt p1 = leafDepths dpt (.node pk pc))) := by
  obtain ⟨ksA, ksB, e1, h1⟩ := split_at_one pk idx s hs
  obtain ⟨csA, csB, e2, h2⟩ := split_at_two pc idx _ _ hL hR
  subst e1 e2
  constructor
  · intro hk
    match rk, rc, hrc, hk with
    | r0 :: rk1, c0 :: rc1, hrc, _ =>
      obtain ⟨g1, g2⟩ := RotateLeft_general ksA ksB s csA csB lk lc r0 rk1 c0 rc1 idx h1 h2 hlc
      have hset : NodePtr.node ((ksA ++ s :: ksB).set idx r0)
          (((csA ++ .node lk lc :: .node (r0 :: rk1) (c0 :: rc1) :: csB).set idx
            (.node (lk ++ [s]) (lc ++ [c0]))).set (idx + 1) (.node rk1 rc1))
          = .node (ksA ++ r0 :: ksB)
            (csA ++ .node (lk ++ [s]) (lc ++ [c0]) :: .node rk1 rc1 :: csB) := by
        rw [set_mid ksA ksB s r0 idx h1, set_mid csA _ _ _ idx h2,
          set_mid_succ csA csB _ _ _ idx h2]
      refine ⟨r0, rk1, c0, rc1, _, rfl, rfl, g1, hset.symm, ?_, ?_, ?_, ?_⟩
      · simp [NodePtr.keys]
      · simp [NodePtr.children]
      · rw [inorder_node, inorder_node, g2]
      · intro sL sR hkind dpt
        apply leafDepths_parent_pair
        have hne : rc1 ≠ [] := by
          intro e
          rw [e] at hrc
          simp at hrc
        exact leafDepths_move_left (dpt + 1) lk _ (r0 :: rk1) rk1 lc rc1 c0 hkind sR.2 hne
  · intro hk
    rcases List.eq_nil_or_concat lk with e | ⟨lk1, kl, e⟩
    · rw [e] at hk; simp at hk
    rcases List.eq_nil_or_concat lc with e3 | ⟨lc1, cl, e3⟩
    · rw [e3] at hlc; simp at hlc
    rw [List.concat_eq_append] at e e3
    subst e e3
    have hlen : lc1.length = lk1.length + 1 := by simpa using hlc
    obtain ⟨g1, g2⟩ := RotateRight_general ksA ksB s csA csB lk1 lc1 kl cl rk rc idx h1 h2 hlen
    have hset : NodePtr.node ((ksA ++ s :: ksB).set idx kl)
        (((csA ++ .node (lk1 ++ [kl]) (lc1 ++ [cl]) :: .node rk rc :: csB).set (idx + 1)
          (.node (s :: rk) (cl :: rc))).set idx (.node lk1 lc1))
        = .node (ksA ++ kl :: ksB)
          (csA ++ .node lk1 lc1 :: .node (s :: rk) (cl :: rc) :: csB) := by
      rw [set_mid ksA ksB s kl idx h1, set_mid_succ csA csB _ _ _ idx h2,
        set_mid csA _ _ _ idx h2]
    refine ⟨kl, lk1, cl, lc1, _, rfl, rfl, g1, hset.symm, ?_, ?_, ?_, ?_⟩
    · simp [NodePtr.keys]
    · simp [NodePtr.children]
    · rw [inorder_node, inorder_node, g2]
    · intro sL sR hkind dpt
      apply leafDepths_parent_pair
      have hne : lc1 ≠ [] := by
        intro e
        rw [e] at hlen
        simp at hlen
      exact leafDepths_move_right (dpt + 1) (lk1 ++ [kl]) lk1 rk _ lc1 rc cl hkind sL.2 hne

/-- Witness of C14: the parent `[10]` over the leaves `[3, 5]` and `[20, 30]`; the left
rotation at 0 gives `[20]` over `[3, 5, 10]` and `[30]`, the right rotation at 1 gives `[5]`
over `[3]` and `[10, 20, 30]`. -/
theorem C14_rotations_witness :
    ((RotateLeft (.node [10] [.node [3, 5] [.null, .null, .null],
        .node [20, 30] [.null, .null, .null]]) 0).map
          (fun p => (p.keys, p.children.map NodePtr.keys, inorder p, leafDepths 0 p))
        = some ([20], [[3, 5, 10], [30]], [3, 5, 10, 20, 30], [1, 1])
      ∧ (RotateRight (.node [10] [.node [3, 5] [.null, .null, .null],
        .node [20, 30] [.null, .null, .null]]) 1).map
          (fun p => (p.keys, p.children.map NodePtr.keys, inorder p, leafDepths 0 p))
        = some ([5], [[3], [10, 20, 30]], [3, 5, 10, 20, 30], [1, 1]))
    ∧ ((1 ≤ ([20, 30] : List Int).length →
      ∃ r0 rk1 c0 rc1 p1, ([20, 30] : List Int) = r0 :: rk1 ∧
          ([.null, .null, .null] : List NodePtr) = c0 :: rc1
        ∧ RotateLeft (.node ([10] : List Int)
            ([NodePtr.node [3, 5] [.null, .null, .null], NodePtr.node [20, 30]
            [.null, .null, .null]] : List NodePtr)) 0 = some p1
        ∧ p1 = .node (([10] : List Int).set 0 r0)
            ((([NodePtr.node [3, 5] [.null, .null, .null], NodePtr.node [20, 30]
                [.null, .null, .null]] : List NodePtr).set 0
                (.node (([3, 5] : List Int) ++ [10])
                (([.null, .null, .null] : List NodePtr) ++ [c0]))).set (0 + 1) (.node rk1 rc1))
        ∧ p1.keys.length = ([10] : List Int).length ∧ p1.children.length =
            ([NodePtr.node [3, 5] [.null, .null, .null], NodePtr.node [20, 30]
            [.null, .null, .null]] : List NodePtr).length
        ∧ inorder p1 = inorder (.node ([10] : List Int)
            ([NodePtr.node [3, 5] [.null, .null, .null], NodePtr.node [20, 30]
            [.null, .null, .null]] : List NodePtr))
        ∧ (NodeShape ([3, 5] : List Int) ([.null, .null, .null] : List NodePtr) → NodeShape
            ([20, 30] : List Int) ([.null, .null, .null] : List NodePtr) →
            ([.null, .null, .null] : List NodePtr).all NodePtr.isNull =
                ([.null, .null, .null] : List NodePtr).all NodePtr.isNull →
            ∀ dpt, leafDepths dpt p1 = leafDepths dpt
                (.node ([10] : List Int) ([NodePtr.node [3, 5] [.null, .null, .null], NodePtr.node
                [20, 30] [.null, .null, .null]] : List NodePtr))))
    ∧ (1 ≤ ([3, 5] : List Int).length →
      ∃ kl lk1 cl lc1 p1, ([3, 5] : List Int) = lk1 ++ [kl] ∧
          ([.null, .null, .null] : List NodePtr) = lc1 ++ [cl]
        ∧ RotateRight (.node ([10] : List Int)
            ([NodePtr.node [3, 5] [.null, .null, .null], NodePtr.node [20, 30]
            [.null, .null, .null]] : List NodePtr)) (0 + 1) = some p1
        ∧ p1 = .node (([10] : List Int).set 0 kl)
            ((([NodePtr.node [3, 5] [.null, .null, .null], NodePtr.node [20, 30]
                [.null, .null, .null]] : List NodePtr).set (0 + 1)
                (.node (10 :: ([20, 30] : List Int))
                (cl :: ([.null, .null, .null] : List NodePtr)))).set 0 (.node lk1 lc1))
        ∧ p1.keys.length = ([10] : List Int).length ∧ p1.children.length =
            ([NodePtr.node [3, 5] [.null, .null, .null], NodePtr.node [20, 30]
            [.null, .null, .null]] : List NodePtr).length
        ∧ inorder p1 = inorder (.node ([10] : List Int)
            ([NodePtr.node [3, 5] [.null, .null, .null], NodePtr.node [20, 30]
            [.null, .null, .null]] : List NodePtr))
        ∧ (NodeShape ([3, 5] : List Int) ([.null, .null, .null] : List NodePtr) → NodeShape
            ([20, 30] : List Int) ([.null, .null, .null] : List NodePtr) →
            ([.null, .null, .null] : List NodePtr).all NodePtr.isNull =
                ([.null, .null, .null] : List NodePtr).all NodePtr.isNull →
            ∀ dpt, leafDepths dpt p1 = leafDepths dpt
                (.node ([10] : List Int) ([NodePtr.node [3, 5] [.null, .null, .null], NodePtr.node
                [20, 30] [.null, .null, .null]] : List NodePtr))))) :=
  ⟨⟨by decide!, by decide!⟩,
    C14_rotations [10] [.node [3, 5] [.null, .null, .null],
      .node [20, 30] [.null, .null, .null]] 0 10 [3, 5] [20, 30] [.null, .null, .null]
      [.null, .null, .null] rfl rfl rfl rfl rfl⟩

/-- C15. Merge postcondition: let `parent` have strictly increasing keys and one more child
than keys, and let `li` be `idx` when `idx + 1` is below the number of children and `idx - 1`
otherwise, with nodes `L` at `li` and `R` at `li + 1` and `s` the key at `li`.  Then
`MergeSiblings(parent, idx)` returns; `L` becomes `L.keys ++ [s] ++ R.keys` over
`L.children ++ R.children`, the parent loses the key at `li` (the key `s`) and the slot
`li + 1` of `R`, and the in-order key sequence below the parent is unchanged; the merged node
replaces the parent (and `num_nodes_--` and `height_--` are executed, each lowering an `int`
above the smallest one by exactly one) exactly when the parent is the root and `s` was its
only key.  An underfull node and a sibling with `kMinKeys_` keys merge into a node with at
most `kMaxKeys_` keys. -/
theorem C15_merge (t : BTree) (f : Bool) (pk : List Int) (pc : List NodePtr) (idx li : Nat)
    (lk rk : List Int) (lc rc : List NodePtr)
    (hsorted : pk.Pairwise (· < ·)) (hshape : pc.length = pk.length + 1)
    (hli : li = if idx + 1 < pc.length then idx else idx - 1)
    (hL : pc[li]? = some (.node lk lc)) (hR : pc[li + 1]? = some (.node rk rc))
    (hlc : lc.length = lk.length + 1) (hrc : rc.length = rk.length + 1) :
    ∃ s, pk[li]? = some s
      ∧ MergeSiblings t f (.node pk pc) idx
          = some (if f = true ∧ pk.length = 1 then
              ({ t with num_nodes_ := wrap32 (t.num_nodes_ - 1),
                        height_ := wrap32 (t.height_ - 1) },
                .node (lk ++ [s] ++ rk) (lc ++ rc))
            else (t, .node (pk.eraseIdx li)
              ((pc.set li (.node (lk ++ [s] ++ rk) (lc ++ rc))).eraseIdx (li + 1))))
      ∧ (∀ x, x ∈ pk.eraseIdx li ↔ x ∈ pk ∧ x ≠ s)
      ∧ (pk.eraseIdx li).length + 1 = pk.length
      ∧ ((pc.set li (.node (lk ++ [s] ++ rk) (lc ++ rc))).eraseIdx (li + 1)).length + 1
          = pc.length
      ∧ inorder (.node (lk ++ [s] ++ rk) (lc ++ rc))
          = inorder (.node lk lc) ++ s :: inorder (.node rk rc)
      ∧ inorder (.node (pk.eraseIdx li)
            ((pc.set li (.node (lk ++ [s] ++ rk) (lc ++ rc))).eraseIdx (li + 1)))
          = inorder (.node pk pc)
      ∧ (pk.length = 1 → inorder (.node (lk ++ [s] ++ rk) (lc ++ rc)) = inorder (.node pk pc))
      ∧ (∀ x : Int, -2147483648 < x → x < 2147483648 → wrap32 (x - 1) = x - 1)
      ∧ ∀ d t0, Construct d = .ok t0 →
          (lk.length : Int) + rk.length = 2 * t0.kMinKeys_ - 1 →
          ((lk ++ [s] ++ rk).length : Int) ≤ t0.kMaxKeys_ := by
  have hlt : li + 1 < pc.length := (List.getElem?_eq_some_iff.1 hR).1
  obtain ⟨s, hs⟩ : ∃ s, pk[li]? = some s :=
    ⟨pk[li], List.getElem?_eq_getElem (by omega)⟩
  obtain ⟨ksA, ksB, e1, h1⟩ := split_at_one pk li s hs
  obtain ⟨csA, csB, e2, h2⟩ := split_at_two pc li _ _ hL hR
  subst e1 e2
  have h3 : csB.length = ksB.length := by
    simp only [List.length_append, List.length_cons] at hshape
    omega
  have hbelow : ∀ k ∈ ksA, k < s := by
    intro k hk
    exact (List.pairwise_append.1 hsorted).2.2 k hk s (by simp)
  have hnd := pairwise_lt_nodup hsorted
  have hcase : idx = li ∨ (idx = li + 1 ∧ csB = []) := by
    by_cases hr : idx + 1 < (csA ++ .node lk lc :: .node rk rc :: csB).length
    · rw [if_pos hr] at hli
      exact Or.inl hli.symm
    · rw [if_neg hr] at hli
      simp only [List.length_append, List.length_cons] at hr hlt
      have : csB.length = 0 := by omega
      exact Or.inr ⟨by omega, List.length_eq_zero.1 this⟩
  have hspec := MergeSiblings_spec t f ksA ksB s csA csB lk rk lc rc li idx h1 h2 h3 hrc
    hbelow hcase
  have ek : lk ++ [s] ++ rk = lk ++ s :: rk := by simp
  have e4 : (ksA ++ s :: ksB).eraseIdx li = ksA ++ ksB := eraseIdx_mid ksA ksB s li h1
  have e5 : ((csA ++ .node lk lc :: .node rk rc :: csB).set li
      (.node (lk ++ s :: rk) (lc ++ rc))).eraseIdx (li + 1)
      = csA ++ .node (lk ++ s :: rk) (lc ++ rc) :: csB := by
    rw [set_mid csA _ _ _ li h2, eraseIdx_mid_succ csA csB _ _ li h2]
  have hin1 : inorder (.node (lk ++ s :: rk) (lc ++ rc))
      = inorder (.node lk lc) ++ s :: inorder (.node rk rc) := by
    simp only [inorder_node]
    exact interleave_append_key lk rk s lc rc hlc
  have hin2 : inorder (.node (ksA ++ ksB) (csA ++ .node (lk ++ s :: rk) (lc ++ rc) :: csB))
      = inorder (.node (ksA ++ s :: ksB) (csA ++ .node lk lc :: .node rk rc :: csB)) := by
    rw [inorder_node, inorder_node, interleave_mid ksA ksB csA csB _ (by omega),
      interleave_ins ksA ksB csA csB _ _ s (by omega), hin1]
    simp only [List.append_assoc, List.cons_append]
  refine ⟨s, hs, ?_⟩
  rw [ek, e4, e5]
  refine ⟨?_, ?_, ?_, ?_, hin1, hin2, ?_,
    fun x h1 h2 => wrap32_of_range _ (by omega) (by omega), ?_⟩
  · rw [hspec]
    congr 1
    by_cases hc : f = true ∧ (ksA ++ s :: ksB).length = 1
    · have : (ksA ++ ksB).isEmpty = true := by
        obtain ⟨_, hc2⟩ := hc
        simp only [List.length_append, List.length_cons] at hc2
        have a1 : ksA.length = 0 := by omega
        have a2 : ksB.length = 0 := by omega
        rw [List.length_eq_zero.1 a1, List.length_eq_zero.1 a2]
        rfl
      rw [if_pos hc, if_pos ⟨hc.1, this⟩]
    · have : ¬ (f = true ∧ (ksA ++ ksB).isEmpty = true) := by
        rintro ⟨g1, g2⟩
        apply hc
        refine ⟨g1, ?_⟩
        rw [List.isEmpty_iff] at g2
        have := congrArg List.length g2
        simp only [List.length_append, List.length_nil] at this
        simp only [List.length_append, List.length_cons]
        omega
      rw [if_neg hc, if_neg this]
  · intro x
    have hns : s ∉ ksA ∧ s ∉ ksB := by
      rw [List.nodup_append] at hnd
      obtain ⟨_, n2, n3⟩ := hnd
      exact ⟨fun hm => n3 hm (by simp), (List.nodup_cons.1 n2).1⟩
    simp only [List.mem_append, List.mem_cons]
    constructor
    · rintro (hx | hx)
      · exact ⟨Or.inl hx, fun e => hns.1 (e ▸ hx)⟩
      · exact ⟨Or.inr (Or.inr hx), fun e => hns.2 (e ▸ hx)⟩
    · rintro ⟨hx | hx | hx, hne⟩
      · exact Or.inl hx
      · exact absurd hx hne
      · exact Or.inr hx
  · simp only [List.length_append, List.length_cons]
    omega
  · simp only [List.length_append, List.length_cons]
    omega
  · intro hone
    simp only [List.length_append, List.length_cons] at hone
    have a1 : ksA.length = 0 := by omega
    have a2 : ksB.length = 0 := by omega
    have a3 : csB.length = 0 := by omega
    have a4 : csA.length = 0 := by omega
    rw [List.length_eq_zero.1 a1, List.length_eq_zero.1 a2, List.length_eq_zero.1 a3,
      List.length_eq_zero.1 a4, hin1]
    simp [inorder, interleave]
  · intro d t0 hcons hsum
    have hd : 3 ≤ d := by
      by_contra hlt3
      simp only [Construct] at hcons
      rw [if_pos (by omega)] at hcons
      simp at hcons
    obtain ⟨t2, c1, c2, _⟩ := Construct_inv d hd
    rw [c1] at hcons
    simp only [Except.ok.injEq] at hcons
    subst hcons
    obtain ⟨_, b2, _⟩ := inv_bounds d t2 c2
    simp only [List.length_append, List.length_cons]
    push_cast
    omega

/-- Witness of C15: degree 3, the parent `[10, 20]` over `[5]`, an emptied leaf and `[30]`;
the merge at 1 takes the right sibling and gives `[10]` over `[5]` and `[20, 30]`.  At the
root `[10]` over `[5]` and an emptied leaf, the merge at 1 takes the left sibling and the
merged node `[5, 10]` replaces the root. -/
theorem C15_merge_witness :
    (([10, 20] : List Int).Pairwise (· < ·)
      ∧ (MergeSiblings (BTree.mk 3 2 1 .null 4 4 1) false
          (.node [10, 20] [.node [5] [.null, .null], .node [] [.null],
            .node [30] [.null, .null]]) 1).map
          (fun r => (r.1.num_nodes_, r.1.height_, r.2.keys, r.2.children.map NodePtr.keys,
            inorder r.2)) = some (4, 1, [10], [[5], [20, 30]], [5, 10, 20, 30])
      ∧ (MergeSiblings (BTree.mk 3 2 1 .null 3 3 1) true
          (.node [10] [.node [5] [.null, .null], .node [] [.null]]) 1).map
          (fun r => (r.1.num_nodes_, r.1.height_, r.2.keys, r.2.children.map NodePtr.keys,
            inorder r.2)) = some (2, 0, [5, 10], [[], [], []], [5, 10]))
    ∧ (∃ s, ([10, 20] : List Int)[1]? = some s
      ∧ MergeSiblings (BTree.mk 3 2 1 .null 4 4 1) false
          (.node ([10, 20] : List Int) ([.node [5] [.null, .null], .node [] [.null], .node [30]
          [.null, .null]] : List NodePtr)) 1
          = some (if false = true ∧ ([10, 20] : List Int).length = 1 then
              ({ (BTree.mk 3 2 1 .null 4 4 1) with
                  num_nodes_ := wrap32 ((BTree.mk 3 2 1 .null 4 4 1).num_nodes_ - 1),
                  height_ := wrap32 ((BTree.mk 3 2 1 .null 4 4 1).height_ - 1) },
                .node (([] : List Int) ++ [s] ++ ([30] : List Int))
                    (([.null] : List NodePtr) ++ ([.null, .null] : List NodePtr)))
            else ((BTree.mk 3 2 1 .null 4 4 1), .node (([10, 20] : List Int).eraseIdx 1)
              ((([.node [5] [.null, .null], .node [] [.null], .node [30] [.null, .null]] : List
                  NodePtr).set 1 (.node (([] : List Int) ++ [s] ++ ([30] : List Int))
                  (([.null] : List NodePtr) ++ ([.null, .null] : List NodePtr)))).eraseIdx
                  (1 + 1))))
      ∧ (∀ x, x ∈ ([10, 20] : List Int).eraseIdx 1 ↔ x ∈ ([10, 20] : List Int) ∧ x ≠ s)
      ∧ (([10, 20] : List Int).eraseIdx 1).length + 1 = ([10, 20] : List Int).length
      ∧ ((([.node [5] [.null, .null], .node [] [.null], .node [30] [.null, .null]] : List
          NodePtr).set 1 (.node (([] : List Int) ++ [s] ++ ([30] : List Int))
          (([.null] : List NodePtr) ++ ([.null, .null] : List NodePtr)))).eraseIdx (1 + 1)).length
          + 1
          = ([.node [5] [.null, .null], .node [] [.null], .node [30] [.null, .null]] : List
              NodePtr).length
      ∧ inorder (.node (([] : List Int) ++ [s] ++ ([30] : List Int))
          (([.null] : List NodePtr) ++ ([.null, .null] : List NodePtr)))
          = inorder (.node ([] : List Int) ([.null] : List NodePtr)) ++ s :: inorder
              (.node ([30] : List Int) ([.null, .null] : List NodePtr))
      ∧ inorder (.node (([10, 20] : List Int).eraseIdx 1)
            ((([.node [5] [.null, .null], .node [] [.null], .node [30] [.null, .null]] : List
                NodePtr).set 1 (.node (([] : List Int) ++ [s] ++ ([30] : List Int))
                (([.null] : List NodePtr) ++ ([.null, .null] : List NodePtr)))).eraseIdx (1 + 1)))
          = inorder (.node ([10, 20] : List Int)
              ([.node [5] [.null, .null], .node [] [.null], .node [30] [.null, .null]] : List
              NodePtr))
      ∧ (([10, 20] : List Int).length = 1 → inorder
          (.node (([] : List Int) ++ [s] ++ ([30] : List Int))
          (([.null] : List NodePtr) ++ ([.null, .null] : List NodePtr))) = inorder
          (.node ([10, 20] : List Int) ([.node [5] [.null, .null], .node [] [.null], .node [30]
          [.null, .null]] : List NodePtr)))
      ∧ (∀ x : Int, -2147483648 < x → x < 2147483648 → wrap32 (x - 1) = x - 1)
      ∧ ∀ d t0, Construct d = .ok t0 →
          (([] : List Int).length : Int) + ([30] : List Int).length = 2 * t0.kMinKeys_ - 1 →
          ((([] : List Int) ++ [s] ++ ([30] : List Int)).length : Int) ≤ t0.kMaxKeys_) :=
  ⟨⟨by decide, by decide!, by decide!⟩,
    C15_merge (BTree.mk 3 2 1 .null 4 4 1) false [10, 20]
      [.node [5] [.null, .null], .node [] [.null], .node [30] [.null, .null]] 1 1 [] [30]
      [.null] [.null, .null] (by decide) rfl (by decide) rfl rfl rfl rfl⟩

/-- C17. In-order successor: on a tree reached by any sequence of calls, when `Find(k)` returns
an internal node (which then holds `k`), `InOrderSuccessor(k)` returns a stored key `s > k`
such that no stored key lies strictly between `k` and `s`; `s` is the first key of the leaf
reached from the child to the right of `k` by following first children, and `Find(s)` returns
that leaf. -/
theorem C17_successor (d : Int) (hd : 3 ≤ d) (ops : List Op) (k : Int) :
    ∃ t, runFresh d ops = some t
      ∧ ∀ fk fc, t.Find k = some (.node fk fc) → fc.all NodePtr.isNull = false →
        ∃ s itr lk lc, t.InOrderSuccessor k = some s
          ∧ k ∈ fk ∧ k < s ∧ s ∈ inorder t.root_
          ∧ (∀ x ∈ inorder t.root_, k < x → s ≤ x)
          ∧ fc[scanKeys fk k + 1]? = some itr
          ∧ descendFront itr = some (.node lk lc) ∧ lk.head? = some s
          ∧ lc.all NodePtr.isNull = true
          ∧ t.Find s = some (.node lk lc) := by
  obtain ⟨t, q1, q2⟩ := runFresh_struct d hd ops
  obtain ⟨hlo, _, _⟩ := struct_bounds d t q2
  obtain ⟨n, f1, f3⟩ := Find_struct d t k q2
  refine ⟨t, q1, ?_⟩
  intro fk fc hfind hfc
  obtain ⟨_, _, _, _, hcase⟩ := q2
  rcases hcase with ⟨hr, hk⟩ | ⟨h, hok, _, _, hs⟩
  · simp [BTree.Find, (Empty_iff t).2 hk] at hfind
  · have he : t.Empty = false := by
      cases hE : t.Empty with
      | false => rfl
      | true => simp [BTree.Find, hE] at hfind
    have hsearch : SearchNode t.root_ k = some (.node fk fc) := by
      simpa only [BTree.Find, he, Bool.false_eq_true, if_false] using hfind
    obtain ⟨itr, leafk, leafc, s, w1, w2, w3, ⟨A, B, w4⟩, w5, w6⟩ :=
      successor_spec t.kMinKeys_ t.kMaxKeys_ hlo k h t.root_ hok hs fk fc hsearch hfc
    have hmem : k ∈ fk := by
      rw [hfind] at f1
      simp only [Option.some.injEq] at f1
      subst f1
      exact (f3 (by simp)).2.2.1
    rw [w4] at hs
    obtain ⟨hA, hB, hAB⟩ := List.pairwise_append.1 hs
    obtain ⟨hk1, hB1⟩ := List.pairwise_cons.1 hB
    obtain ⟨hs1, _⟩ := List.pairwise_cons.1 hB1
    refine ⟨s, itr, leafk, leafc, ?_, hmem, hk1 s (by simp), ?_, ?_, w1, w2, w3, w6, ?_⟩
    · simp only [BTree.InOrderSuccessor, hfind, w1, w2, w3]
    · rw [w4]
      simp
    · intro x hx hkx
      rw [w4] at hx
      simp only [List.mem_append, List.mem_cons] at hx
      rcases hx with hx | hx | hx | hx
      · have := hAB x hx k (by simp)
        omega
      · omega
      · omega
      · exact le_of_lt (hs1 x hx)
    · simp only [BTree.Find, he, Bool.false_eq_true, if_false]
      exact w5

/-- Witness of C17: degree 3, `Insert 10, 20, 5` gives the root `[10]` over `[5]` and `[20]`;
the successor of the root key 10 is 20. -/
theorem C17_successor_witness :
    ((3 : Int) ≤ 3
      ∧ (runFresh 3 [.Insert 10, .Insert 20, .Insert 5]).bind
          (fun t => t.InOrderSuccessor 10) = some 20)
    ∧ (∃ t, runFresh 3 [.Insert 10, .Insert 20, .Insert 5] = some t
      ∧ ∀ fk fc, t.Find 10 = some (.node fk fc) → fc.all NodePtr.isNull = false →
        ∃ s itr lk lc, t.InOrderSuccessor 10 = some s
          ∧ 10 ∈ fk ∧ 10 < s ∧ s ∈ inorder t.root_
          ∧ (∀ x ∈ inorder t.root_, 10 < x → s ≤ x)
          ∧ fc[scanKeys fk 10 + 1]? = some itr
          ∧ descendFront itr = some (.node lk lc) ∧ lk.head? = some s
          ∧ lc.all NodePtr.isNull = true
          ∧ t.Find s = some (.node lk lc)) :=
  ⟨⟨by decide, by decide!⟩,
    C17_successor 3 (by decide) [.Insert 10, .Insert 20, .Insert 5] 10⟩

/-- C18. Method `Remove` is total on reachable trees: on a tree reached by any sequence of calls
on a fresh tree of degree at least 3, `Remove(k)` returns, and so do the calls it makes
(`Find`, and when `k` is found and is not the only key, `InOrderSuccessor` for a key in an
internal node, the top-level `RecursiveRemove`, and `FindAndReplace`).  In the embedding an
access out of range or through a null pointer makes the call return nothing, so a call
that returns has made none: whenever `RecursiveRemove` returns it has met the key in a node,
and whenever `BalanceTree(parent, idx)` returns the parent has at least two children, the
child at `idx` is a node, and the sibling at `idx + 1` or at `idx - 1` is a node. -/
theorem C18_remove_total (d : Int) (hd : 3 ≤ d) (ops : List Op) (k : Int) :
    (∃ t t1, runFresh d ops = some t ∧ t.Remove k = some t1
      ∧ ∃ n, t.Find k = some n
        ∧ ∀ fk fc, n = .node fk fc → t.NumKeys ≠ 1 →
          ∃ key1 tR slot,
            ((fc.all NodePtr.isNull = true ∧ key1 = k)
              ∨ (fc.all NodePtr.isNull = false ∧ t.InOrderSuccessor k = some key1))
            ∧ RecursiveRemove t false .null t.root_ 0 key1 = some (tR, slot)
            ∧ (fc.all NodePtr.isNull = false →
                ∃ t2, FindAndReplace { tR with root_ := slot } k key1 = some t2))
    ∧ (∀ (tt : BTree) (f : Bool) (parent root : NodePtr) (ridx : Nat) (key : Int)
        (r : BTree × NodePtr), RecursiveRemove tt f parent root ridx key = some r →
        ∃ fk fc, SearchNode root key = some (.node fk fc) ∧ key ∈ fk)
    ∧ (∀ (tt : BTree) (f : Bool) (parent : NodePtr) (idx : Nat) (r : BTree × NodePtr),
        BalanceTree tt f parent idx = some r →
        ∃ pk pc, parent = .node pk pc ∧ 2 ≤ pc.length
          ∧ (∃ ck cc, pc[idx]? = some (.node ck cc))
          ∧ ((∃ rk rc, pc[idx + 1]? = some (.node rk rc))
            ∨ (1 ≤ idx ∧ ∃ lk lc, pc[idx - 1]? = some (.node lk lc)))) := by
  refine ⟨?_, ?_, ?_⟩
  · obtain ⟨t, q1, q2⟩ := runFresh_struct d hd ops
    obtain ⟨t1, hrem, _⟩ := Remove_struct d t k q2
    obtain ⟨n, hfind, _⟩ := Find_struct d t k q2
    refine ⟨t, t1, q1, hrem, n, hfind, ?_⟩
    intro fk fc hn hne
    subst hn
    rcases Remove_inversion t t1 k hrem with ⟨p1, _⟩ | ⟨_, _, _, p2, _⟩
        | ⟨fk1, fc1, tR, slot, p1, p2, p3, p4, p5⟩
        | ⟨fk1, fc1, s, tR, slot, root2, p1, p2, p3, p4, p5, p6, p7, p8⟩
    · rw [hfind] at p1
      simp at p1
    · exact absurd p2 hne
    · rw [hfind] at p1
      simp only [Option.some.injEq, NodePtr.node.injEq] at p1
      obtain ⟨_, e2⟩ := p1
      subst e2
      refine ⟨k, tR, slot, Or.inl ⟨p3, rfl⟩, p4, ?_⟩
      intro hc
      rw [p3] at hc
      simp at hc
    · rw [hfind] at p1
      simp only [Option.some.injEq, NodePtr.node.injEq] at p1
      obtain ⟨_, e2⟩ := p1
      subst e2
      refine ⟨s, tR, slot, Or.inr ⟨p3, p4⟩, p5, ?_⟩
      intro _
      have hE : BTree.Empty { tR with root_ := slot } = false := p6
      refine ⟨{ tR with root_ := root2 }, ?_⟩
      simp only [BTree.FindAndReplace, hE, Bool.false_eq_true, if_false, p7]
  · intro tt f parent root ridx key r h
    exact RecursiveRemove_some_search key root tt f parent ridx r h
  · intro tt f parent idx r h
    exact BalanceTree_some tt f parent idx r h

/-- Witness of C18: degree 3, `Insert 10, 20, 5` and then `Remove 10`, a key in the internal
root: the call returns and leaves the keys `[5, 20]`. -/
theorem C18_remove_total_witness :
    ((3 : Int) ≤ 3
      ∧ (runFresh 3 [.Insert 10, .Insert 20, .Insert 5, .Remove 10]).map
          (fun t => inorder t.root_) = some [5, 20])
    ∧ ((∃ t t1, runFresh 3 [.Insert 10, .Insert 20, .Insert 5] = some t ∧ t.Remove 10 = some t1
      ∧ ∃ n, t.Find 10 = some n
        ∧ ∀ fk fc, n = .node fk fc → t.NumKeys ≠ 1 →
          ∃ key1 tR slot,
            ((fc.all NodePtr.isNull = true ∧ key1 = 10)
              ∨ (fc.all NodePtr.isNull = false ∧ t.InOrderSuccessor 10 = some key1))
            ∧ RecursiveRemove t false .null t.root_ 0 key1 = some (tR, slot)
            ∧ (fc.all NodePtr.isNull = false →
                ∃ t2, FindAndReplace { tR with root_ := slot } 10 key1 = some t2))
    ∧ (∀ (tt : BTree) (f : Bool) (parent root : NodePtr) (ridx : Nat) (key : Int)
        (r : BTree × NodePtr), RecursiveRemove tt f parent root ridx key = some r →
        ∃ fk fc, SearchNode root key = some (.node fk fc) ∧ key ∈ fk)
    ∧ (∀ (tt : BTree) (f : Bool) (parent : NodePtr) (idx : Nat) (r : BTree × NodePtr),
        BalanceTree tt f parent idx = some r →
        ∃ pk pc, parent = .node pk pc ∧ 2 ≤ pc.length
          ∧ (∃ ck cc, pc[idx]? = some (.node ck cc))
          ∧ ((∃ rk rc, pc[idx + 1]? = some (.node rk rc))
            ∨ (1 ≤ idx ∧ ∃ lk lc, pc[idx - 1]? = some (.node lk lc))))) :=
  ⟨⟨by decide, by decide!⟩,
    C18_remove_total 3 (by decide) [.Insert 10, .Insert 20, .Insert 5] 10⟩

